import Mathlib

/-!
# Buddy allocator of `heap.c`

A shallow embedding of the C program `heap.c` (a buddy-system `malloc`/`free`
over a simulated Cortex-M SRAM image) and a verification development about it.

* The SRAM image `char array[0x8000]` is a map from array index to byte.
* `int` values are mathematical integers; the two places where the C code
  depends on machine width (the 16-bit control entries and the 32-bit shift in
  the returned address) wrap explicitly.
* Undefined steps of the C program (an access outside `array`, a division by
  zero) are reported as errors; the recursive helpers carry a recursion budget.
-/

namespace Heap

/-! ## Machine-level helpers -/

/-- An undefined step of the C program, or an exhausted recursion budget of the model. -/
inductive Err where
  | oob
  | divZero
  | fuel
  deriving DecidableEq, Repr

/-- The SRAM image `char array[0x8000]`: array index to byte value. -/
abbrev Mem := Int → Int

/-- Wrap an integer to a signed 32-bit `int`. -/
def wrap32 (x : Int) : Int := (x + 2147483648) % 4294967296 - 2147483648

/-- The unsigned 32-bit representation of an `int`. -/
def toU32 (x : Int) : Nat := (x % 4294967296).toNat

/-- Conversion of an `int` to `short` (two's complement, 16 bits). -/
def toShort (v : Int) : Int := (v + 32768) % 65536 - 32768

/-- Bitwise `x & y` on 32-bit two's complement operands. -/
def band (x y : Int) : Int := wrap32 ((toU32 x &&& toU32 y : Nat) : Int)

/-- Bitwise `x | y` on 32-bit two's complement operands. -/
def bor (x y : Int) : Int := wrap32 ((toU32 x ||| toU32 y : Nat) : Int)

/-- Read `*(short *)&array[i]` (little endian); outside the array the access is undefined. -/
def loadShort (m : Mem) (i : Int) : Except Err Int :=
  if 0 ≤ i ∧ i + 1 < 0x8000 then
    .ok (toShort (m i % 256 + 256 * (m (i + 1) % 256)))
  else .error .oob

/-- The image after the two bytes at `i`, `i + 1` receive the `short` value `v`. -/
def putShort (m : Mem) (i : Int) (v : Int) : Mem :=
  fun a => if a = i then v % 256 else if a = i + 1 then v / 256 % 256 else m a

/-- Write `*(short *)&array[i] = v` (little endian); outside the array the access is undefined. -/
def storeShort (m : Mem) (i : Int) (v : Int) : Except Err Mem :=
  if 0 ≤ i ∧ i + 1 < 0x8000 then .ok (putShort m i v) else .error .oob

/-- Write `array[i] = v` for an index known to lie inside the array. -/
def storeByte (m : Mem) (i : Int) (v : Int) : Mem :=
  fun a => if a = i then v % 256 else m a

/-! ## Global constants of `heap.c` -/

def heap_top : Int := 0x20001000
def heap_bot : Int := 0x20004FE0
def max_size : Int := 0x00004000
def min_size : Int := 0x00000020
def mcb_top : Int := 0x20006800
def mcb_bot : Int := 0x20006BFE
def mcb_ent_sz : Int := 0x00000002
def mcb_total : Int := 512

/-- Convert a Cortex SRAM address to the corresponding array index. -/
def m2a (sram_addr : Int) : Int := sram_addr - 0x20000000

/-- Reverse an array index back to the corresponding Cortex SRAM address. -/
def a2m (array_index : Int) : Int := array_index + 0x20000000

/-! ## The allocator -/

/-- The recursive helper `_ralloc(size, left, right)`; the first argument bounds the
recursion depth, the result is the returned pointer (`0` is `NULL`) and the new image.
The returned address `(void *)((left - 0x6800) << 4) + heap_top` shifts a 32-bit `int`,
which drops the `0x20000000` of `left`: the shift wraps. -/
def _ralloc : Nat → Int → Int → Int → Mem → Except Err (Int × Mem)
  | 0, _, _, _, _ => .error .fuel
  | fuel + 1, size, left, right, m =>
    let entire := right - left + mcb_ent_sz
    let half := Int.tdiv entire 2
    let midpoint := left + half
    let act_entire_size := entire * 16
    let act_half_size := half * 16
    if size < min_size ∨ size > max_size then .ok (0, m)
    else if size ≤ act_half_size then
      match _ralloc fuel size left (midpoint - mcb_ent_sz) m with
      | .error e => .error e
      | .ok (returnAddress, m1) =>
        if returnAddress = 0 then _ralloc fuel size midpoint right m1
        else
          match loadShort m1 (m2a midpoint) with
          | .error e => .error e
          | .ok v =>
            if band v 0x01 = 0 then
              match storeShort m1 (m2a midpoint) act_half_size with
              | .error e => .error e
              | .ok m2 => .ok (returnAddress, m2)
            else .ok (returnAddress, m1)
    else
      match loadShort m (m2a left) with
      | .error e => .error e
      | .ok v =>
        if Int.tmod v 2 = 0 then
          if v ≥ act_entire_size then
            match storeShort m (m2a left) (bor act_entire_size 0x01) with
            | .error e => .error e
            | .ok m1 => .ok (wrap32 ((left - 0x6800) * 16) + heap_top, m1)
          else .ok (0, m)
        else .ok (0, m)

/-- The recursive helper `_rfree(mcb_addr)`; the first argument bounds the recursion
depth, the result is the returned `int` and the new image.  `cleared` is the effect of
`*(short *)&array[m2a(mcb_addr)] = mcb_contents &= ~(0x1U)` on an odd entry; the division
`(mcb_addr - mcb_top) / (mcb_contents / 16)` is undefined when `mcb_contents / 16` is 0. -/
def _rfree : Nat → Int → Mem → Except Err (Int × Mem)
  | 0, _, _ => .error .fuel
  | fuel + 1, mcb_addr, m =>
    match loadShort m (m2a mcb_addr) with
    | .error e => .error e
    | .ok v =>
      let mcb_curr := if Int.tmod v 2 = 0 then Int.tdiv v 16 else Int.tdiv (v - 1) 16
      let cleared : Except Err (Int × Mem) :=
        if Int.tmod v 2 ≠ 0 then
          match storeShort m (m2a mcb_addr) (band v 0xFFFFFFFE) with
          | .error e => .error e
          | .ok m1 => .ok (band v 0xFFFFFFFE, m1)
        else .ok (v, m)
      match cleared with
      | .error e => .error e
      | .ok (mcb_contents, m1) =>
        if Int.tdiv mcb_contents 16 = 0 then .error .divZero
        else
          let index := Int.tdiv (mcb_addr - mcb_top) (Int.tdiv mcb_contents 16)
          if Int.tmod index 2 = 0 then
            let buddy := mcb_addr + mcb_curr
            match loadShort m1 (m2a buddy) with
            | .error e => .error e
            | .ok buddy_contents =>
              if buddy_contents = mcb_contents ∧ Int.tmod buddy_contents 2 = 0 then
                match storeShort m1 (m2a buddy) 0 with
                | .error e => .error e
                | .ok m2 =>
                  match storeShort m2 (m2a mcb_addr) (mcb_contents + buddy_contents) with
                  | .error e => .error e
                  | .ok m3 => _rfree fuel mcb_addr m3
              else .ok (mcb_addr, m1)
          else
            let buddy := mcb_addr - mcb_curr
            match loadShort m1 (m2a buddy) with
            | .error e => .error e
            | .ok buddy_contents =>
              if buddy_contents = mcb_contents ∧ Int.tmod buddy_contents 2 = 0 then
                match storeShort m1 (m2a mcb_addr) 0 with
                | .error e => .error e
                | .ok m2 =>
                  match storeShort m2 (m2a buddy) (buddy_contents + mcb_contents) with
                  | .error e => .error e
                  | .ok m3 => _rfree fuel buddy m3
              else .ok (mcb_addr, m1)

/-- The entry point `_kalloc(size)`: `_ralloc` over the whole control table.  The window
halves at every call, from 1024 bytes down to 2, so ten nested calls are the most
the C recursion can make. -/
def _kalloc (size : Int) (m : Mem) : Except Err (Int × Mem) :=
  _ralloc 10 size mcb_top mcb_bot m

/-- The entry point `_kfree(ptr)`.  A merge doubles a 16-bit entry, so sixteen nested
calls of `_rfree` are the most the C recursion can make. -/
def _kfree (ptr : Int) (m : Mem) : Except Err (Int × Mem) :=
  let addr := ptr
  if addr < heap_top ∨ addr > heap_bot then .ok (0, m)
  else
    let mcb_addr := mcb_top + Int.tdiv (addr - heap_top) 16
    match _rfree 16 mcb_addr m with
    | .error e => .error e
    | .ok (r, m1) => if r = 0 then .ok (0, m1) else .ok (ptr, m1)

/-- The loop `for (i = lo; i < hi; i++) array[m2a(i)] = 0` of `_kinit`, run for at most
`n` iterations. -/
def zeroBytes : Nat → Int → Int → Mem → Mem
  | 0, _, _, m => m
  | n + 1, i, hi, m => if i < hi then zeroBytes n (i + 1) hi (storeByte m (m2a i) 0) else m

/-- The loop `for (i = lo; i < hi; i += 2) { array[m2a(i)] = 0; array[m2a(i + 1)] = 0; }`
of `_kinit`, run for at most `n` iterations. -/
def zeroPairs : Nat → Int → Int → Mem → Mem
  | 0, _, _, m => m
  | n + 1, i, hi, m =>
    if i < hi then
      zeroPairs n (i + 2) hi (storeByte (storeByte m (m2a i) 0) (m2a (i + 1)) 0)
    else m

/-- The initialiser `_kinit()`.  Every index it touches is a constant inside the array,
so the stores cannot fail; the iteration counts are those of the two loops. -/
@[irreducible] def _kinit (m : Mem) : Mem :=
  let m1 := zeroBytes 0x4000 0x20001000 0x20005000 m
  let m2 := putShort m1 (m2a mcb_top) max_size
  zeroPairs 0x1FE 0x20006804 0x20006C00 m2

/-! ## Sequences of calls -/

/-- The image before `_kinit`: the zero-initialised global `array`. -/
def zeroMem : Mem := fun _ => 0

/-- One call made by a client of the allocator. -/
inductive Op where
  | alloc (size : Int)
  | free (ptr : Int)
  deriving DecidableEq, Repr

/-- The image together with the blocks handed out and not yet freed, each recorded as
the address `_kalloc` returned and the size that was requested. -/
structure State where
  mem : Mem
  live : List (Int × Int)

/-- The state right after `_kinit` on the zero-initialised image. -/
def initState : State := ⟨_kinit zeroMem, []⟩

/-- One client call.  `_kfree` is only called on an address that is currently allocated;
a call that is not of this kind, or that runs into an undefined step, has no successor. -/
def step (st : State) : Op → Option State
  | .alloc size =>
    match _kalloc size st.mem with
    | .error _ => none
    | .ok (p, m1) => if p = 0 then some ⟨m1, st.live⟩ else some ⟨m1, (p, size) :: st.live⟩
  | .free ptr =>
    if ptr ∈ st.live.map Prod.fst then
      match _kfree ptr st.mem with
      | .error _ => none
      | .ok (_, m1) => some ⟨m1, st.live.filter (fun b => b.1 ≠ ptr)⟩
    else none

/-- A sequence of client calls, in order. -/
def run : List Op → State → Option State
  | [], st => some st
  | op :: ops, st =>
    match step st op with
    | none => none
    | some st1 => run ops st1

/-- The states the allocator can be in: those reached from the post-`_kinit` state by
calls of `_kalloc` and calls of `_kfree` on currently allocated addresses. -/
def Reachable (st : State) : Prop := ∃ ops, run ops initState = some st

/-- The smallest power of two that is at least `size` (and at least 32), among the block
sizes of the allocator; `0` when `size` exceeds the largest block. -/
def blockSize (size : Int) : Int :=
  if size ≤ 32 then 32
  else if size ≤ 64 then 64
  else if size ≤ 128 then 128
  else if size ≤ 256 then 256
  else if size ≤ 512 then 512
  else if size ≤ 1024 then 1024
  else if size ≤ 2048 then 2048
  else if size ≤ 4096 then 4096
  else if size ≤ 8192 then 8192
  else if size ≤ 16384 then 16384
  else 0

/-- The byte ranges `[A, A + extent)` of two handed-out blocks do not intersect, the extent
of a block being the smallest power of two that holds the requested size. -/
def extentsDisjoint (b1 b2 : Int × Int) : Prop :=
  b1.1 + blockSize b1.2 ≤ b2.1 ∨ b2.1 + blockSize b2.2 ≤ b1.1

/-- No two of the blocks currently handed out overlap. -/
def NoOverlap (live : List (Int × Int)) : Prop := live.Pairwise extentsDisjoint

deriving instance DecidableEq for Except

/-! ## The control table as a list of entries

The allocator only ever touches the 512 two-byte control entries.  The functions below
restate `_ralloc` and `_rfree` on the list of these entries; they are proved to agree
with the functions above and serve to evaluate call sequences. -/

/-- Control entry number `s`: the `short` at `mcb_top + 2 * s`. -/
def ent (m : Mem) (s : Nat) : Int :=
  toShort (m (0x6800 + 2 * (s : Int)) % 256 + 256 * (m (0x6800 + 2 * (s : Int) + 1) % 256))

/-- The 512 control entries of an image. -/
@[irreducible] def tabOf (m : Mem) : List Int := (List.range 512).map (ent m)

/-- Entry `s` of a table; reading past the end gives `0`. -/
def getE (T : List Int) (s : Nat) : Int := T.getD s 0

/-- The base case of `_ralloc` on the window of `2 ^ j` entries starting at entry `i`. -/
def baseT (j i : Nat) (T : List Int) : Option Nat × List Int :=
  if getE T i % 2 = 0 ∧ getE T i ≥ 32 * 2 ^ j then (some i, T.set i (32 * 2 ^ j + 1))
  else (none, T)

/-- The search of `_ralloc` on the window of `2 ^ j` entries starting at entry `i`, for a
size already known to lie in `[min_size, max_size]`; the result is the entry found. -/
def rallocT : Nat → Int → Nat → List Int → Option Nat × List Int
  | 0, _, i, T => baseT 0 i T
  | j + 1, size, i, T =>
    if size ≤ 32 * 2 ^ j then
      match rallocT j size i T with
      | (none, T1) => rallocT j size (i + 2 ^ j) T1
      | (some t, T1) =>
        if getE T1 (i + 2 ^ j) % 2 = 0 then (some t, T1.set (i + 2 ^ j) (32 * 2 ^ j))
        else (some t, T1)
    else baseT (j + 1) i T

/-- The pointer `_ralloc` returns for the entry it found: `NULL` when it found none. -/
def ptrOf : Option Nat → Int
  | none => 0
  | some t => heap_top + 32 * (t : Int)

/-- The table-level `_kalloc`: the returned pointer and the new table. -/
def kallocT (size : Int) (T : List Int) : Int × List Int :=
  if size < 32 ∨ size > 16384 then (0, T)
  else (ptrOf (rallocT 9 size 0 T).1, (rallocT 9 size 0 T).2)

/-- The level `k` of an entry that records a block of `32 * 2 ^ k` bytes, free or occupied. -/
def levelOf (v : Int) : Option Nat :=
  (List.range 10).find? (fun k => v = 32 * 2 ^ k ∨ v = 32 * 2 ^ k + 1)

/-- The table-level `_rfree` at entry `s`.  The result is `none` when the entry read is not
a block entry aligned to its size (the table model does not cover that case). -/
def rfreeT : Nat → Nat → List Int → Option (Except Err (Nat × List Int))
  | 0, _, _ => some (.error .fuel)
  | fuel + 1, s, T =>
    if 512 ≤ s then none
    else if getE T s = 0 then some (.error .divZero)
    else
      match levelOf (getE T s) with
      | none => none
      | some k =>
        if s % 2 ^ k ≠ 0 then none
        else
          let c : Int := 32 * 2 ^ k
          let T1 := if getE T s % 2 = 0 then T else T.set s c
          if s / 2 ^ k % 2 = 0 then
            if getE T1 (s + 2 ^ k) = c then
              rfreeT fuel s ((T1.set (s + 2 ^ k) 0).set s (c + c))
            else some (.ok (s, T1))
          else
            if getE T1 (s - 2 ^ k) = c then
              rfreeT fuel (s - 2 ^ k) ((T1.set s 0).set (s - 2 ^ k) (c + c))
            else some (.ok (s, T1))

/-- The table-level `_kfree`, for pointers that are `NULL`-rejected or 32-byte aligned. -/
def kfreeT (ptr : Int) (T : List Int) : Option (Except Err (Int × List Int)) :=
  if ptr < heap_top ∨ ptr > heap_bot then some (.ok (0, T))
  else if (ptr - heap_top) % 32 ≠ 0 then none
  else
    match rfreeT 16 ((ptr - heap_top) / 32).toNat T with
    | none => none
    | some (.error e) => some (.error e)
    | some (.ok (_, T1)) => some (.ok (ptr, T1))

/-- The table after a call of the table-level `_kfree` that returns its argument. -/
def freeThenT (ptr : Int) (T : List Int) : Option (List Int) :=
  match kfreeT ptr T with
  | some (.ok (p, T1)) => if p = ptr then some T1 else none
  | _ => none

/-- The table right after `_kinit` on the zero-initialised image. -/
@[irreducible] def initTab : List Int := 16384 :: List.replicate 511 0

/-- One client call on the table. -/
def stepT (st : List Int × List (Int × Int)) : Op → Option (List Int × List (Int × Int))
  | .alloc size =>
    match kallocT size st.1 with
    | (p, T1) => if p = 0 then some (T1, st.2) else some (T1, (p, size) :: st.2)
  | .free ptr =>
    if ptr ∈ st.2.map Prod.fst then
      match kfreeT ptr st.1 with
      | some (.ok (_, T1)) => some (T1, st.2.filter (fun b => b.1 ≠ ptr))
      | _ => none
    else none

/-- A sequence of client calls on the table, in order. -/
def runT : List Op → List Int × List (Int × Int) → Option (List Int × List (Int × Int))
  | [], st => some st
  | op :: ops, st =>
    match stepT st op with
    | none => none
    | some st1 => runT ops st1

/-! ## The shape of the control table

A non-zero entry records a block of `32 * 2 ^ k` bytes, free or occupied, at an entry
number that is a multiple of `2 ^ k`.  The table need not describe a partition into
allocated and free blocks (a free entry may be overwritten while blocks inside its range
are allocated), but the entries met by walking from block start to block start always
tile the arena. -/

/-- The entry `e` records a block of `32 * 2 ^ k` bytes, free or occupied. -/
def HasLevel (e : Int) (k : Nat) : Prop := e = 32 * 2 ^ k ∨ e = 32 * 2 ^ k + 1

/-- Entry `s` is zero or records a block of a valid size at an aligned position. -/
def WFEntry (T : List Int) (s : Nat) : Prop :=
  getE T s = 0 ∨ ∃ k, k ≤ 9 ∧ HasLevel (getE T s) k ∧ 2 ^ k ∣ s

/-- The window of `2 ^ j` entries starting at entry `i` is tiled by block entries: its
first entry records the whole window, or both halves are tiled. -/
def Cover (T : List Int) : Nat → Nat → Prop
  | 0, i => HasLevel (getE T i) 0
  | j + 1, i => HasLevel (getE T i) (j + 1) ∨ (Cover T j i ∧ Cover T j (i + 2 ^ j))

/-- The window of `2 ^ j` entries starting at `i` is tiled, or lies inside the block its
first entry records, or its first entry is unset. -/
def NodeOK (T : List Int) (j i : Nat) : Prop :=
  Cover T j i ∨ (∃ k, j < k ∧ HasLevel (getE T i) k) ∨ getE T i = 0

/-- Every entry of the window is well formed and every aligned window inside it is
`NodeOK`. -/
def GoodW (T : List Int) : Nat → Nat → Prop
  | 0, i => WFEntry T i ∧ NodeOK T 0 i
  | j + 1, i => NodeOK T (j + 1) i ∧ GoodW T j i ∧ GoodW T j (i + 2 ^ j)

/-- The invariant of the control table. -/
def Good (T : List Int) : Prop := T.length = 512 ∧ GoodW T 9 0 ∧ getE T 0 ≠ 0

/-- Every block handed out and not yet freed has an occupied entry. -/
def LiveOK (T : List Int) (live : List (Int × Int)) : Prop :=
  ∀ b ∈ live, ∃ t : Nat, t < 512 ∧ b.1 = heap_top + 32 * (t : Int) ∧ getE T t % 2 = 1

/-- The recorded size of an entry: the entry with its low bit cleared. -/
def sizeOf (e : Int) : Int := e - e % 2

/-- Walk the control table from entry `s`, advancing from each block-start entry by the
size it records (`size / 32` entries) and adding up the sizes; the result is the sum when
the walk ends exactly at the end of the table. -/
def walkFrom (m : Mem) : Nat → Nat → Int → Option Int
  | 0, _, _ => none
  | fuel + 1, s, acc =>
    if s = 512 then some acc
    else if 512 < s then none
    else if sizeOf (ent m s) / 32 ≤ 0 then none
    else walkFrom m fuel (s + (sizeOf (ent m s) / 32).toNat) (acc + sizeOf (ent m s))

/-- The walk over the whole table: at most 512 blocks, then the end test. -/
def walk (m : Mem) : Option Int := walkFrom m 513 0 0

/-- What the table-level search on the window of `2 ^ j` entries at `i` guarantees about its
result `r`, for a table `T` of 512 entries whose window has the invariant shape. -/
def AllocPost (T : List Int) (j i : Nat) (r : Option Nat × List Int) : Prop :=
  r.2.length = 512 ∧ GoodW r.2 j i
    ∧ (∀ s, s < i ∨ i + 2 ^ j ≤ s → getE r.2 s = getE T s)
    ∧ (∀ s, getE T s ≠ 0 → getE r.2 s ≠ 0)
    ∧ (∀ s, getE T s % 2 = 1 → getE r.2 s = getE T s)
    ∧ (r.1 = none → r.2 = T)
    ∧ (∀ t, r.1 = some t → i ≤ t ∧ t < i + 2 ^ j ∧ getE r.2 t % 2 = 1)

/-- What the table-level `_rfree` at entry `s`, which records a block of `32 * 2 ^ k` bytes,
guarantees about the table `T'` it produces from a table `T` with the invariant. -/
def FreePost (T : List Int) (s k : Nat) (T' : List Int) : Prop :=
  Good T'
    ∧ (∀ u, u ≠ s → getE T u % 2 = 1 → getE T' u = getE T u)
    ∧ (∀ u, ¬ 2 ^ k ∣ u → getE T' u = getE T u)
    ∧ (getE T' s = 0 ∨ ∃ k', k ≤ k' ∧ getE T' s = 32 * 2 ^ k')

/-- The invariant of a state: the control table has the invariant shape, the two bytes
after the table are zero, and every block handed out has an occupied entry. -/
def InvSt (st : State) : Prop :=
  Good (tabOf st.mem) ∧ ent st.mem 512 = 0 ∧ LiveOK (tabOf st.mem) st.live

/-! ## Placement -/

/-- Entry `t` can take a block of `32 * 2 ^ k` bytes: its number is a multiple of `2 ^ k`,
and it is even (free) and at least `32 * 2 ^ k`. -/
def FitsT (T : List Int) (k t : Nat) : Prop :=
  2 ^ k ∣ t ∧ getE T t % 2 = 0 ∧ getE T t ≥ 32 * 2 ^ k

/-- What the table-level search for a block of `32 * 2 ^ k` bytes on the window of `2 ^ j`
entries at `i` returns: nothing, with the table unchanged, when no entry of the window can
take the block; otherwise the lowest entry that can, which it marks as occupied. -/
def FirstFit (T : List Int) (k j i : Nat) (r : Option Nat × List Int) : Prop :=
  (r.1 = none → r.2 = T ∧ ∀ t, i ≤ t → t < i + 2 ^ j → ¬ FitsT T k t)
    ∧ (∀ t, r.1 = some t → i ≤ t ∧ t < i + 2 ^ j ∧ FitsT T k t
        ∧ (∀ u, i ≤ u → u < t → ¬ FitsT T k u) ∧ getE r.2 t = 32 * 2 ^ k + 1)

/-- The control-table address `s` can take a block of `P` bytes: it lies in
`[mcb_top, mcb_bot]`, its offset from `mcb_top` is a multiple of `P / 16`, and the entry
read there is even (free) and at least `P`. -/
def Candidate (m : Mem) (P s : Int) : Prop :=
  mcb_top ≤ s ∧ s ≤ mcb_bot ∧ (s - mcb_top) % (P / 16) = 0
    ∧ ∃ e, loadShort m (m2a s) = .ok e ∧ e % 2 = 0 ∧ e ≥ P

/-! ## The buddy of an entry -/

/-- The buddy address `_rfree` computes for the entry at `mcb_addr` whose contents, with the
occupied bit cleared, are `c`: `mcb_addr + c / 16` when the index
`(mcb_addr - mcb_top) / (c / 16)` is even, `mcb_addr - c / 16` when it is odd. -/
def buddyOf (mcb_addr c : Int) : Int :=
  if Int.tmod (Int.tdiv (mcb_addr - mcb_top) (Int.tdiv c 16)) 2 = 0 then
    mcb_addr + Int.tdiv c 16
  else mcb_addr - Int.tdiv c 16

/-- The image after `_rfree` has cleared the occupied bit of the entry `v` it read at
`mcb_addr`: an even entry is left as it is, an odd one is rewritten without the bit. -/
def clearOccupied (m : Mem) (mcb_addr v : Int) : Mem :=
  if v % 2 = 0 then m else putShort m (m2a mcb_addr) (sizeOf v)

/-- The image after `_rfree` has merged the entry `v` it read at `mcb_addr` with its buddy:
the occupied bit is cleared, the higher entry of the pair receives 0 and the lower one the
sum of the two equal sizes. -/
def mergeBuddies (m : Mem) (mcb_addr v : Int) : Mem :=
  putShort
    (putShort (clearOccupied m mcb_addr v) (m2a (max mcb_addr (buddyOf mcb_addr (sizeOf v)))) 0)
    (m2a (min mcb_addr (buddyOf mcb_addr (sizeOf v)))) (sizeOf v + sizeOf v)

/-! ## Machine arithmetic -/

theorem toShort_of_range (v : Int) (h1 : -32768 ≤ v) (h2 : v < 32768) : toShort v = v := by
  unfold toShort; omega

theorem toShort_bytes (v : Int) :
    toShort (v % 256 % 256 + 256 * (v / 256 % 256 % 256)) = toShort v := by
  unfold toShort; omega

theorem tmod_two_eq_zero_iff (v : Int) : Int.tmod v 2 = 0 ↔ v % 2 = 0 := by
  rw [← Int.dvd_iff_tmod_eq_zero, Int.dvd_iff_emod_eq_zero]

theorem toU32_one : toU32 1 = 1 := by decide

theorem band_one (v : Int) : band v 0x01 = v % 2 := by
  unfold band
  rw [toU32_one, Nat.and_one_is_mod]
  unfold wrap32 toU32
  have h : (0 : Int) ≤ v % 4294967296 := Int.emod_nonneg _ (by decide)
  have h2 : (((v % 4294967296).toNat % 2 : Nat) : Int) = v % 4294967296 % 2 := by
    rw [Int.natCast_mod, Int.toNat_of_nonneg h]; rfl
  rw [h2]; omega

theorem band_one_eq_zero_iff (v : Int) : band v 0x01 = 0 ↔ v % 2 = 0 := by
  rw [band_one]

theorem pow_cases (k : Nat) (h : k ≤ 9) :
    k = 0 ∨ k = 1 ∨ k = 2 ∨ k = 3 ∨ k = 4 ∨ k = 5 ∨ k = 6 ∨ k = 7 ∨ k = 8 ∨ k = 9 := by
  omega

theorem bor_block_one (k : Nat) (h : k ≤ 9) : bor (32 * 2 ^ k) 0x01 = 32 * 2 ^ k + 1 := by
  rcases pow_cases k h with h | h | h | h | h | h | h | h | h | h <;> subst h <;> decide

theorem band_block_clear (k : Nat) (h : k ≤ 9) :
    band (32 * 2 ^ k + 1) 0xFFFFFFFE = 32 * 2 ^ k := by
  rcases pow_cases k h with h | h | h | h | h | h | h | h | h | h <;> subst h <;> decide

theorem tdiv_nonneg_eq (a b : Int) (ha : 0 ≤ a) (hb : 0 ≤ b) : Int.tdiv a b = a / b :=
  Int.tdiv_eq_ediv ha hb

/-! ## `_kinit` in closed form -/

theorem zeroBytes_apply (hi : Int) : ∀ (n : Nat) (i : Int) (m : Mem) (a : Int),
    zeroBytes n i hi m a
      = if i ≤ a2m a ∧ a2m a < hi ∧ a2m a < i + n then 0 else m a := by
  intro n
  induction n with
  | zero =>
    intro i m a
    simp only [zeroBytes]
    split
    · rename_i h; exfalso; simp only [Nat.cast_zero] at h; omega
    · rfl
  | succ n ih =>
    intro i m a
    simp only [zeroBytes]
    by_cases hlt : i < hi
    · rw [if_pos hlt, ih]
      simp only [storeByte, m2a, a2m, Nat.cast_add, Nat.cast_one]
      split_ifs <;> first | rfl | omega
    · rw [if_neg hlt]
      split
      · rename_i h; exfalso; omega
      · rfl

theorem zeroPairs_apply (hi : Int) : ∀ (n : Nat) (i : Int) (m : Mem) (a : Int),
    zeroPairs n i hi m a
      = if i ≤ a2m a ∧ a2m a < i + 2 * n ∧ a2m a - (a2m a - i) % 2 < hi then 0 else m a := by
  intro n
  induction n with
  | zero =>
    intro i m a
    simp only [zeroPairs]
    split
    · rename_i h; exfalso; simp only [Nat.cast_zero] at h; omega
    · rfl
  | succ n ih =>
    intro i m a
    simp only [zeroPairs]
    by_cases hlt : i < hi
    · rw [if_pos hlt, ih]
      simp only [storeByte, m2a, a2m, Nat.cast_add, Nat.cast_one]
      split_ifs <;> first | rfl | omega
    · rw [if_neg hlt]
      split
      · rename_i h; exfalso; omega
      · rfl

/-- The image `_kinit` produces, byte by byte: the heap bytes and the control bytes from
index `0x6804` on are zero, the first control entry holds `0x4000`, and the two bytes
at `0x6802`, `0x6803` (the second control entry) keep their previous content. -/
theorem kinit_apply (m : Mem) (a : Int) :
    _kinit m a =
      if 0x1000 ≤ a ∧ a < 0x5000 then 0
      else if a = 0x6800 then 0
      else if a = 0x6801 then 0x40
      else if 0x6804 ≤ a ∧ a < 0x6C00 then 0
      else m a := by
  simp only [_kinit, zeroPairs_apply, putShort, zeroBytes_apply, a2m, m2a, mcb_top, max_size]
  split_ifs <;> first | rfl | omega

/-! ## Control entries of an image -/

theorem load_slot (m : Mem) (s : Nat) (h : s ≤ 512) :
    loadShort m (m2a (mcb_top + 2 * (s : Int))) = .ok (ent m s) := by
  unfold loadShort m2a mcb_top ent
  have h1 : (0x20006800 + 2 * (s : Int) - 0x20000000) = 0x6800 + 2 * (s : Int) := by ring
  rw [h1, if_pos (by constructor <;> omega)]

theorem store_slot (m : Mem) (s : Nat) (v : Int) (h : s ≤ 512) :
    storeShort m (m2a (mcb_top + 2 * (s : Int))) v
      = .ok (putShort m (0x6800 + 2 * (s : Int)) v) := by
  unfold storeShort m2a mcb_top
  have h1 : (0x20006800 + 2 * (s : Int) - 0x20000000) = 0x6800 + 2 * (s : Int) := by ring
  rw [h1, if_pos (by constructor <;> omega)]

theorem ent_put_self (m : Mem) (s : Nat) (v : Int) :
    ent (putShort m (0x6800 + 2 * (s : Int)) v) s = toShort v := by
  unfold ent putShort
  rw [if_pos rfl, if_neg (by omega), if_pos rfl]
  exact toShort_bytes v

theorem ent_put_ne (m : Mem) (s u : Nat) (v : Int) (h : u ≠ s) :
    ent (putShort m (0x6800 + 2 * (s : Int)) v) u = ent m u := by
  unfold ent putShort
  rw [if_neg (by omega), if_neg (by omega), if_neg (by omega), if_neg (by omega)]

theorem put_frame (m : Mem) (s : Nat) (v : Int) (a : Int) (h : s < 512)
    (ha : a < 0x6800 ∨ 0x6C00 ≤ a) : putShort m (0x6800 + 2 * (s : Int)) v a = m a := by
  unfold putShort
  rw [if_neg (by omega), if_neg (by omega)]

theorem length_tabOf (m : Mem) : (tabOf m).length = 512 := by
  simp [tabOf]

theorem tabOf_getElem? (m : Mem) (n : Nat) :
    (tabOf m)[n]? = if n < 512 then some (ent m n) else none := by
  unfold tabOf
  rw [List.getElem?_map]
  by_cases h : n < 512
  · rw [List.getElem?_range h, if_pos h]; rfl
  · rw [if_neg h, List.getElem?_eq_none (by simp; omega)]; rfl

theorem getE_tabOf (m : Mem) (s : Nat) (h : s < 512) : getE (tabOf m) s = ent m s := by
  unfold getE
  rw [List.getD_eq_getElem?_getD, tabOf_getElem?, if_pos h]; rfl

theorem getE_tabOf_end (m : Mem) (s : Nat) (h : 512 ≤ s) : getE (tabOf m) s = 0 := by
  unfold getE
  rw [List.getD_eq_getElem?_getD, tabOf_getElem?, if_neg (by omega)]; rfl

theorem tabOf_put (m : Mem) (s : Nat) (v : Int) :
    tabOf (putShort m (0x6800 + 2 * (s : Int)) v) = (tabOf m).set s (toShort v) := by
  apply List.ext_getElem?
  intro n
  rw [tabOf_getElem?, List.getElem?_set, tabOf_getElem?, length_tabOf]
  by_cases hn : n < 512
  · by_cases hs : s = n
    · subst hs; simp [hn, ent_put_self]
    · have : n ≠ s := fun h => hs h.symm
      simp [hn, hs, ent_put_ne _ _ _ _ this]
  · by_cases hs : s = n
    · subst hs; simp [hn]
    · simp [hn, hs]

theorem getE_set_self (T : List Int) (s : Nat) (v : Int) (h : s < T.length) :
    getE (T.set s v) s = v := by
  unfold getE
  rw [List.getD_eq_getElem?_getD, List.getElem?_set]
  simp [h]

theorem getE_set_ne (T : List Int) (s u : Nat) (v : Int) (h : s ≠ u) :
    getE (T.set s v) u = getE T u := by
  unfold getE
  rw [List.getD_eq_getElem?_getD, List.getD_eq_getElem?_getD, List.getElem?_set_ne h]

theorem getE_of_length_le (T : List Int) (s : Nat) (h : T.length ≤ s) : getE T s = 0 := by
  unfold getE
  rw [List.getD_eq_getElem?_getD, List.getElem?_eq_none h]; rfl

/-! ## `_ralloc` on an aligned window, one call at a time -/

/-- The window of `2 ^ j` control entries starting at entry `i`: its right boundary. -/
theorem two_pow_pos_int (j : Nat) : (0 : Int) < 2 ^ j := by positivity

/-- On a window of `2 ^ j` entries, a request larger than half the window takes the base
case of `_ralloc`. -/
theorem ralloc_base_step (fuel j : Nat) (size : Int) (i : Nat) (m : Mem)
    (hj : j ≤ 9) (hi : i + 2 ^ j ≤ 512) (h1 : 32 ≤ size) (h2 : size ≤ 16384)
    (hbig : 16 * 2 ^ j < size) :
    _ralloc (fuel + 1) size (mcb_top + 2 * (i : Int)) (mcb_top + 2 * (i : Int) + 2 * 2 ^ j - 2) m
      = if ent m i % 2 = 0 ∧ ent m i ≥ 32 * 2 ^ j then
          .ok (heap_top + 32 * (i : Int), putShort m (0x6800 + 2 * (i : Int)) (32 * 2 ^ j + 1))
        else .ok (0, m) := by
  have hp : (0 : Int) < 2 ^ j := two_pow_pos_int j
  have hpn : 0 < 2 ^ j := by positivity
  have hi5 : i < 512 := by omega
  have e1 : mcb_top + 2 * (i : Int) + 2 * 2 ^ j - 2 - (mcb_top + 2 * (i : Int)) + mcb_ent_sz
      = 2 * 2 ^ j := by unfold mcb_ent_sz; ring
  have e2 : Int.tdiv (2 * 2 ^ j) 2 = (2 : Int) ^ j := by
    rw [Int.tdiv_eq_ediv (by omega) (by decide)]; omega
  have e3 : (2 : Int) * 2 ^ j * 16 = 32 * 2 ^ j := by ring
  have e4 : wrap32 ((mcb_top + 2 * (i : Int) - 0x6800) * 16) = 32 * (i : Int) := by
    unfold wrap32 mcb_top; omega
  rw [_ralloc]
  simp only [e1, e2, e3, e4]
  rw [if_neg (by unfold min_size max_size; omega), if_neg (by omega), load_slot m i (by omega)]
  simp only [tmod_two_eq_zero_iff, bor_block_one j hj, store_slot m i _ (by omega)]
  by_cases hv : ent m i % 2 = 0
  · by_cases hg : ent m i ≥ 32 * 2 ^ j
    · rw [if_pos hv, if_pos hg, if_pos ⟨hv, hg⟩]; congr 2; ring
    · rw [if_pos hv, if_neg hg, if_neg (fun h => hg h.2)]
  · rw [if_neg hv, if_neg (fun h => hv h.1)]

/-- On a window of `2 ^ (j + 1)` entries, a request that fits in half the window makes
`_ralloc` search the left half, then the right half, and record the split. -/
theorem ralloc_rec_step (fuel j : Nat) (size : Int) (i : Nat) (m : Mem)
    (hi : i + 2 ^ (j + 1) ≤ 512) (h1 : 32 ≤ size) (h2 : size ≤ 16384)
    (hfit : size ≤ 32 * 2 ^ j) :
    _ralloc (fuel + 1) size (mcb_top + 2 * (i : Int))
        (mcb_top + 2 * (i : Int) + 2 * 2 ^ (j + 1) - 2) m
      = match _ralloc fuel size (mcb_top + 2 * (i : Int))
                (mcb_top + 2 * (i : Int) + 2 * 2 ^ j - 2) m with
        | .error e => .error e
        | .ok (returnAddress, m1) =>
          if returnAddress = 0 then
            _ralloc fuel size (mcb_top + 2 * ((i + 2 ^ j : Nat) : Int))
              (mcb_top + 2 * ((i + 2 ^ j : Nat) : Int) + 2 * 2 ^ j - 2) m1
          else if ent m1 (i + 2 ^ j) % 2 = 0 then
            .ok (returnAddress, putShort m1 (0x6800 + 2 * ((i + 2 ^ j : Nat) : Int)) (32 * 2 ^ j))
          else .ok (returnAddress, m1) := by
  have hp : (0 : Int) < 2 ^ j := two_pow_pos_int j
  have hpn : 0 < 2 ^ j := by positivity
  have hps : 2 ^ (j + 1) = 2 * 2 ^ j := by rw [pow_succ]; ring
  have hpsI : (2 : Int) ^ (j + 1) = 2 * 2 ^ j := by rw [pow_succ]; ring
  have hmid : i + 2 ^ j < 512 := by omega
  have e1 : mcb_top + 2 * (i : Int) + 2 * 2 ^ (j + 1) - 2 - (mcb_top + 2 * (i : Int)) + mcb_ent_sz
      = 2 * (2 * 2 ^ j) := by unfold mcb_ent_sz; rw [hpsI]; ring
  have e2 : Int.tdiv (2 * (2 * 2 ^ j)) 2 = 2 * (2 : Int) ^ j := by
    rw [Int.tdiv_eq_ediv (by omega) (by decide)]; omega
  have e3 : (2 : Int) * 2 ^ j * 16 = 32 * 2 ^ j := by ring
  have e5 : mcb_top + 2 * (i : Int) + 2 * 2 ^ j - mcb_ent_sz
      = mcb_top + 2 * (i : Int) + 2 * 2 ^ j - 2 := by unfold mcb_ent_sz; ring
  have e6 : mcb_top + 2 * (i : Int) + 2 * 2 ^ j = mcb_top + 2 * ((i + 2 ^ j : Nat) : Int) := by
    push_cast; ring
  have e7 : mcb_top + 2 * (i : Int) + 2 * 2 ^ (j + 1) - 2
      = mcb_top + 2 * ((i + 2 ^ j : Nat) : Int) + 2 * 2 ^ j - 2 := by
    rw [hpsI]; push_cast; ring
  rw [_ralloc]
  simp only [e1, e2, e3, e5]
  rw [if_neg (by unfold min_size max_size; omega), if_pos hfit]
  generalize _ralloc fuel size (mcb_top + 2 * (i : Int))
    (mcb_top + 2 * (i : Int) + 2 * 2 ^ j - 2) m = L
  rw [e7, e6]
  cases L with
  | error e => rfl
  | ok r =>
    obtain ⟨ra, m1⟩ := r
    show (if ra = 0 then _ else _) = (if ra = 0 then _ else _)
    by_cases hra : ra = 0
    · rw [if_pos hra, if_pos hra]
    · rw [if_neg hra, if_neg hra, load_slot m1 _ (by omega)]
      simp only [band_one_eq_zero_iff, store_slot m1 (i + 2 ^ j) _ (by omega)]

/-! ## `_ralloc` agrees with the table-level search -/

theorem two_pow_le_512 (j : Nat) (h : j ≤ 9) : (2 : Int) ^ j ≤ 512 := by
  have : (2 : Int) ^ j ≤ 2 ^ 9 := pow_le_pow_right₀ (by decide) h
  simpa using this

theorem two_pow_le_512_nat (j : Nat) (h : j ≤ 9) : 2 ^ j ≤ 512 := by
  have : 2 ^ j ≤ 2 ^ 9 := Nat.pow_le_pow_right (by decide) h
  simpa using this

theorem base_refines (j i : Nat) (m : Mem) (hj : j ≤ 9) (hi : i + 2 ^ j ≤ 512) :
    ∃ m', (if ent m i % 2 = 0 ∧ ent m i ≥ 32 * 2 ^ j then
            (.ok (heap_top + 32 * (i : Int), putShort m (0x6800 + 2 * (i : Int)) (32 * 2 ^ j + 1))
              : Except Err (Int × Mem))
          else .ok (0, m)) = .ok (ptrOf (baseT j i (tabOf m)).1, m')
      ∧ tabOf m' = (baseT j i (tabOf m)).2
      ∧ (∀ a, a < 0x6800 ∨ 0x6C00 ≤ a → m' a = m a)
      ∧ ((baseT j i (tabOf m)).1 = none → m' = m) := by
  have hpn : 0 < 2 ^ j := by positivity
  have hi5 : i < 512 := by omega
  have h512 := two_pow_le_512 j hj
  have hp : (0 : Int) < 2 ^ j := two_pow_pos_int j
  unfold baseT
  rw [getE_tabOf m i hi5]
  by_cases hc : ent m i % 2 = 0 ∧ ent m i ≥ 32 * 2 ^ j
  · rw [if_pos hc, if_pos hc]
    refine ⟨putShort m (0x6800 + 2 * (i : Int)) (32 * 2 ^ j + 1), by simp only [ptrOf], ?_, ?_, ?_⟩
    · simp only []
      rw [tabOf_put, toShort_of_range _ (by omega) (by omega)]
    · intro a ha; exact put_frame m i _ a hi5 ha
    · intro h; cases h
  · rw [if_neg hc, if_neg hc]
    exact ⟨m, by simp only [ptrOf], by simp only [], fun _ _ => rfl, fun _ => rfl⟩

theorem ralloc_refines : ∀ (j fuel : Nat) (size : Int) (i : Nat) (m : Mem),
    j < fuel → j ≤ 9 → i + 2 ^ j ≤ 512 → 32 ≤ size → size ≤ 16384 →
    ∃ m', _ralloc fuel size (mcb_top + 2 * (i : Int)) (mcb_top + 2 * (i : Int) + 2 * 2 ^ j - 2) m
            = .ok (ptrOf (rallocT j size i (tabOf m)).1, m')
      ∧ tabOf m' = (rallocT j size i (tabOf m)).2
      ∧ (∀ a, a < 0x6800 ∨ 0x6C00 ≤ a → m' a = m a)
      ∧ ((rallocT j size i (tabOf m)).1 = none → m' = m) := by
  intro j
  induction j with
  | zero =>
    intro fuel size i m hf hj hi h1 h2
    obtain ⟨f, rfl⟩ : ∃ f, fuel = f + 1 := ⟨fuel - 1, by omega⟩
    rw [ralloc_base_step f 0 size i m hj hi h1 h2 (by norm_num; omega)]
    exact base_refines 0 i m hj hi
  | succ j ih =>
    intro fuel size i m hf hj hi h1 h2
    obtain ⟨f, rfl⟩ : ∃ f, fuel = f + 1 := ⟨fuel - 1, by omega⟩
    have hps : 2 ^ (j + 1) = 2 * 2 ^ j := by rw [pow_succ]; ring
    have hpsI : (2 : Int) ^ (j + 1) = 2 * 2 ^ j := by rw [pow_succ]; ring
    have hpn : 0 < 2 ^ j := by positivity
    rw [rallocT]
    by_cases hfit : size ≤ 32 * 2 ^ j
    · rw [if_pos hfit, ralloc_rec_step f j size i m hi h1 h2 hfit]
      obtain ⟨m1, hL, hT1, hF1, hN1⟩ := ih f size i m (by omega) (by omega) (by omega) h1 h2
      rw [hL]
      cases hr : (rallocT j size i (tabOf m)).1 with
      | none =>
        have hm : m1 = m := hN1 hr
        subst hm
        have hpair : rallocT j size i (tabOf m1) = (none, (rallocT j size i (tabOf m1)).2) := by
          rw [← hr]
        rw [hpair]
        simp only [ptrOf, if_true]
        rw [← hT1]
        exact ih f size (i + 2 ^ j) m1 (by omega) (by omega) (by omega) h1 h2
      | some t =>
        have hpair : rallocT j size i (tabOf m) = (some t, (rallocT j size i (tabOf m)).2) := by
          rw [← hr]
        rw [hpair]
        have hne : ptrOf (some t) ≠ 0 := by
          show heap_top + 32 * (t : Int) ≠ 0
          unfold heap_top; omega
        simp only [if_neg hne]
        rw [← hT1, getE_tabOf m1 _ (by omega)]
        by_cases hv : ent m1 (i + 2 ^ j) % 2 = 0
        · rw [if_pos hv, if_pos hv]
          refine ⟨putShort m1 (0x6800 + 2 * ((i + 2 ^ j : Nat) : Int)) (32 * 2 ^ j),
            by simp only [], ?_, ?_, ?_⟩
          · have h512 := two_pow_le_512 j (by omega)
            have hp : (0 : Int) < 2 ^ j := two_pow_pos_int j
            simp only []
            rw [tabOf_put, toShort_of_range _ (by omega) (by omega)]
          · intro a ha
            rw [put_frame m1 _ _ a (by omega) ha]; exact hF1 a ha
          · intro h; cases h
        · rw [if_neg hv, if_neg hv]
          exact ⟨m1, by simp only [], by simp only [], hF1, fun h => by cases h⟩
    · rw [if_neg hfit, ralloc_base_step f (j + 1) size i m hj hi h1 h2 (by rw [hpsI]; omega)]
      exact base_refines (j + 1) i m hj hi

theorem kalloc_window :
    mcb_bot = mcb_top + 2 * ((0 : Nat) : Int) + 2 * 2 ^ 9 - 2
      ∧ mcb_top = mcb_top + 2 * ((0 : Nat) : Int) := by
  unfold mcb_bot mcb_top; constructor <;> norm_num

/-- The entry point `_kalloc` agrees with the table-level `kallocT` on every image: it
never runs into an undefined step, touches nothing outside the control table, and
leaves the image alone when it returns `NULL`. -/
theorem kalloc_refines (size : Int) (m : Mem) :
    ∃ m', _kalloc size m = .ok ((kallocT size (tabOf m)).1, m')
      ∧ tabOf m' = (kallocT size (tabOf m)).2
      ∧ (∀ a, a < 0x6800 ∨ 0x6C00 ≤ a → m' a = m a)
      ∧ ((kallocT size (tabOf m)).1 = 0 → m' = m) := by
  unfold kallocT
  by_cases hr : size < 32 ∨ size > 16384
  · rw [if_pos hr]
    refine ⟨m, ?_, by simp only [], fun _ _ => rfl, fun _ => rfl⟩
    unfold _kalloc
    rw [_ralloc, if_pos (by unfold min_size max_size; exact hr)]
  · rw [if_neg hr]
    have hw := kalloc_window
    obtain ⟨m', h1, h2, h3, h4⟩ :=
      ralloc_refines 9 10 size 0 m (by decide) (by decide) (by decide) (by omega) (by omega)
    refine ⟨m', ?_, h2, h3, ?_⟩
    · unfold _kalloc
      rw [hw.1]
      conv => lhs; rw [hw.2]
      exact h1
    · intro h0
      apply h4
      cases hx : (rallocT 9 size 0 (tabOf m)).1 with
      | none => rfl
      | some t =>
        exfalso
        simp only [hx] at h0
        have : heap_top + 32 * (t : Int) = 0 := h0
        unfold heap_top at this; omega

/-! ## `_rfree` on a block entry, one call at a time -/

theorem levelOf_some (v : Int) (k : Nat) (h : levelOf v = some k) :
    k ≤ 9 ∧ (v = 32 * 2 ^ k ∨ v = 32 * 2 ^ k + 1) := by
  unfold levelOf at h
  have h1 := List.mem_of_find?_eq_some h
  have h2 := List.find?_some h
  simp only [List.mem_range] at h1
  simp only [decide_eq_true_eq] at h2
  exact ⟨by omega, h2⟩

theorem aligned_add_le (s k : Nat) (hk : k ≤ 9) (hs : s < 512) (hal : s % 2 ^ k = 0) :
    s + 2 ^ k ≤ 512 := by
  rcases pow_cases k hk with h | h | h | h | h | h | h | h | h | h <;> subst h <;>
    norm_num at hal ⊢ <;> omega

theorem odd_index_ge (s k : Nat) (h : ¬ s / 2 ^ k % 2 = 0) : 2 ^ k ≤ s := by
  by_contra hlt
  have : s / 2 ^ k = 0 := Nat.div_eq_of_lt (by omega)
  rw [this] at h
  exact h rfl

theorem block_tdiv (k : Nat) : Int.tdiv (32 * 2 ^ k) 16 = 2 * (2 : Int) ^ k := by
  have hp : (0 : Int) < 2 ^ k := two_pow_pos_int k
  rw [Int.tdiv_eq_ediv (by omega) (by decide)]; omega

theorem index_tdiv (s k : Nat) :
    Int.tdiv (mcb_top + 2 * (s : Int) - mcb_top) (2 * (2 : Int) ^ k) = ((s / 2 ^ k : Nat) : Int) := by
  have hp : (0 : Int) < 2 ^ k := two_pow_pos_int k
  have e : mcb_top + 2 * (s : Int) - mcb_top = 2 * (s : Int) := by ring
  rw [e, Int.tdiv_eq_ediv (by omega) (by omega), Int.mul_ediv_mul_of_pos _ _ (by decide)]
  push_cast
  rfl

/-- One call of `_rfree` on an entry that records a block of `32 * 2 ^ k` bytes at an
aligned position: the occupied bit is cleared, and the block is merged with its buddy
exactly when the buddy entry equals the cleared entry. -/
theorem rfree_step (fuel s k : Nat) (m : Mem) (hk : k ≤ 9) (hs : s < 512)
    (hal : s % 2 ^ k = 0) (hv : ent m s = 32 * 2 ^ k ∨ ent m s = 32 * 2 ^ k + 1) :
    _rfree (fuel + 1) (mcb_top + 2 * (s : Int)) m
      = if s / 2 ^ k % 2 = 0 then
          if ent (if ent m s % 2 = 0 then m else putShort m (0x6800 + 2 * (s : Int)) (32 * 2 ^ k))
              (s + 2 ^ k) = 32 * 2 ^ k then
            _rfree fuel (mcb_top + 2 * (s : Int))
              (putShort (putShort
                (if ent m s % 2 = 0 then m else putShort m (0x6800 + 2 * (s : Int)) (32 * 2 ^ k))
                (0x6800 + 2 * ((s + 2 ^ k : Nat) : Int)) 0)
                (0x6800 + 2 * (s : Int)) (32 * 2 ^ k + 32 * 2 ^ k))
          else .ok (mcb_top + 2 * (s : Int),
            if ent m s % 2 = 0 then m else putShort m (0x6800 + 2 * (s : Int)) (32 * 2 ^ k))
        else
          if ent (if ent m s % 2 = 0 then m else putShort m (0x6800 + 2 * (s : Int)) (32 * 2 ^ k))
              (s - 2 ^ k) = 32 * 2 ^ k then
            _rfree fuel (mcb_top + 2 * ((s - 2 ^ k : Nat) : Int))
              (putShort (putShort
                (if ent m s % 2 = 0 then m else putShort m (0x6800 + 2 * (s : Int)) (32 * 2 ^ k))
                (0x6800 + 2 * (s : Int)) 0)
                (0x6800 + 2 * ((s - 2 ^ k : Nat) : Int)) (32 * 2 ^ k + 32 * 2 ^ k))
          else .ok (mcb_top + 2 * (s : Int),
            if ent m s % 2 = 0 then m else putShort m (0x6800 + 2 * (s : Int)) (32 * 2 ^ k)) := by
  have hp : (0 : Int) < 2 ^ k := two_pow_pos_int k
  have hpn : 0 < 2 ^ k := by positivity
  have hadd := aligned_add_le s k hk hs hal
  have hceven : (32 * (2 : Int) ^ k) % 2 = 0 := by omega
  have hcodd : ¬ (32 * (2 : Int) ^ k + 1) % 2 = 0 := by omega
  have hne0 : ¬ (2 * (2 : Int) ^ k = 0) := by omega
  have eb1 : mcb_top + 2 * (s : Int) + 2 * 2 ^ k = mcb_top + 2 * ((s + 2 ^ k : Nat) : Int) := by
    push_cast; ring
  have hidx : (((s / 2 ^ k : Nat) : Int) % 2 = 0) ↔ (s / 2 ^ k % 2 = 0) := by omega
  rw [_rfree, load_slot m s (by omega)]
  simp only [tmod_two_eq_zero_iff, ne_eq]
  rcases hv with hv | hv
  · -- the entry is free already
    simp only [hv, hceven, if_true, not_true_eq_false, if_false, block_tdiv, hne0, index_tdiv,
      hidx, eb1]
    by_cases hi : s / 2 ^ k % 2 = 0
    · simp only [hi, if_true]
      rw [load_slot m _ hadd]
      simp only [store_slot m _ _ hadd]
      by_cases hb : ent m (s + 2 ^ k) = 32 * 2 ^ k
      · simp only [hb, hceven, and_self, if_true, store_slot _ s _ (by omega)]
      · simp only [hb, false_and, if_false]
    · have hge := odd_index_ge s k hi
      have eb2 : mcb_top + 2 * (s : Int) - 2 * 2 ^ k = mcb_top + 2 * ((s - 2 ^ k : Nat) : Int) := by
        rw [Nat.cast_sub hge]; push_cast; ring
      simp only [hi, if_false, eb2]
      rw [load_slot m (s - 2 ^ k) (by omega)]
      simp only [store_slot m s _ (by omega : s ≤ 512)]
      by_cases hb : ent m (s - 2 ^ k) = 32 * 2 ^ k
      · simp only [hb, hceven, and_self, if_true, store_slot _ (s - 2 ^ k) _ (by omega)]
      · simp only [hb, false_and, if_false]
  · -- the entry is occupied: the bit is cleared first
    have e1 : 32 * (2 : Int) ^ k + 1 - 1 = 32 * 2 ^ k := by ring
    simp only [hv, hcodd, if_false, not_false_eq_true, if_true, e1, band_block_clear k hk,
      store_slot m s _ (by omega : s ≤ 512), block_tdiv, hne0, index_tdiv, hidx, eb1]
    by_cases hi : s / 2 ^ k % 2 = 0
    · simp only [hi, if_true]
      rw [load_slot _ _ hadd]
      simp only [store_slot _ _ _ hadd]
      by_cases hb : ent (putShort m (0x6800 + 2 * (s : Int)) (32 * 2 ^ k)) (s + 2 ^ k) = 32 * 2 ^ k
      · simp only [hb, hceven, and_self, if_true, store_slot _ s _ (by omega)]
      · simp only [hb, false_and, if_false]
    · have hge := odd_index_ge s k hi
      have eb2 : mcb_top + 2 * (s : Int) - 2 * 2 ^ k = mcb_top + 2 * ((s - 2 ^ k : Nat) : Int) := by
        rw [Nat.cast_sub hge]; push_cast; ring
      simp only [hi, if_false, eb2]
      rw [load_slot _ (s - 2 ^ k) (by omega)]
      simp only [store_slot _ s _ (by omega : s ≤ 512)]
      by_cases hb : ent (putShort m (0x6800 + 2 * (s : Int)) (32 * 2 ^ k)) (s - 2 ^ k) = 32 * 2 ^ k
      · simp only [hb, hceven, and_self, if_true, store_slot _ (s - 2 ^ k) _ (by omega)]
      · simp only [hb, false_and, if_false]

/-! ## `_rfree` agrees with the table-level merge -/

theorem rfree_zero_entry (fuel s : Nat) (m : Mem) (hs : s ≤ 512) (hv : ent m s = 0) :
    _rfree (fuel + 1) (mcb_top + 2 * (s : Int)) m = .error .divZero := by
  rw [_rfree, load_slot m s hs, hv]
  rfl

theorem ent_end_of_frame (m m' : Mem) (h : ∀ a, a < 0x6800 ∨ 0x6C00 ≤ a → m' a = m a) :
    ent m' 512 = ent m 512 := by
  unfold ent
  rw [h _ (by right; norm_num), h _ (by right; norm_num)]

theorem getE_tabOf_le (m : Mem) (s : Nat) (hs : s ≤ 512) (h0 : ent m 512 = 0) :
    getE (tabOf m) s = ent m s := by
  by_cases h : s < 512
  · exact getE_tabOf m s h
  · have : s = 512 := by omega
    subst this
    rw [getE_tabOf_end m 512 (le_refl _), h0]

theorem block_in_short (k : Nat) (hk : k ≤ 9) : toShort (32 * 2 ^ k) = 32 * 2 ^ k := by
  have h512 := two_pow_le_512 k hk
  have hp : (0 : Int) < 2 ^ k := two_pow_pos_int k
  exact toShort_of_range _ (by omega) (by omega)

theorem two_pow_le_256 (k : Nat) (hk : k ≤ 9) (h : 2 ^ k < 512) : (2 : Int) ^ k ≤ 256 := by
  rcases pow_cases k hk with h' | h' | h' | h' | h' | h' | h' | h' | h' | h' <;> subst h' <;>
    norm_num at h ⊢

theorem block2_in_short (k : Nat) (hk : k ≤ 9) (h : 2 ^ k < 512) :
    toShort (32 * 2 ^ k + 32 * 2 ^ k) = 32 * 2 ^ k + 32 * 2 ^ k := by
  have h256 := two_pow_le_256 k hk h
  have hp : (0 : Int) < 2 ^ k := two_pow_pos_int k
  exact toShort_of_range _ (by omega) (by omega)

theorem toShort_zero : toShort 0 = 0 := by decide

/-- The image after the occupied bit of entry `s` is cleared, and its table. -/
theorem clear_refines (m : Mem) (s k : Nat) (hs : s < 512) (hk : k ≤ 9) :
    tabOf (if ent m s % 2 = 0 then m else putShort m (0x6800 + 2 * (s : Int)) (32 * 2 ^ k))
        = (if getE (tabOf m) s % 2 = 0 then tabOf m else (tabOf m).set s (32 * 2 ^ k))
      ∧ ∀ a, a < 0x6800 ∨ 0x6C00 ≤ a →
          (if ent m s % 2 = 0 then m else putShort m (0x6800 + 2 * (s : Int)) (32 * 2 ^ k)) a
            = m a := by
  rw [getE_tabOf m s hs]
  by_cases h : ent m s % 2 = 0
  · simp only [h, if_true]
    exact ⟨trivial, fun _ _ => trivial⟩
  · simp only [h, if_false]
    refine ⟨?_, fun a ha => put_frame m s _ a hs ha⟩
    rw [tabOf_put, block_in_short k hk]

theorem rfree_refines : ∀ (fuel s : Nat) (m : Mem), ent m 512 = 0 →
    (∀ e, rfreeT fuel s (tabOf m) = some (.error e) →
        _rfree fuel (mcb_top + 2 * (s : Int)) m = .error e)
    ∧ (∀ r T', rfreeT fuel s (tabOf m) = some (.ok (r, T')) →
        ∃ m', _rfree fuel (mcb_top + 2 * (s : Int)) m = .ok (mcb_top + 2 * (r : Int), m')
          ∧ tabOf m' = T' ∧ (∀ a, a < 0x6800 ∨ 0x6C00 ≤ a → m' a = m a)) := by
  intro fuel
  induction fuel with
  | zero =>
    intro s m _
    constructor
    · intro e h
      simp only [rfreeT, Option.some.injEq, Except.error.injEq] at h
      subst h; rfl
    · intro r T' h
      simp only [rfreeT, Option.some.injEq] at h
      cases h
  | succ fuel ih =>
    intro s m h0
    rw [rfreeT]
    by_cases hs : 512 ≤ s
    · simp only [hs, if_true]
      exact ⟨fun _ h => (by cases h), fun _ _ h => (by cases h)⟩
    simp only [hs, if_false]
    have hs5 : s < 512 := by omega
    rw [getE_tabOf m s hs5]
    by_cases hz : ent m s = 0
    · simp only [hz, if_true]
      constructor
      · intro e h
        simp only [Option.some.injEq, Except.error.injEq] at h
        subst h
        exact rfree_zero_entry fuel s m (by omega) hz
      · intro r T' h
        simp only [Option.some.injEq] at h
        cases h
    simp only [hz, if_false]
    cases hl : levelOf (ent m s) with
    | none => exact ⟨fun _ h => (by cases h), fun _ _ h => (by cases h)⟩
    | some k =>
      obtain ⟨hk, hv⟩ := levelOf_some _ _ hl
      simp only []
      by_cases hal : s % 2 ^ k = 0
      · simp only [hal, ne_eq, not_true_eq_false, if_false]
        have hpn : 0 < 2 ^ k := by positivity
        have hp : (0 : Int) < 2 ^ k := two_pow_pos_int k
        have hadd := aligned_add_le s k hk hs5 hal
        rw [rfree_step fuel s k m hk hs5 hal hv]
        obtain ⟨hT1, hF1⟩ := clear_refines m s k hs5 hk
        rw [getE_tabOf m s hs5] at hT1
        generalize hm1 : (if ent m s % 2 = 0 then m
          else putShort m (0x6800 + 2 * (s : Int)) (32 * 2 ^ k)) = m1 at hT1 hF1 ⊢
        have h01 : ent m1 512 = 0 := by rw [ent_end_of_frame m m1 hF1]; exact h0
        rw [← hT1]
        by_cases hi : s / 2 ^ k % 2 = 0
        · simp only [hi, if_true]
          rw [getE_tabOf_le m1 _ hadd h01]
          by_cases hb : ent m1 (s + 2 ^ k) = 32 * 2 ^ k
          · simp only [hb, if_true]
            have hb5 : s + 2 ^ k < 512 := by
              by_contra hc
              have : s + 2 ^ k = 512 := by omega
              rw [this, h01] at hb
              omega
            have hT3 : tabOf (putShort (putShort m1 (0x6800 + 2 * ((s + 2 ^ k : Nat) : Int)) 0)
                (0x6800 + 2 * (s : Int)) (32 * 2 ^ k + 32 * 2 ^ k))
                = ((tabOf m1).set (s + 2 ^ k) 0).set s (32 * 2 ^ k + 32 * 2 ^ k) := by
              rw [tabOf_put, tabOf_put, toShort_zero, block2_in_short k hk (by omega)]
            have hF3 : ∀ a, a < 0x6800 ∨ 0x6C00 ≤ a →
                (putShort (putShort m1 (0x6800 + 2 * ((s + 2 ^ k : Nat) : Int)) 0)
                  (0x6800 + 2 * (s : Int)) (32 * 2 ^ k + 32 * 2 ^ k)) a = m a := by
              intro a ha
              rw [put_frame _ s _ a hs5 ha, put_frame _ _ _ a hb5 ha, hF1 a ha]
            rw [← hT3]
            have h03 := ent_end_of_frame m _ hF3
            rw [h0] at h03
            obtain ⟨ihe, iho⟩ := ih s _ h03
            refine ⟨ihe, ?_⟩
            intro r T' h
            obtain ⟨m', hm', hT', hF'⟩ := iho r T' h
            exact ⟨m', hm', hT', fun a ha => by rw [hF' a ha, hF3 a ha]⟩
          · simp only [hb, if_false]
            constructor
            · intro e h; cases h
            · intro r T' h
              simp only [Option.some.injEq, Except.ok.injEq, Prod.mk.injEq] at h
              obtain ⟨h1, h2⟩ := h
              subst h1; subst h2
              exact ⟨m1, rfl, rfl, hF1⟩
        · simp only [hi, if_false]
          have hge := odd_index_ge s k hi
          rw [getE_tabOf m1 _ (by omega)]
          by_cases hb : ent m1 (s - 2 ^ k) = 32 * 2 ^ k
          · simp only [hb, if_true]
            have hT3 : tabOf (putShort (putShort m1 (0x6800 + 2 * (s : Int)) 0)
                (0x6800 + 2 * ((s - 2 ^ k : Nat) : Int)) (32 * 2 ^ k + 32 * 2 ^ k))
                = ((tabOf m1).set s 0).set (s - 2 ^ k) (32 * 2 ^ k + 32 * 2 ^ k) := by
              rw [tabOf_put, tabOf_put, toShort_zero, block2_in_short k hk (by omega)]
            have hF3 : ∀ a, a < 0x6800 ∨ 0x6C00 ≤ a →
                (putShort (putShort m1 (0x6800 + 2 * (s : Int)) 0)
                  (0x6800 + 2 * ((s - 2 ^ k : Nat) : Int)) (32 * 2 ^ k + 32 * 2 ^ k)) a = m a := by
              intro a ha
              rw [put_frame _ (s - 2 ^ k) _ a (by omega) ha, put_frame _ s _ a hs5 ha, hF1 a ha]
            rw [← hT3]
            have h03 := ent_end_of_frame m _ hF3
            rw [h0] at h03
            obtain ⟨ihe, iho⟩ := ih (s - 2 ^ k) _ h03
            refine ⟨ihe, ?_⟩
            intro r T' h
            obtain ⟨m', hm', hT', hF'⟩ := iho r T' h
            exact ⟨m', hm', hT', fun a ha => by rw [hF' a ha, hF3 a ha]⟩
          · simp only [hb, if_false]
            constructor
            · intro e h; cases h
            · intro r T' h
              simp only [Option.some.injEq, Except.ok.injEq, Prod.mk.injEq] at h
              obtain ⟨h1, h2⟩ := h
              subst h1; subst h2
              exact ⟨m1, rfl, rfl, hF1⟩
      · simp only [hal, ne_eq, not_false_eq_true, if_true]
        exact ⟨fun _ h => (by cases h), fun _ _ h => (by cases h)⟩

theorem kfree_slot (ptr : Int) (h1 : ¬ (ptr < heap_top ∨ ptr > heap_bot))
    (h2 : (ptr - heap_top) % 32 = 0) :
    mcb_top + Int.tdiv (ptr - heap_top) 16
        = mcb_top + 2 * ((((ptr - heap_top) / 32).toNat : Nat) : Int)
      ∧ ((ptr - heap_top) / 32).toNat < 512 := by
  unfold heap_top heap_bot at *
  rw [Int.tdiv_eq_ediv (by omega) (by decide)]
  constructor <;> omega

/-- The entry point `_kfree` agrees with the table-level `kfreeT` whenever the latter is
defined, on every image whose two bytes after the control table are zero. -/
theorem kfree_refines (ptr : Int) (m : Mem) (h0 : ent m 512 = 0) :
    (∀ e, kfreeT ptr (tabOf m) = some (.error e) → _kfree ptr m = .error e)
    ∧ (∀ p T', kfreeT ptr (tabOf m) = some (.ok (p, T')) →
        ∃ m', _kfree ptr m = .ok (p, m') ∧ tabOf m' = T'
          ∧ (∀ a, a < 0x6800 ∨ 0x6C00 ≤ a → m' a = m a)) := by
  unfold kfreeT _kfree
  by_cases hr : ptr < heap_top ∨ ptr > heap_bot
  · simp only [hr, if_true]
    constructor
    · intro e h; cases h
    · intro p T' h
      simp only [Option.some.injEq, Except.ok.injEq, Prod.mk.injEq] at h
      obtain ⟨h1, h2⟩ := h
      subst h1; subst h2
      exact ⟨m, rfl, rfl, fun _ _ => rfl⟩
  · simp only [hr, if_false]
    by_cases hal : (ptr - heap_top) % 32 = 0
    · simp only [hal, ne_eq, not_true_eq_false, if_false]
      obtain ⟨hs, _⟩ := kfree_slot ptr hr hal
      rw [hs]
      obtain ⟨he, ho⟩ := rfree_refines 16 ((ptr - heap_top) / 32).toNat m h0
      cases hx : rfreeT 16 ((ptr - heap_top) / 32).toNat (tabOf m) with
      | none =>
        exact ⟨fun _ h => (by cases h), fun _ _ h => (by cases h)⟩
      | some res =>
        cases res with
        | error e =>
          constructor
          · intro e' h
            simp only [Option.some.injEq, Except.error.injEq] at h
            subst h
            rw [he e hx]
          · intro p T' h; cases h
        | ok rt =>
          obtain ⟨r, T1⟩ := rt
          constructor
          · intro e' h; cases h
          · intro p T' h
            simp only [Option.some.injEq, Except.ok.injEq, Prod.mk.injEq] at h
            obtain ⟨h1, h2⟩ := h
            subst h1; subst h2
            obtain ⟨m', hm', hT', hF'⟩ := ho r T1 hx
            refine ⟨m', ?_, hT', hF'⟩
            rw [hm']
            have hne : ¬ (mcb_top + 2 * (r : Int) = 0) := by unfold mcb_top; omega
            simp only [hne, if_false]
    · simp only [hal, ne_eq, not_false_eq_true, if_true]
      exact ⟨fun _ h => (by cases h), fun _ _ h => (by cases h)⟩

/-! ## Call sequences on the image and on the table -/

theorem step_refines (st : State) (op : Op) (T' : List Int) (L' : List (Int × Int))
    (h0 : ent st.mem 512 = 0) (h : stepT (tabOf st.mem, st.live) op = some (T', L')) :
    ∃ m', step st op = some ⟨m', L'⟩ ∧ tabOf m' = T' ∧ ent m' 512 = 0
      ∧ (∀ a, a < 0x6800 ∨ 0x6C00 ≤ a → m' a = st.mem a) := by
  cases op with
  | alloc size =>
    obtain ⟨m', hk, hT, hF, _⟩ := kalloc_refines size st.mem
    simp only [stepT] at h
    simp only [step, hk]
    refine ⟨m', ?_, ?_, by rw [ent_end_of_frame _ _ hF]; exact h0, hF⟩
    · by_cases hp : (kallocT size (tabOf st.mem)).1 = 0
      · simp only [hp, if_true, Option.some.injEq, Prod.mk.injEq] at h ⊢
        rw [h.2]
      · simp only [hp, if_false, Option.some.injEq, Prod.mk.injEq] at h ⊢
        rw [h.2]
    · by_cases hp : (kallocT size (tabOf st.mem)).1 = 0
      · simp only [hp, if_true, Option.some.injEq, Prod.mk.injEq] at h
        rw [hT, h.1]
      · simp only [hp, if_false, Option.some.injEq, Prod.mk.injEq] at h
        rw [hT, h.1]
  | free ptr =>
    obtain ⟨_, ho⟩ := kfree_refines ptr st.mem h0
    simp only [stepT] at h
    simp only [step]
    by_cases hmem : ptr ∈ st.live.map Prod.fst
    · simp only [hmem, if_true] at h ⊢
      cases hx : kfreeT ptr (tabOf st.mem) with
      | none => rw [hx] at h; cases h
      | some res =>
        cases res with
        | error e => rw [hx] at h; cases h
        | ok rt =>
          obtain ⟨p, T1⟩ := rt
          rw [hx] at h
          simp only [Option.some.injEq, Prod.mk.injEq] at h
          obtain ⟨m', hm', hT', hF'⟩ := ho p T1 hx
          refine ⟨m', ?_, by rw [hT', h.1], by rw [ent_end_of_frame _ _ hF']; exact h0, hF'⟩
          rw [hm']
          simp only [h.2]
    · simp only [hmem, if_false] at h
      cases h

theorem run_refines : ∀ (ops : List Op) (st : State) (T' : List Int) (L' : List (Int × Int)),
    ent st.mem 512 = 0 → runT ops (tabOf st.mem, st.live) = some (T', L') →
    ∃ m', run ops st = some ⟨m', L'⟩ ∧ tabOf m' = T' ∧ ent m' 512 = 0
      ∧ (∀ a, a < 0x6800 ∨ 0x6C00 ≤ a → m' a = st.mem a) := by
  intro ops
  induction ops with
  | nil =>
    intro st T' L' h0 h
    simp only [runT, Option.some.injEq, Prod.mk.injEq] at h
    refine ⟨st.mem, ?_, h.1, h0, fun _ _ => rfl⟩
    simp only [run, ← h.2]
  | cons op ops ih =>
    intro st T' L' h0 h
    simp only [runT] at h
    cases hs : stepT (tabOf st.mem, st.live) op with
    | none => rw [hs] at h; cases h
    | some st1 =>
      obtain ⟨T1, L1⟩ := st1
      rw [hs] at h
      obtain ⟨m1, hm1, hT1, h01, hF1⟩ := step_refines st op T1 L1 h0 hs
      simp only [] at h
      have h' : runT ops (tabOf (State.mk m1 L1).mem, (State.mk m1 L1).live) = some (T', L') := by
        simp only [hT1]; exact h
      obtain ⟨m', hm', hT', h0', hF'⟩ := ih ⟨m1, L1⟩ T' L' h01 h'
      refine ⟨m', ?_, hT', h0', fun a ha => by rw [hF' a ha]; exact hF1 a ha⟩
      simp only [run, hm1]
      exact hm'

/-! ## The state after `_kinit` -/

theorem kinit_zero_apply (a : Int) :
    _kinit zeroMem a = if a = 0x6801 then 0x40 else 0 := by
  rw [kinit_apply]
  unfold zeroMem
  split_ifs <;> first | rfl | omega

theorem kinit_zero_eq : _kinit zeroMem = fun a => if a = 0x6801 then 0x40 else 0 :=
  funext kinit_zero_apply

set_option maxRecDepth 100000 in
theorem tabOf_kinit_zero : tabOf (_kinit zeroMem) = initTab := by
  rw [kinit_zero_eq]
  decide!

theorem ent_end_kinit_zero : ent (_kinit zeroMem) 512 = 0 := by
  rw [kinit_zero_eq]
  decide!

theorem initState_mem : initState.mem = _kinit zeroMem := rfl

theorem initState_live : initState.live = [] := rfl

/-- Every call sequence that succeeds on the table succeeds on the image, from the state
after `_kinit`, with the same blocks handed out and the same control table. -/
theorem run_init (ops : List Op) (T' : List Int) (L' : List (Int × Int))
    (h : runT ops (initTab, []) = some (T', L')) :
    ∃ m', run ops initState = some ⟨m', L'⟩ ∧ tabOf m' = T' ∧ ent m' 512 = 0 := by
  have h' : runT ops (tabOf initState.mem, initState.live) = some (T', L') := by
    rw [initState_mem, initState_live, tabOf_kinit_zero]; exact h
  have h0 : ent initState.mem 512 = 0 := by rw [initState_mem]; exact ent_end_kinit_zero
  obtain ⟨m', h1, h2, h3, _⟩ := run_refines ops initState T' L' h0 h'
  exact ⟨m', h1, h2, h3⟩

theorem run_init_live (ops : List Op) (L' : List (Int × Int))
    (h : (runT ops (initTab, [])).map Prod.snd = some L') :
    ∃ m', run ops initState = some ⟨m', L'⟩ ∧ ent m' 512 = 0 := by
  cases hx : runT ops (initTab, []) with
  | none => rw [hx] at h; cases h
  | some r =>
    obtain ⟨T', L1⟩ := r
    rw [hx] at h
    simp only [Option.map_some', Option.some.injEq] at h
    subst h
    obtain ⟨m', h1, _, h3⟩ := run_init ops T' L1 hx
    exact ⟨m', h1, h3⟩

theorem freeThenT_refines (ptr : Int) (m : Mem) (T' : List Int) (h0 : ent m 512 = 0)
    (h : freeThenT ptr (tabOf m) = some T') :
    ∃ m', _kfree ptr m = .ok (ptr, m') ∧ tabOf m' = T' ∧ ent m' 512 = 0 := by
  unfold freeThenT at h
  obtain ⟨_, ho⟩ := kfree_refines ptr m h0
  cases hx : kfreeT ptr (tabOf m) with
  | none => rw [hx] at h; cases h
  | some res =>
    cases res with
    | error e => rw [hx] at h; cases h
    | ok rt =>
      obtain ⟨p, T1⟩ := rt
      rw [hx] at h
      by_cases hp : p = ptr
      · simp only [hp, if_true, Option.some.injEq] at h
        subst h
        obtain ⟨m', h1, h2, h3⟩ := ho p T1 hx
        rw [hp] at h1
        exact ⟨m', h1, h2, by rw [ent_end_of_frame _ _ h3]; exact h0⟩
      · simp only [hp, if_false] at h
        cases h

/-! ## Requests of the same size class -/

theorem rallocT_class (S S' : Int) (h : ∀ k, k ≤ 8 → (S ≤ 32 * 2 ^ k ↔ S' ≤ 32 * 2 ^ k)) :
    ∀ j, j ≤ 9 → ∀ i T, rallocT j S i T = rallocT j S' i T := by
  intro j
  induction j with
  | zero => intro _ i T; rfl
  | succ j ih =>
    intro hj i T
    rw [rallocT, rallocT]
    have hc := h j (by omega)
    by_cases hfit : S ≤ 32 * 2 ^ j
    · rw [if_pos hfit, if_pos (hc.1 hfit), ih (by omega) i T]
      cases hr : rallocT j S' i T with
      | mk r T1 =>
        cases r with
        | none => exact ih (by omega) _ _
        | some t => rfl
    · rw [if_neg hfit, if_neg (fun h' => hfit (hc.2 h'))]

theorem kallocT_class (S S' : Int) (h1 : 32 ≤ S) (h2 : S ≤ 16384) (h1' : 32 ≤ S')
    (h2' : S' ≤ 16384) (h : ∀ k, k ≤ 8 → (S ≤ 32 * 2 ^ k ↔ S' ≤ 32 * 2 ^ k)) (T : List Int) :
    kallocT S T = kallocT S' T := by
  unfold kallocT
  rw [if_neg (by omega), if_neg (by omega), rallocT_class S S' h 9 (le_refl _)]

theorem class_thresholds (S : Int) (k : Nat) (hlo : k = 0 ∨ 32 * 2 ^ (k - 1) < S)
    (hhi : S ≤ 32 * 2 ^ k) :
    ∀ j, j ≤ 8 → (S ≤ 32 * 2 ^ j ↔ (32 * 2 ^ k : Int) ≤ 32 * 2 ^ j) := by
  intro j _
  by_cases hjk : k ≤ j
  · have hm : (2 : Int) ^ k ≤ 2 ^ j := pow_le_pow_right₀ (by decide) hjk
    constructor
    · intro _; omega
    · intro _; omega
  · rcases hlo with h0 | hlo
    · omega
    · have hm : (2 : Int) ^ j ≤ 2 ^ (k - 1) := pow_le_pow_right₀ (by decide) (by omega)
      have hs : (2 : Int) ^ k = 2 * 2 ^ (k - 1) := by
        have : k = (k - 1) + 1 := by omega
        conv => lhs; rw [this, pow_succ]
        ring
      have hp : (0 : Int) < 2 ^ (k - 1) := two_pow_pos_int _
      constructor
      · intro _; omega
      · intro _; omega

theorem blockSize_class (S : Int) (h1 : 32 ≤ S) (h2 : S ≤ 16384) :
    ∃ k, k < 10 ∧ blockSize S = 32 * 2 ^ k ∧ (k = 0 ∨ 32 * 2 ^ (k - 1) < S) ∧ S ≤ 32 * 2 ^ k := by
  unfold blockSize
  by_cases c0 : S ≤ 32
  · rw [if_pos c0]
    exact ⟨0, by decide, by norm_num, Or.inl rfl, by norm_num; exact c0⟩
  rw [if_neg c0]
  by_cases c1 : S ≤ 64
  · rw [if_pos c1]
    exact ⟨1, by decide, by norm_num, Or.inr (by norm_num; omega), by norm_num; exact c1⟩
  rw [if_neg c1]
  by_cases c2 : S ≤ 128
  · rw [if_pos c2]
    exact ⟨2, by decide, by norm_num, Or.inr (by norm_num; omega), by norm_num; exact c2⟩
  rw [if_neg c2]
  by_cases c3 : S ≤ 256
  · rw [if_pos c3]
    exact ⟨3, by decide, by norm_num, Or.inr (by norm_num; omega), by norm_num; exact c3⟩
  rw [if_neg c3]
  by_cases c4 : S ≤ 512
  · rw [if_pos c4]
    exact ⟨4, by decide, by norm_num, Or.inr (by norm_num; omega), by norm_num; exact c4⟩
  rw [if_neg c4]
  by_cases c5 : S ≤ 1024
  · rw [if_pos c5]
    exact ⟨5, by decide, by norm_num, Or.inr (by norm_num; omega), by norm_num; exact c5⟩
  rw [if_neg c5]
  by_cases c6 : S ≤ 2048
  · rw [if_pos c6]
    exact ⟨6, by decide, by norm_num, Or.inr (by norm_num; omega), by norm_num; exact c6⟩
  rw [if_neg c6]
  by_cases c7 : S ≤ 4096
  · rw [if_pos c7]
    exact ⟨7, by decide, by norm_num, Or.inr (by norm_num; omega), by norm_num; exact c7⟩
  rw [if_neg c7]
  by_cases c8 : S ≤ 8192
  · rw [if_pos c8]
    exact ⟨8, by decide, by norm_num, Or.inr (by norm_num; omega), by norm_num; exact c8⟩
  rw [if_neg c8]
  by_cases c9 : S ≤ 16384
  · rw [if_pos c9]
    exact ⟨9, by decide, by norm_num, Or.inr (by norm_num; omega), by norm_num; exact c9⟩
  rw [if_neg c9]
  omega

/-- Every valid request has the size class `k` of its block size `32 * 2 ^ k`, and the search
cannot tell the request from a request of exactly that block size. -/
theorem class_of_size (S : Int) (h1 : 32 ≤ S) (h2 : S ≤ 16384) :
    ∃ k, k < 10 ∧ blockSize S = 32 * 2 ^ k ∧ (S ≤ 8192 → k < 9)
      ∧ ∀ T, kallocT S T = kallocT (32 * 2 ^ k) T := by
  obtain ⟨k, hk, hb, hlo, hhi⟩ := blockSize_class S h1 h2
  have hp : (0 : Int) < 2 ^ k := two_pow_pos_int k
  have h512 := two_pow_le_512 k (by omega)
  have hp1 : (1 : Int) ≤ 2 ^ k := by omega
  refine ⟨k, hk, hb, ?_, fun T => ?_⟩
  · intro h8
    by_contra h9
    have : k = 9 := by omega
    subst this
    rcases hlo with h | h
    · omega
    · norm_num at h; omega
  · exact kallocT_class S _ h1 h2 (by omega) (by omega) (class_thresholds S k hlo hhi) T

/-! ## Rejection of invalid requests -/

/-- C5 (rejection): for every size below `min_size` (negative sizes included) or above
`max_size`, and every image, `_kalloc` returns `NULL` and leaves the whole image, control
table and heap bytes alike, unchanged. -/
theorem kalloc_rejects (size : Int) (m : Mem) (h : size < 32 ∨ size > 16384) :
    _kalloc size m = .ok (0, m) := by
  unfold _kalloc
  rw [_ralloc, if_pos (by unfold min_size max_size; exact h)]

theorem kalloc_rejects_witness :
    _kalloc 31 zeroMem = .ok (0, zeroMem) ∧ _kalloc 16385 zeroMem = .ok (0, zeroMem)
      ∧ _kalloc (-5) zeroMem = .ok (0, zeroMem) :=
  ⟨kalloc_rejects 31 zeroMem (by decide), kalloc_rejects 16385 zeroMem (by decide),
    kalloc_rejects (-5) zeroMem (by decide)⟩

/-- C6 (allocation atomicity): for every image and every size, `_kalloc` runs to completion,
and when it returns `NULL` the image after the call is the image before it; an entry is
written only on a path that returns a non-`NULL` address. -/
theorem kalloc_null_atomic (size : Int) (m : Mem) :
    ∃ p m', _kalloc size m = .ok (p, m') ∧ (p = 0 → m' = m) := by
  obtain ⟨m', h1, _, _, h4⟩ := kalloc_refines size m
  exact ⟨_, m', h1, h4⟩

/-- C7 (invalid-address rejection): for every address below `heap_top` or above `heap_bot`,
and every image, `_kfree` returns `NULL` and leaves the image unchanged. -/
theorem kfree_rejects (addr : Int) (m : Mem) (h : addr < 0x20001000 ∨ addr > 0x20004FE0) :
    _kfree addr m = .ok (0, m) := by
  unfold _kfree
  simp only []
  rw [if_pos (by unfold heap_top heap_bot; exact h)]

theorem kfree_rejects_witness :
    _kfree 0x20000FFF zeroMem = .ok (0, zeroMem) ∧ _kfree 0x20004FE1 zeroMem = .ok (0, zeroMem)
      ∧ _kfree 0 zeroMem = .ok (0, zeroMem) :=
  ⟨kfree_rejects 0x20000FFF zeroMem (by decide), kfree_rejects 0x20004FE1 zeroMem (by decide),
    kfree_rejects 0 zeroMem (by decide)⟩

/-! ## Initialisation -/

/-- What `_kinit` establishes on every prior image: the heap bytes are zero, the first
control entry is `0x4000` with the occupied bit clear, and the entries 2 to 511 are zero. -/
theorem kinit_establishes (m : Mem) :
    (∀ a, 0x1000 ≤ a → a < 0x5000 → _kinit m a = 0) ∧ ent (_kinit m) 0 = 16384
      ∧ ∀ s, 2 ≤ s → s < 512 → ent (_kinit m) s = 0 := by
  refine ⟨?_, ?_, ?_⟩
  · intro a h1 h2
    rw [kinit_apply, if_pos ⟨h1, h2⟩]
  · unfold ent
    rw [kinit_apply, kinit_apply]
    norm_num [toShort]
  · intro s h1 h2
    unfold ent
    rw [kinit_apply, kinit_apply]
    rw [if_neg (by omega), if_neg (by omega), if_neg (by omega), if_pos (by omega),
      if_neg (by omega), if_neg (by omega), if_neg (by omega), if_pos (by omega)]
    decide

/-- The second control entry, at `0x20006802`, is not touched by `_kinit`: the loop that
zeroes the control table starts at `0x20006804`. -/
theorem kinit_keeps_second_entry (m : Mem) : ent (_kinit m) 1 = ent m 1 := by
  unfold ent
  rw [kinit_apply, kinit_apply]
  norm_num

/-- C8 at its failing input: after `_kinit` and `_kalloc(32)` on the zero image, a second
`_kinit` leaves the second control entry at 32 instead of 0. -/
theorem kinit_reset_leaves_entry :
    ∃ m1, _kalloc 32 (_kinit zeroMem) = .ok (heap_top, m1) ∧ ent (_kinit m1) 1 = 32 := by
  obtain ⟨m1, h1, h2, _, _⟩ := kalloc_refines 32 (_kinit zeroMem)
  rw [tabOf_kinit_zero] at h1 h2
  have e1 : (kallocT 32 initTab).1 = heap_top := by decide!
  have e2 : getE (kallocT 32 initTab).2 1 = 32 := by decide!
  refine ⟨m1, by rw [h1, e1], ?_⟩
  rw [kinit_keeps_second_entry, ← getE_tabOf m1 1 (by decide), h2, e2]

/-! ## Scenarios from the state after `_kinit` -/

set_option maxRecDepth 100000 in
theorem round_trip_classes : ∀ k, k < 10 →
    (kallocT (32 * 2 ^ k) initTab).1 = heap_top
      ∧ freeThenT heap_top (kallocT (32 * 2 ^ k) initTab).2 = some initTab := by
  decide!

set_option maxRecDepth 100000 in
theorem two_alloc_classes : ∀ k, k < 9 →
    (kallocT (32 * 2 ^ k) initTab).1 = heap_top
      ∧ (kallocT (32 * 2 ^ k) (kallocT (32 * 2 ^ k) initTab).2).1 = heap_top + 32 * 2 ^ k
      ∧ (freeThenT heap_top (kallocT (32 * 2 ^ k) (kallocT (32 * 2 ^ k) initTab).2).2).bind
          (freeThenT (heap_top + 32 * 2 ^ k)) = some initTab := by
  decide!

theorem getE_initTab_zero : getE initTab 0 = 16384 := by
  unfold initTab; rfl

theorem getE_initTab_succ (s : Nat) (h : 1 ≤ s) : getE initTab s = 0 := by
  unfold initTab getE
  obtain ⟨t, rfl⟩ : ∃ t, s = t + 1 := ⟨s - 1, by omega⟩
  rw [List.getD_cons_succ, List.getD_eq_getElem?_getD]
  by_cases ht : t < 511
  · rw [List.getElem?_replicate_of_lt ht]; rfl
  · rw [List.getElem?_eq_none (by rw [List.length_replicate]; omega)]; rfl

theorem ent_of_tabOf_init (m : Mem) (h : tabOf m = initTab) :
    ent m 0 = 16384 ∧ ∀ s, 1 ≤ s → s < 512 → ent m s = 0 := by
  constructor
  · rw [← getE_tabOf m 0 (by decide), h, getE_initTab_zero]
  · intro s h1 h2
    rw [← getE_tabOf m s h2, h, getE_initTab_succ s h1]

/-- C2 (round trip): for every size from 32 to 16384, `_kalloc` on the state after `_kinit`
(zero image before `_kinit`, nothing allocated) returns a non-`NULL` address, `_kfree` of
that address succeeds, and afterwards the control table is the table after `_kinit`: the
first entry is 16384 and free, every other entry is 0. -/
theorem round_trip (S : Int) (h1 : 32 ≤ S) (h2 : S ≤ 16384) :
    ∃ A m1 m2, _kalloc S (_kinit zeroMem) = .ok (A, m1) ∧ A ≠ 0
      ∧ _kfree A m1 = .ok (A, m2)
      ∧ tabOf m2 = tabOf (_kinit zeroMem)
      ∧ ent m2 0 = 16384 ∧ ∀ s, 1 ≤ s → s < 512 → ent m2 s = 0 := by
  obtain ⟨k, hk, _, _, hcls⟩ := class_of_size S h1 h2
  obtain ⟨e1, e2⟩ := round_trip_classes k hk
  obtain ⟨m1, a1, a2, a3, _⟩ := kalloc_refines S (_kinit zeroMem)
  rw [tabOf_kinit_zero, hcls] at a1 a2
  rw [e1] at a1
  have h01 : ent m1 512 = 0 := by rw [ent_end_of_frame _ _ a3]; exact ent_end_kinit_zero
  rw [← a2] at e2
  obtain ⟨m2, f1, f2, _⟩ := freeThenT_refines heap_top m1 initTab h01 e2
  obtain ⟨g1, g2⟩ := ent_of_tabOf_init m2 f2
  exact ⟨heap_top, m1, m2, a1, by unfold heap_top; decide, f1, by rw [f2, tabOf_kinit_zero],
    g1, g2⟩

theorem round_trip_witness :
    ∃ A m1 m2, _kalloc 100 (_kinit zeroMem) = .ok (A, m1) ∧ A ≠ 0
      ∧ _kfree A m1 = .ok (A, m2)
      ∧ tabOf m2 = tabOf (_kinit zeroMem)
      ∧ ent m2 0 = 16384 ∧ ∀ s, 1 ≤ s → s < 512 → ent m2 s = 0 :=
  round_trip 100 (by decide) (by decide)

/-- C3 (two allocations): for every size from 32 to 8192 (100 among them), two calls of
`_kalloc` on the state after `_kinit` return two different non-`NULL` addresses whose
blocks, of the smallest power of two holding the size, do not overlap; after `_kfree` of
the first and then of the second the control table is the table after `_kinit`. -/
theorem two_allocations (S : Int) (h1 : 32 ≤ S) (h2 : S ≤ 8192) :
    ∃ A m1 A2 m2 m3 m4, _kalloc S (_kinit zeroMem) = .ok (A, m1)
      ∧ _kalloc S m1 = .ok (A2, m2)
      ∧ A ≠ 0 ∧ A2 ≠ 0 ∧ A2 ≠ A
      ∧ (A + blockSize S ≤ A2 ∨ A2 + blockSize S ≤ A)
      ∧ _kfree A m2 = .ok (A, m3) ∧ _kfree A2 m3 = .ok (A2, m4)
      ∧ tabOf m4 = tabOf (_kinit zeroMem) := by
  obtain ⟨k, hk, hb, h9, hcls⟩ := class_of_size S h1 (by omega)
  obtain ⟨e1, e2, e3⟩ := two_alloc_classes k (h9 h2)
  have hp : (0 : Int) < 2 ^ k := two_pow_pos_int k
  obtain ⟨m1, a1, a2, a3, _⟩ := kalloc_refines S (_kinit zeroMem)
  rw [tabOf_kinit_zero, hcls] at a1 a2
  rw [e1] at a1
  have h01 : ent m1 512 = 0 := by rw [ent_end_of_frame _ _ a3]; exact ent_end_kinit_zero
  obtain ⟨m2, b1, b2, b3, _⟩ := kalloc_refines S m1
  rw [hcls, a2] at b1 b2
  rw [e2] at b1
  have h02 : ent m2 512 = 0 := by rw [ent_end_of_frame _ _ b3]; exact h01
  rw [← b2] at e3
  cases hf : freeThenT heap_top (tabOf m2) with
  | none => rw [hf] at e3; cases e3
  | some T3 =>
    rw [hf] at e3
    simp only [Option.some_bind] at e3
    obtain ⟨m3, f1, f2, h03⟩ := freeThenT_refines heap_top m2 T3 h02 hf
    rw [← f2] at e3
    obtain ⟨m4, g1, g2, _⟩ := freeThenT_refines _ m3 initTab h03 e3
    refine ⟨heap_top, m1, heap_top + 32 * 2 ^ k, m2, m3, m4, a1, b1, ?_, ?_, ?_, ?_, f1, g1, ?_⟩
    · unfold heap_top; decide
    · unfold heap_top; omega
    · omega
    · left; rw [hb]
    · rw [g2, tabOf_kinit_zero]

theorem two_allocations_witness :
    ∃ A m1 A2 m2 m3 m4, _kalloc 100 (_kinit zeroMem) = .ok (A, m1)
      ∧ _kalloc 100 m1 = .ok (A2, m2)
      ∧ A ≠ 0 ∧ A2 ≠ 0 ∧ A2 ≠ A
      ∧ (A + blockSize 100 ≤ A2 ∨ A2 + blockSize 100 ≤ A)
      ∧ _kfree A m2 = .ok (A, m3) ∧ _kfree A2 m3 = .ok (A2, m4)
      ∧ tabOf m4 = tabOf (_kinit zeroMem) :=
  two_allocations 100 (by decide) (by decide)

/-! ## Defects reached by call sequences -/

set_option maxRecDepth 100000 in
theorem overlap_run :
    (runT [.alloc 8192, .alloc 4096, .alloc 4096, .free (heap_top + 8192), .free heap_top,
        .alloc 32, .alloc 8192] (initTab, [])).map Prod.snd
      = some [(heap_top + 8192, 8192), (heap_top, 32), (heap_top + 12288, 4096)] := by
  decide!

/-- C1 at its failing input: after the calls `_kalloc(8192)`, `_kalloc(4096)`,
`_kalloc(4096)`, `_kfree` of the second block, `_kfree` of the first, `_kalloc(32)` and
`_kalloc(8192)`, the block of 8192 bytes handed out last, at `heap_top + 8192`, contains the
block of 4096 bytes at `heap_top + 12288` that is still allocated. -/
theorem kalloc_overlap : ∃ st, Reachable st ∧ ¬ NoOverlap st.live := by
  obtain ⟨m', h, _⟩ := run_init_live _ _ overlap_run
  refine ⟨_, ⟨_, h⟩, ?_⟩
  intro hno
  unfold NoOverlap at hno
  have hd := (List.pairwise_cons.1 hno).1 (heap_top + 12288, 4096) (by simp)
  unfold extentsDisjoint at hd
  have b1 : blockSize 8192 = 8192 := by decide
  have b2 : blockSize 4096 = 4096 := by decide
  simp only [b1, b2] at hd
  omega

set_option maxRecDepth 100000 in
theorem double_free_run :
    runT [.alloc 32, .alloc 32, .free heap_top, .free (heap_top + 32)] (initTab, [])
      = some (initTab, []) := by
  decide!

set_option maxRecDepth 100000 in
theorem double_free_table : kfreeT (heap_top + 32) initTab = some (.error .divZero) := by
  decide!

/-- C10 at its failing input: after `_kalloc(32)` twice and `_kfree` of both blocks, the
second block has been merged away and its entry is 0; a second `_kfree` of its address
divides by zero in the index computation of `_rfree`. -/
theorem double_free_divides_by_zero :
    ∃ st, run [.alloc 32, .alloc 32, .free heap_top, .free (heap_top + 32)] initState = some st
      ∧ _kfree (heap_top + 32) st.mem = .error .divZero := by
  obtain ⟨m', h1, h2, h3⟩ := run_init _ _ _ double_free_run
  refine ⟨_, h1, ?_⟩
  obtain ⟨he, _⟩ := kfree_refines (heap_top + 32) m' h3
  apply he
  rw [h2]
  exact double_free_table

/-! ## Arithmetic of aligned windows -/

theorem aligned_step (p a b : Nat) (ha : p ∣ a) (hb : p ∣ b) (h : a < b) : a + p ≤ b := by
  obtain ⟨x, rfl⟩ := ha
  obtain ⟨y, rfl⟩ := hb
  have hxy : x < y := by
    by_contra hc
    have : p * y ≤ p * x := Nat.mul_le_mul_left p (by omega)
    omega
  calc p * x + p = p * (x + 1) := by ring
    _ ≤ p * y := Nat.mul_le_mul_left p hxy

theorem two_pow_dvd (k j : Nat) (h : k ≤ j) : 2 ^ k ∣ 2 ^ j := pow_dvd_pow 2 h

theorem dvd_mid (j i : Nat) (h : 2 ^ (j + 1) ∣ i) : 2 ^ j ∣ i + 2 ^ j :=
  Nat.dvd_add (dvd_trans (two_pow_dvd j (j + 1) (by omega)) h) (dvd_refl _)

theorem dvd_left (j i : Nat) (h : 2 ^ (j + 1) ∣ i) : 2 ^ j ∣ i :=
  dvd_trans (two_pow_dvd j (j + 1) (by omega)) h

theorem not_dvd_mid (j i k : Nat) (h : 2 ^ (j + 1) ∣ i) (hk : j < k) : ¬ 2 ^ k ∣ i + 2 ^ j := by
  intro hd
  have h1 : 2 ^ (j + 1) ∣ i + 2 ^ j := dvd_trans (two_pow_dvd (j + 1) k (by omega)) hd
  have h2 : 2 ^ (j + 1) ∣ 2 ^ j := (Nat.dvd_add_right h).1 h1
  have h3 : 2 ^ (j + 1) ≤ 2 ^ j := Nat.le_of_dvd (by positivity) h2
  have h4 : 2 ^ (j + 1) = 2 * 2 ^ j := by rw [pow_succ]; ring
  have h5 : 0 < 2 ^ j := by positivity
  omega

theorem two_pow_succ (j : Nat) : 2 ^ (j + 1) = 2 * 2 ^ j := by rw [pow_succ]; ring

theorem two_pow_succ_int (j : Nat) : (2 : Int) ^ (j + 1) = 2 * 2 ^ j := by rw [pow_succ]; ring

/-! ## Levels of entries -/

theorem two_pow_int_inj (k k' : Nat) (h : (2 : Int) ^ k = 2 ^ k') : k = k' := by
  have h' : ((2 ^ k : Nat) : Int) = ((2 ^ k' : Nat) : Int) := by push_cast; exact h
  exact Nat.pow_right_injective (le_refl 2) (Int.ofNat_inj.1 h')

theorem hasLevel_unique (e : Int) (k k' : Nat) (h : HasLevel e k) (h' : HasLevel e k') :
    k = k' := by
  apply two_pow_int_inj
  unfold HasLevel at h h'
  rcases h with h | h <;> rcases h' with h' | h' <;> omega

theorem hasLevel_ne_zero (e : Int) (k : Nat) (h : HasLevel e k) : e ≠ 0 := by
  have hp : (0 : Int) < 2 ^ k := two_pow_pos_int k
  unfold HasLevel at h
  rcases h with h | h <;> omega

theorem hasLevel_pos (e : Int) (k : Nat) (h : HasLevel e k) : 32 ≤ e := by
  have hp : (0 : Int) < 2 ^ k := two_pow_pos_int k
  unfold HasLevel at h
  rcases h with h | h <;> omega

theorem two_pow_int_mono (k j : Nat) (h : k ≤ j) : (2 : Int) ^ k ≤ 2 ^ j :=
  pow_le_pow_right₀ (by decide) h

theorem two_pow_int_lt (k j : Nat) (h : k < j) : (2 : Int) ^ k < 2 ^ j :=
  pow_lt_pow_right₀ (by decide) h

/-! ## Windows that agree on their entries -/

/-- Two tables have the same shape on the entries from `lo` up to `hi`: the same entries
are zero and the non-zero entries record the same block sizes. -/
theorem cover_congr (T T' : List Int) : ∀ (j i : Nat),
    (∀ s, i ≤ s → s < i + 2 ^ j → ∀ k, HasLevel (getE T s) k → HasLevel (getE T' s) k) →
    Cover T j i → Cover T' j i := by
  intro j
  induction j with
  | zero =>
    intro i h hc
    exact h i (le_refl _) (by simp) 0 hc
  | succ j ih =>
    intro i h hc
    have hp : 0 < 2 ^ j := by positivity
    have hs := two_pow_succ j
    rcases hc with hc | ⟨hl, hr⟩
    · exact Or.inl (h i (le_refl _) (by omega) _ hc)
    · refine Or.inr ⟨ih i (fun s h1 h2 => h s h1 (by omega)) hl,
        ih (i + 2 ^ j) (fun s h1 h2 => h s (by omega) (by omega)) hr⟩

theorem nodeOK_congr (T T' : List Int) (j i : Nat)
    (h : ∀ s, i ≤ s → s < i + 2 ^ j → ∀ k, HasLevel (getE T s) k → HasLevel (getE T' s) k)
    (hz : getE T i = 0 → getE T' i = 0) (hn : NodeOK T j i) : NodeOK T' j i := by
  have hp : 0 < 2 ^ j := by positivity
  rcases hn with hn | ⟨k, hk, hl⟩ | hn
  · exact Or.inl (cover_congr T T' j i h hn)
  · exact Or.inr (Or.inl ⟨k, hk, h i (le_refl _) (by omega) k hl⟩)
  · exact Or.inr (Or.inr (hz hn))

theorem wfEntry_congr (T T' : List Int) (s : Nat)
    (h : ∀ k, HasLevel (getE T s) k → HasLevel (getE T' s) k)
    (hz : getE T s = 0 → getE T' s = 0) (hw : WFEntry T s) : WFEntry T' s := by
  rcases hw with hw | ⟨k, hk, hl, hd⟩
  · exact Or.inl (hz hw)
  · exact Or.inr ⟨k, hk, h k hl, hd⟩

theorem goodW_congr (T T' : List Int) : ∀ (j i : Nat),
    (∀ s, i ≤ s → s < i + 2 ^ j → ∀ k, HasLevel (getE T s) k → HasLevel (getE T' s) k) →
    (∀ s, i ≤ s → s < i + 2 ^ j → getE T s = 0 → getE T' s = 0) →
    GoodW T j i → GoodW T' j i := by
  intro j
  induction j with
  | zero =>
    intro i h hz hg
    exact ⟨wfEntry_congr T T' i (h i (le_refl _) (by simp)) (hz i (le_refl _) (by simp)) hg.1,
      nodeOK_congr T T' 0 i h (hz i (le_refl _) (by simp)) hg.2⟩
  | succ j ih =>
    intro i h hz hg
    have hp : 0 < 2 ^ j := by positivity
    have hs := two_pow_succ j
    obtain ⟨h1, h2, h3⟩ := hg
    exact ⟨nodeOK_congr T T' (j + 1) i h (hz i (le_refl _) (by omega)) h1,
      ih i (fun s a b => h s a (by omega)) (fun s a b => hz s a (by omega)) h2,
      ih (i + 2 ^ j) (fun s a b => h s (by omega) (by omega))
        (fun s a b => hz s (by omega) (by omega)) h3⟩

/-- A window keeps its shape when no entry inside it changes. -/
theorem goodW_frame (T T' : List Int) (j i : Nat)
    (h : ∀ s, i ≤ s → s < i + 2 ^ j → getE T' s = getE T s) (hg : GoodW T j i) :
    GoodW T' j i :=
  goodW_congr T T' j i (fun s a b k hl => by rw [h s a b]; exact hl)
    (fun s a b hz => by rw [h s a b]; exact hz) hg

theorem cover_frame (T T' : List Int) (j i : Nat)
    (h : ∀ s, i ≤ s → s < i + 2 ^ j → getE T' s = getE T s) (hc : Cover T j i) :
    Cover T' j i :=
  cover_congr T T' j i (fun s a b k hl => by rw [h s a b]; exact hl) hc

/-! ## What a tiled window says about its first entry -/

theorem cover_level (T : List Int) : ∀ (j i : Nat), Cover T j i →
    ∃ k, k ≤ j ∧ HasLevel (getE T i) k := by
  intro j
  induction j with
  | zero => intro i h; exact ⟨0, le_refl _, h⟩
  | succ j ih =>
    intro i h
    rcases h with h | ⟨hl, _⟩
    · exact ⟨j + 1, le_refl _, h⟩
    · obtain ⟨k, hk, hl'⟩ := ih i hl
      exact ⟨k, by omega, hl'⟩

theorem cover_of_level (T : List Int) (j i : Nat) (h : HasLevel (getE T i) j) : Cover T j i := by
  cases j with
  | zero => exact h
  | succ j => exact Or.inl h

theorem goodW_nodeOK (T : List Int) (j i : Nat) (h : GoodW T j i) : NodeOK T j i := by
  cases j with
  | zero => exact h.2
  | succ j => exact h.1

theorem goodW_wfEntry (T : List Int) : ∀ (j i : Nat), GoodW T j i → WFEntry T i := by
  intro j
  induction j with
  | zero => intro i h; exact h.1
  | succ j ih => intro i h; exact ih i h.2.1

/-- An aligned window whose first entry is non-zero and records at most the window is
tiled. -/
theorem cover_of_small (T : List Int) (j i k : Nat) (hn : NodeOK T j i)
    (hl : HasLevel (getE T i) k) (hk : k ≤ j) : Cover T j i := by
  rcases hn with hn | ⟨k', hk', hl'⟩ | hn
  · exact hn
  · have := hasLevel_unique _ _ _ hl hl'; omega
  · exact absurd hn (hasLevel_ne_zero _ _ hl)

/-- The right half of an aligned window is tiled as soon as its first entry is non-zero. -/
theorem cover_mid (T : List Int) (j i : Nat) (hi : 2 ^ (j + 1) ∣ i)
    (hg : GoodW T j (i + 2 ^ j)) (hnz : getE T (i + 2 ^ j) ≠ 0) : Cover T j (i + 2 ^ j) := by
  rcases goodW_wfEntry T j _ hg with hw | ⟨k, _, hl, hd⟩
  · exact absurd hw hnz
  · have hkj : k ≤ j := by
      by_contra hc
      exact not_dvd_mid j i k hi (by omega) hd
    exact cover_of_small T j _ k (goodW_nodeOK T j _ hg) hl hkj

/-- An aligned window of `2 ^ (j + 1)` entries is `NodeOK` when its left half is and the
right half is tiled whenever the first entry records at most the left half. -/
theorem nodeOK_succ (T : List Int) (j i : Nat) (hw : WFEntry T i) (hl : NodeOK T j i)
    (hr : ∀ k, k ≤ j → HasLevel (getE T i) k → Cover T j (i + 2 ^ j)) :
    NodeOK T (j + 1) i := by
  rcases hw with hw | ⟨k, _, hk, _⟩
  · exact Or.inr (Or.inr hw)
  · by_cases h1 : k ≤ j
    · exact Or.inl (Or.inr ⟨cover_of_small T j i k hl hk h1, hr k h1 hk⟩)
    · by_cases h2 : k = j + 1
      · subst h2; exact Or.inl (Or.inl hk)
      · exact Or.inr (Or.inl ⟨k, by omega, hk⟩)

/-- Rewriting the first entry of a window to a block at least as large as the window
keeps the window's shape. -/
theorem goodW_set_big (T T' : List Int) (k : Nat) (hk : k ≤ 9) : ∀ (j i : Nat), j ≤ k →
    2 ^ k ∣ i → HasLevel (getE T' i) k →
    (∀ s, i < s → s < i + 2 ^ j → getE T' s = getE T s) →
    GoodW T j i → GoodW T' j i := by
  intro j
  induction j with
  | zero =>
    intro i hj hd hl _ _
    refine ⟨Or.inr ⟨k, hk, hl, hd⟩, ?_⟩
    by_cases h0 : k = 0
    · subst h0; exact Or.inl hl
    · exact Or.inr (Or.inl ⟨k, by omega, hl⟩)
  | succ j ih =>
    intro i hj hd hl hf hg
    have hp : 0 < 2 ^ j := by positivity
    have hs := two_pow_succ j
    refine ⟨?_, ih i (by omega) hd hl (fun s a b => hf s a (by omega)) hg.2.1,
      goodW_frame T T' j _ (fun s a b => hf s (by omega) (by omega)) hg.2.2⟩
    by_cases h0 : k = j + 1
    · subst h0; exact Or.inl (Or.inl hl)
    · exact Or.inr (Or.inl ⟨k, by omega, hl⟩)

/-- Zeroing the first entry of a window keeps the window's shape. -/
theorem goodW_set_zero (T T' : List Int) : ∀ (j i : Nat), getE T' i = 0 →
    (∀ s, i < s → s < i + 2 ^ j → getE T' s = getE T s) →
    GoodW T j i → GoodW T' j i := by
  intro j
  induction j with
  | zero =>
    intro i hz _ _
    exact ⟨Or.inl hz, Or.inr (Or.inr hz)⟩
  | succ j ih =>
    intro i hz hf hg
    have hp : 0 < 2 ^ j := by positivity
    have hs := two_pow_succ j
    exact ⟨Or.inr (Or.inr hz), ih i hz (fun s a b => hf s a (by omega)) hg.2.1,
      goodW_frame T T' j _ (fun s a b => hf s (by omega) (by omega)) hg.2.2⟩

/-! ## The search keeps the shape of the table -/

theorem baseT_post (j i : Nat) (T : List Int) (hj : j ≤ 9) (hd : 2 ^ j ∣ i)
    (hi : i + 2 ^ j ≤ 512) (hlen : T.length = 512) (hg : GoodW T j i) :
    AllocPost T j i (baseT j i T) := by
  have hp : 0 < 2 ^ j := by positivity
  have hpI : (0 : Int) < 2 ^ j := two_pow_pos_int j
  unfold baseT
  by_cases hc : getE T i % 2 = 0 ∧ getE T i ≥ 32 * 2 ^ j
  · rw [if_pos hc]
    have hself : getE (T.set i (32 * 2 ^ j + 1)) i = 32 * 2 ^ j + 1 :=
      getE_set_self T i _ (by omega)
    have hother : ∀ s, s ≠ i → getE (T.set i (32 * 2 ^ j + 1)) s = getE T s :=
      fun s hs => getE_set_ne T i s _ (fun h => hs h.symm)
    refine ⟨by simp only [List.length_set]; exact hlen, ?_, ?_, ?_, ?_, ?_, ?_⟩
    · exact goodW_set_big T _ j hj j i (le_refl _) hd (by rw [hself]; exact Or.inr rfl)
        (fun s a _ => hother s (by omega)) hg
    · intro s hs; exact hother s (by omega)
    · intro s hs
      by_cases h : s = i
      · subst h; simp only [hself]; omega
      · simp only [hother s h]; exact hs
    · intro s hs
      by_cases h : s = i
      · subst h; omega
      · exact hother s h
    · intro h; cases h
    · intro t ht
      simp only [Option.some.injEq] at ht
      subst ht
      refine ⟨le_refl _, by omega, ?_⟩
      simp only [hself]; omega
  · rw [if_neg hc]
    exact ⟨hlen, hg, fun _ _ => rfl, fun _ h => h, fun _ _ => rfl, fun _ => rfl,
      fun t h => (by cases h)⟩

theorem rallocT_post : ∀ (j : Nat) (S : Int) (i : Nat) (T : List Int), j ≤ 9 → 2 ^ j ∣ i →
    i + 2 ^ j ≤ 512 → T.length = 512 → GoodW T j i → AllocPost T j i (rallocT j S i T) := by
  intro j
  induction j with
  | zero =>
    intro S i T hj hd hi hlen hg
    exact baseT_post 0 i T hj hd hi hlen hg
  | succ j ih =>
    intro S i T hj hd hi hlen hg
    have hp : 0 < 2 ^ j := by positivity
    have hs := two_pow_succ j
    rw [rallocT]
    by_cases hfit : S ≤ 32 * 2 ^ j
    · rw [if_pos hfit]
      obtain ⟨hn, hgl, hgr⟩ := hg
      obtain ⟨l1, l2, l3, l4, l5, l6, l7⟩ :=
        ih S i T (by omega) (dvd_left j i hd) (by omega) hlen hgl
      cases hr : rallocT j S i T with
      | mk r1 T1 =>
        rw [hr] at l1 l2 l3 l4 l5 l6 l7
        simp only [] at l1 l2 l3 l4 l5 l6 l7
        cases r1 with
        | none =>
          have hT1 : T1 = T := l6 rfl
          subst hT1
          simp only []
          obtain ⟨r1, r2, r3, r4, r5, r6, r7⟩ :=
            ih S (i + 2 ^ j) T1 (by omega) (dvd_mid j i hd) (by omega) hlen hgr
          generalize rallocT j S (i + 2 ^ j) T1 = r at r1 r2 r3 r4 r5 r6 r7 ⊢
          have hgl' : GoodW r.2 j i := goodW_frame T1 r.2 j i (fun s a b => r3 s (by omega)) hgl
          refine ⟨r1, ⟨?_, hgl', r2⟩, fun s hs => r3 s (by omega), r4, r5, r6, ?_⟩
          · apply nodeOK_succ r.2 j i (goodW_wfEntry _ j i hgl') (goodW_nodeOK _ j i hgl')
            intro k hk hl
            apply cover_mid r.2 j i hd r2
            have e0 : getE r.2 i = getE T1 i := r3 i (by omega)
            rw [e0] at hl
            have hc := cover_of_small T1 (j + 1) i k hn hl (by omega)
            rcases hc with hc | ⟨_, hc⟩
            · have := hasLevel_unique _ _ _ hl hc; omega
            · obtain ⟨k', _, hl'⟩ := cover_level T1 j _ hc
              exact r4 _ (hasLevel_ne_zero _ _ hl')
          · intro t ht
            obtain ⟨a, b, c⟩ := r7 t ht
            exact ⟨by omega, by omega, c⟩
        | some t =>
          simp only []
          have hmid : getE T1 (i + 2 ^ j) = getE T (i + 2 ^ j) := l3 _ (by omega)
          have hgr1 : GoodW T1 j (i + 2 ^ j) :=
            goodW_frame T T1 j _ (fun s a b => l3 s (by omega)) hgr
          by_cases hv : getE T1 (i + 2 ^ j) % 2 = 0
          · rw [if_pos hv]
            have hself : getE (T1.set (i + 2 ^ j) (32 * 2 ^ j)) (i + 2 ^ j) = 32 * 2 ^ j :=
              getE_set_self T1 _ _ (by omega)
            have hother : ∀ s, s ≠ i + 2 ^ j →
                getE (T1.set (i + 2 ^ j) (32 * 2 ^ j)) s = getE T1 s :=
              fun s hs => getE_set_ne T1 _ s _ (fun h => hs h.symm)
            have hlev : HasLevel (getE (T1.set (i + 2 ^ j) (32 * 2 ^ j)) (i + 2 ^ j)) j := by
              rw [hself]; exact Or.inl rfl
            have hgl' : GoodW (T1.set (i + 2 ^ j) (32 * 2 ^ j)) j i :=
              goodW_frame T1 _ j i (fun s a b => hother s (by omega)) l2
            have hgr' : GoodW (T1.set (i + 2 ^ j) (32 * 2 ^ j)) j (i + 2 ^ j) :=
              goodW_set_big T1 _ j (by omega) j _ (le_refl _) (dvd_mid j i hd) hlev
                (fun s a b => hother s (by omega)) hgr1
            have hpI : (0 : Int) < 2 ^ j := two_pow_pos_int j
            refine ⟨by simp only [List.length_set]; exact l1, ⟨?_, hgl', hgr'⟩, ?_, ?_, ?_,
              fun h => (by cases h), ?_⟩
            · apply nodeOK_succ _ j i (goodW_wfEntry _ j i hgl') (goodW_nodeOK _ j i hgl')
              intro k hk hl
              exact cover_of_level _ j _ hlev
            · intro s hs
              simp only []
              rw [hother s (by omega)]; exact l3 s (by omega)
            · intro s hs
              simp only []
              by_cases h : s = i + 2 ^ j
              · subst h; rw [hself]; omega
              · rw [hother s h]; exact l4 s hs
            · intro s hs
              simp only []
              by_cases h : s = i + 2 ^ j
              · subst h; rw [← hmid] at hs; omega
              · rw [hother s h]; exact l5 s hs
            · intro t' ht'
              simp only [Option.some.injEq] at ht'
              subst ht'
              obtain ⟨a, b, c⟩ := l7 t rfl
              refine ⟨a, by omega, ?_⟩
              simp only []
              rw [hother t (by omega)]; exact c
          · rw [if_neg hv]
            refine ⟨l1, ⟨?_, l2, hgr1⟩, fun s hs => l3 s (by omega), l4, l5,
              fun h => (by cases h), ?_⟩
            · apply nodeOK_succ _ j i (goodW_wfEntry _ j i l2) (goodW_nodeOK _ j i l2)
              intro k hk hl
              apply cover_mid T1 j i hd hgr1
              intro h0
              rw [h0] at hv
              exact hv rfl
            · intro t' ht'
              simp only [Option.some.injEq] at ht'
              subst ht'
              obtain ⟨a, b, c⟩ := l7 t rfl
              exact ⟨a, by omega, c⟩
    · rw [if_neg hfit]
      exact baseT_post (j + 1) i T hj hd hi hlen hg

/-! ## Merging two buddies keeps the shape of the table -/

/-- Merging the blocks at `s0` and `s0 + 2 ^ k` (entry `s0` now records twice the size, entry
`s0 + 2 ^ k` is zeroed) keeps the shape of every aligned window that contains both. -/
theorem goodW_merge (T T' : List Int) (s0 k : Nat) (hk : k + 1 ≤ 9) (hd : 2 ^ (k + 1) ∣ s0)
    (hl : HasLevel (getE T s0) k) (hl' : HasLevel (getE T' s0) (k + 1))
    (hz : getE T' (s0 + 2 ^ k) = 0)
    (hf : ∀ s, s ≠ s0 → s ≠ s0 + 2 ^ k → getE T' s = getE T s) :
    ∀ (d i : Nat), 2 ^ (k + 1 + d) ∣ i → i ≤ s0 → s0 + 2 ^ (k + 1) ≤ i + 2 ^ (k + 1 + d) →
      (GoodW T (k + 1 + d) i → GoodW T' (k + 1 + d) i)
      ∧ (Cover T (k + 1 + d) i → Cover T' (k + 1 + d) i) := by
  have hpk : 0 < 2 ^ k := by positivity
  have hsk := two_pow_succ k
  intro d
  induction d with
  | zero =>
    intro i _ h1 h2
    have hi : i = s0 := by simp only [Nat.add_zero] at h2; omega
    subst hi
    constructor
    · intro hg
      obtain ⟨_, hgl, hgr⟩ := hg
      exact ⟨Or.inl (Or.inl hl'),
        goodW_set_big T T' (k + 1) hk k i (by omega) hd hl'
          (fun s a b => hf s (by omega) (by omega)) hgl,
        goodW_set_zero T T' k (i + 2 ^ k) hz (fun s a b => hf s (by omega) (by omega)) hgr⟩
    · intro _
      exact Or.inl hl'
  | succ d ih =>
    intro i hdi h1 h2
    have hj : k + 1 + (d + 1) = (k + 1 + d) + 1 := by omega
    rw [hj] at hdi h2 ⊢
    generalize hjd : k + 1 + d = j at ih hdi h2 ⊢
    have hp : 0 < 2 ^ j := by positivity
    have hs := two_pow_succ j
    have hkj : k + 1 ≤ j := by omega
    have hdl : 2 ^ j ∣ i := dvd_left j i hdi
    have hdm : 2 ^ j ∣ i + 2 ^ j := dvd_mid j i hdi
    -- the first entry of the window, when it records at most the left half, does so in `T` too
    have hsmall : ∀ k', k' ≤ j → HasLevel (getE T' i) k' → ∃ k'', k'' ≤ j ∧ HasLevel (getE T i) k'' := by
      intro k' hk' hlev
      by_cases hi : i = s0
      · subst hi; exact ⟨k, by omega, hl⟩
      · rw [hf i hi (by omega)] at hlev
        exact ⟨k', hk', hlev⟩
    have hchildren : ∀ k'', k'' ≤ j → HasLevel (getE T i) k'' → NodeOK T (j + 1) i →
        Cover T j i ∧ Cover T j (i + 2 ^ j) := by
      intro k'' hk'' hlev hn
      rcases cover_of_small T (j + 1) i k'' hn hlev (by omega) with hc | hc
      · have := hasLevel_unique _ _ _ hlev hc; omega
      · exact hc
    by_cases hlt : s0 < i + 2 ^ j
    · have hin : s0 + 2 ^ (k + 1) ≤ i + 2 ^ j :=
        aligned_step (2 ^ (k + 1)) s0 (i + 2 ^ j) hd
          (dvd_trans (two_pow_dvd (k + 1) j hkj) hdm) hlt
      obtain ⟨ihg, ihc⟩ := ih i hdl h1 hin
      have hfr : ∀ s, i + 2 ^ j ≤ s → s < i + 2 ^ j + 2 ^ j → getE T' s = getE T s :=
        fun s a b => hf s (by omega) (by omega)
      constructor
      · intro hg
        obtain ⟨hn, hgl, hgr⟩ := hg
        have hgl' := ihg hgl
        refine ⟨?_, hgl', goodW_frame T T' j _ hfr hgr⟩
        apply nodeOK_succ T' j i (goodW_wfEntry _ j i hgl') (goodW_nodeOK _ j i hgl')
        intro k' hk' hlev
        obtain ⟨k'', hk'', hlev''⟩ := hsmall k' hk' hlev
        exact cover_frame T T' j _ hfr (hchildren k'' hk'' hlev'' hn).2
      · intro hc
        rcases hc with hc | ⟨hcl, hcr⟩
        · by_cases hi : i = s0
          · subst hi
            have := hasLevel_unique _ _ _ hl hc; omega
          · left; rw [hf i hi (by omega)]; exact hc
        · exact Or.inr ⟨ihc hcl, cover_frame T T' j _ hfr hcr⟩
    · obtain ⟨ihg, ihc⟩ := ih (i + 2 ^ j) hdm (by omega) (by omega)
      have hfl : ∀ s, i ≤ s → s < i + 2 ^ j → getE T' s = getE T s :=
        fun s a b => hf s (by omega) (by omega)
      constructor
      · intro hg
        obtain ⟨hn, hgl, hgr⟩ := hg
        have hgl' := goodW_frame T T' j i hfl hgl
        refine ⟨?_, hgl', ihg hgr⟩
        apply nodeOK_succ T' j i (goodW_wfEntry _ j i hgl') (goodW_nodeOK _ j i hgl')
        intro k' hk' hlev
        obtain ⟨k'', hk'', hlev''⟩ := hsmall k' hk' hlev
        exact ihc (hchildren k'' hk'' hlev'' hn).2
      · intro hc
        rcases hc with hc | ⟨hcl, hcr⟩
        · left; rw [hf i (by omega) (by omega)]; exact hc
        · exact Or.inr ⟨cover_frame T T' j i hfl hcl, ihc hcr⟩

/-- Merging two buddies keeps the invariant of the table. -/
theorem good_merge (T T' : List Int) (s0 k : Nat) (hg : Good T) (hlen : T'.length = 512)
    (hs : s0 + 2 ^ k < 512) (hd : 2 ^ (k + 1) ∣ s0)
    (hl : HasLevel (getE T s0) k) (hl' : HasLevel (getE T' s0) (k + 1))
    (hz : getE T' (s0 + 2 ^ k) = 0)
    (hf : ∀ s, s ≠ s0 → s ≠ s0 + 2 ^ k → getE T' s = getE T s) : Good T' := by
  have hpk : 0 < 2 ^ k := by positivity
  have hsk := two_pow_succ k
  have h512 : s0 + 2 ^ (k + 1) ≤ 512 := by
    by_contra hc
    have hlt : s0 < 2 ^ 9 := by norm_num; omega
    by_cases hk9 : k + 1 ≤ 9
    · have := aligned_step (2 ^ (k + 1)) s0 (2 ^ 9) hd (two_pow_dvd _ _ hk9) hlt
      norm_num at this; omega
    · have : 2 ^ 9 ≤ 2 ^ k := Nat.pow_le_pow_right (by decide) (by omega)
      norm_num at this; omega
  have hk9 : k + 1 ≤ 9 := by
    by_contra hc
    have : 2 ^ 10 ≤ 2 ^ (k + 1) := Nat.pow_le_pow_right (by decide) (by omega)
    norm_num at this; omega
  obtain ⟨_, hgw, h0⟩ := hg
  have hd9 : k + 1 + (9 - (k + 1)) = 9 := by omega
  have key := goodW_merge T T' s0 k hk9 hd hl hl' hz hf (9 - (k + 1)) 0
    (by rw [hd9]; exact dvd_zero _) (Nat.zero_le _) (by rw [hd9]; norm_num; omega)
  rw [hd9] at key
  refine ⟨hlen, key.1 hgw, ?_⟩
  by_cases hs0 : s0 = 0
  · subst hs0; exact hasLevel_ne_zero _ _ hl'
  · rw [hf 0 (fun h => hs0 h.symm) (by omega)]; exact h0

/-! ## The table-level `_rfree` on a table with the invariant -/

theorem goodW_wfEntry_all (T : List Int) : ∀ (j i : Nat), GoodW T j i →
    ∀ s, i ≤ s → s < i + 2 ^ j → WFEntry T s := by
  intro j
  induction j with
  | zero =>
    intro i h s h1 h2
    have : s = i := by simp at h2; omega
    subst this; exact h.1
  | succ j ih =>
    intro i h s h1 h2
    have hs := two_pow_succ j
    by_cases hlt : s < i + 2 ^ j
    · exact ih i h.2.1 s h1 hlt
    · exact ih (i + 2 ^ j) h.2.2 s (by omega) (by omega)

theorem good_wfEntry (T : List Int) (s : Nat) (hg : Good T) (hs : s < 512) : WFEntry T s :=
  goodW_wfEntry_all T 9 0 hg.2.1 s (Nat.zero_le _) (by norm_num; exact hs)

/-- In a table with the invariant, a non-zero entry records a valid block size at an
aligned position. -/
theorem good_level (T : List Int) (s k : Nat) (hg : Good T) (hs : s < 512)
    (hl : HasLevel (getE T s) k) : k ≤ 9 ∧ 2 ^ k ∣ s := by
  rcases good_wfEntry T s hg hs with h | ⟨k', hk', hl', hd⟩
  · exact absurd h (hasLevel_ne_zero _ _ hl)
  · have := hasLevel_unique _ _ _ hl hl'
    subst this
    exact ⟨hk', hd⟩

theorem levelOf_of_hasLevel (e : Int) (k : Nat) (hk : k ≤ 9) (hl : HasLevel e k) :
    levelOf e = some k := by
  cases h : levelOf e with
  | none =>
    unfold levelOf at h
    rw [List.find?_eq_none] at h
    have := h k (List.mem_range.2 (by omega))
    simp only [decide_eq_true_eq] at this
    exact absurd hl this
  | some k' =>
    obtain ⟨_, hl'⟩ := levelOf_some e k' h
    rw [hasLevel_unique e k k' hl hl']

theorem index_even_iff (s k : Nat) (hd : 2 ^ k ∣ s) :
    s / 2 ^ k % 2 = 0 ↔ 2 ^ (k + 1) ∣ s := by
  have hp : 0 < 2 ^ k := by positivity
  obtain ⟨q, rfl⟩ := hd
  rw [Nat.mul_div_cancel_left q hp, two_pow_succ]
  constructor
  · intro h
    obtain ⟨q', rfl⟩ : 2 ∣ q := Nat.dvd_of_mod_eq_zero h
    exact ⟨q', by ring⟩
  · intro h
    have h2 : 2 ^ k * 2 ∣ 2 ^ k * q := by rw [Nat.mul_comm (2 ^ k) 2]; exact h
    have : 2 ∣ q := Nat.dvd_of_mul_dvd_mul_left hp h2
    omega

theorem hasLevel_double (k : Nat) : HasLevel (32 * 2 ^ k + 32 * 2 ^ k) (k + 1) := by
  left; rw [two_pow_succ_int]; ring

/-- Clearing the occupied bit of an entry keeps the invariant. -/
theorem good_clear (T : List Int) (s k : Nat) (hg : Good T) (hs : s < 512)
    (hl : HasLevel (getE T s) k) :
    Good (if getE T s % 2 = 0 then T else T.set s (32 * 2 ^ k))
      ∧ (if getE T s % 2 = 0 then T else T.set s (32 * 2 ^ k)).length = 512
      ∧ getE (if getE T s % 2 = 0 then T else T.set s (32 * 2 ^ k)) s = 32 * 2 ^ k
      ∧ ∀ u, u ≠ s →
          getE (if getE T s % 2 = 0 then T else T.set s (32 * 2 ^ k)) u = getE T u := by
  have hpI : (0 : Int) < 2 ^ k := two_pow_pos_int k
  obtain ⟨hlen, hgw, h0⟩ := hg
  by_cases hv : getE T s % 2 = 0
  · simp only [hv, if_true]
    refine ⟨⟨hlen, hgw, h0⟩, hlen, ?_, fun _ _ => trivial⟩
    rcases hl with h | h
    · exact h
    · rw [h] at hv; omega
  · simp only [hv, if_false]
    have hself : getE (T.set s (32 * 2 ^ k)) s = 32 * 2 ^ k := getE_set_self T s _ (by omega)
    have hother : ∀ u, u ≠ s → getE (T.set s (32 * 2 ^ k)) u = getE T u :=
      fun u hu => getE_set_ne T s u _ (fun h => hu h.symm)
    have hlev : ∀ u k', HasLevel (getE T u) k' → HasLevel (getE (T.set s (32 * 2 ^ k)) u) k' := by
      intro u k' h
      by_cases hu : u = s
      · subst hu
        have := hasLevel_unique _ _ _ hl h
        subst this
        rw [hself]; exact Or.inl rfl
      · rw [hother u hu]; exact h
    have hzero : ∀ u, getE T u = 0 → getE (T.set s (32 * 2 ^ k)) u = 0 := by
      intro u h
      by_cases hu : u = s
      · subst hu; exact absurd h (hasLevel_ne_zero _ _ hl)
      · rw [hother u hu]; exact h
    refine ⟨⟨by simp only [List.length_set]; exact hlen,
      goodW_congr T _ 9 0 (fun u _ _ => hlev u) (fun u _ _ => hzero u) hgw, ?_⟩,
      by simp only [List.length_set]; exact hlen, hself, hother⟩
    by_cases h : (0 : Nat) = s
    · subst h; rw [hself]; omega
    · rw [hother 0 h]; exact h0

theorem rfreeT_post : ∀ (fuel k s : Nat) (T : List Int), Good T → s < 512 →
    HasLevel (getE T s) k → 10 ≤ fuel + k →
    ∃ r T', rfreeT fuel s T = some (.ok (r, T')) ∧ FreePost T s k T' := by
  intro fuel
  induction fuel with
  | zero =>
    intro k s T hg hs hl hf
    have := (good_level T s k hg hs hl).1
    omega
  | succ fuel ih =>
    intro k s T hg hs hl hf
    obtain ⟨hk, hd⟩ := good_level T s k hg hs hl
    have hp : 0 < 2 ^ k := by positivity
    have hpI : (0 : Int) < 2 ^ k := two_pow_pos_int k
    have hsk := two_pow_succ k
    obtain ⟨hg1, hlen1, hself1, hother1⟩ := good_clear T s k hg hs hl
    rw [rfreeT]
    simp only [if_neg (by omega : ¬ 512 ≤ s), if_neg (hasLevel_ne_zero _ _ hl),
      levelOf_of_hasLevel _ k hk hl, Nat.mod_eq_zero_of_dvd hd, ne_eq, not_true_eq_false,
      if_false]
    generalize (if getE T s % 2 = 0 then T else T.set s (32 * 2 ^ k)) = T1
      at hg1 hlen1 hself1 hother1 ⊢
    have hl1 : HasLevel (getE T1 s) k := by rw [hself1]; exact Or.inl rfl
    by_cases hi : s / 2 ^ k % 2 = 0
    · simp only [hi, if_true]
      have hd1 : 2 ^ (k + 1) ∣ s := (index_even_iff s k hd).1 hi
      by_cases hb : getE T1 (s + 2 ^ k) = 32 * 2 ^ k
      · simp only [hb, if_true]
        have hb5 : s + 2 ^ k < 512 := by
          by_contra hc
          rw [getE_of_length_le T1 _ (by omega)] at hb
          omega
        have e1 : getE ((T1.set (s + 2 ^ k) 0).set s (32 * 2 ^ k + 32 * 2 ^ k)) s
            = 32 * 2 ^ k + 32 * 2 ^ k :=
          getE_set_self _ s _ (by simp only [List.length_set]; omega)
        have e2 : getE ((T1.set (s + 2 ^ k) 0).set s (32 * 2 ^ k + 32 * 2 ^ k)) (s + 2 ^ k)
            = 0 := by
          rw [getE_set_ne _ s _ _ (by omega), getE_set_self _ _ _ (by omega)]
        have e3 : ∀ u, u ≠ s → u ≠ s + 2 ^ k →
            getE ((T1.set (s + 2 ^ k) 0).set s (32 * 2 ^ k + 32 * 2 ^ k)) u = getE T1 u := by
          intro u h1 h2
          rw [getE_set_ne _ s _ _ (fun h => h1 h.symm),
            getE_set_ne _ _ _ _ (fun h => h2 h.symm)]
        have hg3 := good_merge T1 _ s k hg1
          (by simp only [List.length_set]; exact hlen1) hb5 hd1 hl1
          (by rw [e1]; exact hasLevel_double k) e2 e3
        generalize ((T1.set (s + 2 ^ k) 0).set s (32 * 2 ^ k + 32 * 2 ^ k)) = T3
          at e1 e2 e3 hg3 ⊢
        obtain ⟨r, T', hr, q1, q2, q3, q4⟩ :=
          ih (k + 1) s T3 hg3 hs (by rw [e1]; exact hasLevel_double k) (by omega)
        refine ⟨r, T', hr, q1, ?_, ?_, ?_⟩
        · intro u hu hodd
          have hub : u ≠ s + 2 ^ k := by
            intro h
            rw [h, ← hother1 _ (by omega), hb] at hodd
            omega
          rw [q2 u hu (by rw [e3 u hu hub, hother1 u hu]; exact hodd), e3 u hu hub,
            hother1 u hu]
        · intro u hu
          have h1 : u ≠ s := fun h => hu (h ▸ hd)
          have h2 : u ≠ s + 2 ^ k := fun h => hu (h ▸ Nat.dvd_add hd (dvd_refl _))
          have h3 : ¬ 2 ^ (k + 1) ∣ u := fun h => hu (dvd_left k u h)
          rw [q3 u h3, e3 u h1 h2, hother1 u h1]
        · rcases q4 with q4 | ⟨k', hk', q4⟩
          · exact Or.inl q4
          · exact Or.inr ⟨k', by omega, q4⟩
      · simp only [hb, if_false]
        exact ⟨s, T1, rfl, hg1, fun u hu _ => hother1 u hu,
          fun u hu => hother1 u (fun h => hu (h ▸ hd)), Or.inr ⟨k, le_refl _, hself1⟩⟩
    · simp only [hi, if_false]
      have hge := odd_index_ge s k hi
      have hnd1 : ¬ 2 ^ (k + 1) ∣ s := fun h => hi ((index_even_iff s k hd).2 h)
      have hdb : 2 ^ k ∣ s - 2 ^ k := Nat.dvd_sub' hd (dvd_refl _)
      have hdb1 : 2 ^ (k + 1) ∣ s - 2 ^ k := by
        rw [← index_even_iff _ k hdb]
        obtain ⟨q, hq⟩ := hd
        have hq1 : 1 ≤ q := by
          rcases Nat.eq_zero_or_pos q with h | h
          · subst h; omega
          · exact h
        have e : s - 2 ^ k = 2 ^ k * (q - 1) := by
          rw [Nat.mul_sub, ← hq]; simp
        have hqq : s / 2 ^ k = q := by rw [hq]; exact Nat.mul_div_cancel_left q hp
        rw [e, Nat.mul_div_cancel_left _ hp]
        rw [hqq] at hi
        omega
      by_cases hb : getE T1 (s - 2 ^ k) = 32 * 2 ^ k
      · simp only [hb, if_true]
        have hsb : s - 2 ^ k + 2 ^ k = s := by omega
        have e1 : getE ((T1.set s 0).set (s - 2 ^ k) (32 * 2 ^ k + 32 * 2 ^ k)) (s - 2 ^ k)
            = 32 * 2 ^ k + 32 * 2 ^ k :=
          getE_set_self _ _ _ (by simp only [List.length_set]; omega)
        have e2 : getE ((T1.set s 0).set (s - 2 ^ k) (32 * 2 ^ k + 32 * 2 ^ k))
            (s - 2 ^ k + 2 ^ k) = 0 := by
          rw [hsb, getE_set_ne _ _ _ _ (by omega), getE_set_self _ _ _ (by omega)]
        have e3 : ∀ u, u ≠ s - 2 ^ k → u ≠ s - 2 ^ k + 2 ^ k →
            getE ((T1.set s 0).set (s - 2 ^ k) (32 * 2 ^ k + 32 * 2 ^ k)) u = getE T1 u := by
          intro u h1 h2
          rw [hsb] at h2
          rw [getE_set_ne _ _ _ _ (fun h => h1 h.symm),
            getE_set_ne _ _ _ _ (fun h => h2 h.symm)]
        have hlb : HasLevel (getE T1 (s - 2 ^ k)) k := by rw [hb]; exact Or.inl rfl
        have hg3 := good_merge T1 _ (s - 2 ^ k) k hg1
          (by simp only [List.length_set]; exact hlen1) (by omega) hdb1 hlb
          (by rw [e1]; exact hasLevel_double k) e2 e3
        rw [hsb] at e2 e3
        generalize ((T1.set s 0).set (s - 2 ^ k) (32 * 2 ^ k + 32 * 2 ^ k)) = T3
          at e1 e2 e3 hg3 ⊢
        obtain ⟨r, T', hr, q1, q2, q3, q4⟩ :=
          ih (k + 1) (s - 2 ^ k) T3 hg3 (by omega) (by rw [e1]; exact hasLevel_double k)
            (by omega)
        refine ⟨r, T', hr, q1, ?_, ?_, ?_⟩
        · intro u hu hodd
          have hub : u ≠ s - 2 ^ k := by
            intro h
            rw [h, ← hother1 _ (by omega), hb] at hodd
            omega
          rw [q2 u hub (by rw [e3 u hub hu, hother1 u hu]; exact hodd), e3 u hub hu,
            hother1 u hu]
        · intro u hu
          have h1 : u ≠ s := fun h => hu (h ▸ hd)
          have h2 : u ≠ s - 2 ^ k := fun h => hu (h ▸ hdb)
          have h3 : ¬ 2 ^ (k + 1) ∣ u := fun h => hu (dvd_left k u h)
          rw [q3 u h3, e3 u h2 h1, hother1 u h1]
        · left
          rw [q3 s hnd1, e2]
      · simp only [hb, if_false]
        exact ⟨s, T1, rfl, hg1, fun u hu _ => hother1 u hu,
          fun u hu => hother1 u (fun h => hu (h ▸ hd)), Or.inr ⟨k, le_refl _, hself1⟩⟩

/-! ## The invariant holds in every reachable state -/

theorem goodW_zero (T : List Int) : ∀ (j i : Nat), (∀ s, i ≤ s → getE T s = 0) → GoodW T j i := by
  intro j
  induction j with
  | zero =>
    intro i h
    exact ⟨Or.inl (h i (le_refl _)), Or.inr (Or.inr (h i (le_refl _)))⟩
  | succ j ih =>
    intro i h
    have hp : 0 < 2 ^ j := by positivity
    exact ⟨Or.inr (Or.inr (h i (le_refl _))), ih i h, ih _ (fun s hs => h s (by omega))⟩

theorem hasLevel_init : HasLevel (getE initTab 0) 9 := by
  rw [getE_initTab_zero]; left; norm_num

theorem goodW_initTab : ∀ j, j ≤ 9 → GoodW initTab j 0 := by
  intro j
  induction j with
  | zero =>
    intro _
    exact ⟨Or.inr ⟨9, le_refl _, hasLevel_init, dvd_zero _⟩,
      Or.inr (Or.inl ⟨9, by decide, hasLevel_init⟩)⟩
  | succ j ih =>
    intro hj
    have hp : 0 < 2 ^ j := by positivity
    refine ⟨?_, ih (by omega), ?_⟩
    · by_cases h9 : j + 1 = 9
      · rw [h9]; exact Or.inl (Or.inl hasLevel_init)
      · exact Or.inr (Or.inl ⟨9, by omega, hasLevel_init⟩)
    · rw [Nat.zero_add]
      exact goodW_zero initTab j _ (fun s hs => getE_initTab_succ s (by omega))

theorem length_initTab : initTab.length = 512 := by
  unfold initTab
  rw [List.length_cons, List.length_replicate]

theorem good_initTab : Good initTab :=
  ⟨length_initTab, goodW_initTab 9 (le_refl _), by rw [getE_initTab_zero]; decide⟩

/-- The table-level `_kalloc` keeps the invariant, leaves occupied entries alone, and marks
the entry of the block it returns as occupied. -/
theorem kallocT_post (S : Int) (T : List Int) (hg : Good T) :
    Good (kallocT S T).2
      ∧ (∀ s, getE T s % 2 = 1 → getE (kallocT S T).2 s = getE T s)
      ∧ ((kallocT S T).1 ≠ 0 → ∃ t : Nat, t < 512 ∧ (kallocT S T).1 = heap_top + 32 * (t : Int)
          ∧ getE (kallocT S T).2 t % 2 = 1) := by
  unfold kallocT
  by_cases hr : S < 32 ∨ S > 16384
  · simp only [hr, if_true]
    exact ⟨hg, fun _ _ => trivial, fun h => absurd rfl h⟩
  · simp only [hr, if_false]
    obtain ⟨hlen, hgw, h0⟩ := hg
    obtain ⟨a1, a2, _, a4, a5, _, a7⟩ :=
      rallocT_post 9 S 0 T (le_refl _) (dvd_zero _) (by norm_num) hlen hgw
    refine ⟨⟨a1, a2, a4 0 h0⟩, a5, ?_⟩
    intro hne
    cases hx : (rallocT 9 S 0 T).1 with
    | none => rw [hx] at hne; exact absurd rfl hne
    | some t =>
      obtain ⟨_, b2, b3⟩ := a7 t hx
      exact ⟨t, by norm_num at b2; exact b2, rfl, b3⟩

/-- The table-level `_kfree` of a block whose entry is occupied succeeds, returns the
block's address and keeps the invariant. -/
theorem kfreeT_post (T : List Int) (t : Nat) (hg : Good T) (ht : t < 512)
    (hodd : getE T t % 2 = 1) :
    ∃ T' k, kfreeT (heap_top + 32 * (t : Int)) T = some (.ok (heap_top + 32 * (t : Int), T'))
      ∧ HasLevel (getE T t) k ∧ FreePost T t k T' := by
  have hnz : getE T t ≠ 0 := by intro h; rw [h] at hodd; omega
  rcases good_wfEntry T t hg ht with hw | ⟨k, hk, hl, _⟩
  · exact absurd hw hnz
  · obtain ⟨r, T', hr, hpost⟩ := rfreeT_post 16 k t T hg ht hl (by omega)
    refine ⟨T', k, ?_, hl, hpost⟩
    unfold kfreeT
    have h1 : ¬ (heap_top + 32 * (t : Int) < heap_top ∨ heap_top + 32 * (t : Int) > heap_bot) := by
      unfold heap_top heap_bot; omega
    have h2 : (heap_top + 32 * (t : Int) - heap_top) % 32 = 0 := by omega
    have h3 : ((heap_top + 32 * (t : Int) - heap_top) / 32).toNat = t := by omega
    simp only [h1, if_false, h2, ne_eq, not_true_eq_false, h3, hr]

theorem step_inv (st st' : State) (op : Op) (hinv : InvSt st) (h : step st op = some st') :
    InvSt st' := by
  obtain ⟨hg, h0, hlive⟩ := hinv
  cases op with
  | alloc size =>
    obtain ⟨m', hk, hT, hF, _⟩ := kalloc_refines size st.mem
    obtain ⟨p1, p2, p3⟩ := kallocT_post size (tabOf st.mem) hg
    have h0' : ent m' 512 = 0 := by rw [ent_end_of_frame _ _ hF]; exact h0
    have hold : LiveOK (tabOf m') st.live := by
      intro b hb
      obtain ⟨t, ht, hbt, hodd⟩ := hlive b hb
      exact ⟨t, ht, hbt, by rw [hT, p2 t hodd]; exact hodd⟩
    simp only [step, hk] at h
    by_cases hp : (kallocT size (tabOf st.mem)).1 = 0
    · simp only [hp, if_true, Option.some.injEq] at h
      subst h
      exact ⟨by rw [hT]; exact p1, h0', hold⟩
    · simp only [hp, if_false, Option.some.injEq] at h
      subst h
      refine ⟨by rw [hT]; exact p1, h0', ?_⟩
      intro b hb
      rcases List.mem_cons.1 hb with hb | hb
      · obtain ⟨t, ht, hpt, hodd⟩ := p3 hp
        subst hb
        exact ⟨t, ht, hpt, by rw [hT]; exact hodd⟩
      · exact hold b hb
  | free ptr =>
    simp only [step] at h
    by_cases hmem : ptr ∈ st.live.map Prod.fst
    · simp only [hmem, if_true] at h
      obtain ⟨b, hb, hbp⟩ := List.mem_map.1 hmem
      obtain ⟨t, ht, hbt, hodd⟩ := hlive b hb
      rw [hbp] at hbt
      obtain ⟨T', k, hfree, _, q1, q2, _, _⟩ := kfreeT_post (tabOf st.mem) t hg ht hodd
      rw [← hbt] at hfree
      obtain ⟨_, ho⟩ := kfree_refines ptr st.mem h0
      obtain ⟨m', hm', hT', hF'⟩ := ho ptr T' hfree
      rw [hm'] at h
      simp only [Option.some.injEq] at h
      subst h
      refine ⟨by rw [hT']; exact q1, by rw [ent_end_of_frame _ _ hF']; exact h0, ?_⟩
      intro b' hb'
      obtain ⟨hb'1, hb'2⟩ := List.mem_filter.1 hb'
      simp only [ne_eq, decide_not, Bool.not_eq_true', decide_eq_false_iff_not] at hb'2
      obtain ⟨t', ht', hbt', hodd'⟩ := hlive b' hb'1
      refine ⟨t', ht', hbt', ?_⟩
      have hne : t' ≠ t := by
        intro he
        apply hb'2
        rw [hbt', hbt, he]
      rw [hT', q2 t' hne hodd']
      exact hodd'
    · simp only [hmem, if_false] at h
      cases h

theorem run_inv : ∀ (ops : List Op) (st st' : State), InvSt st → run ops st = some st' →
    InvSt st' := by
  intro ops
  induction ops with
  | nil =>
    intro st st' hinv h
    simp only [run, Option.some.injEq] at h
    subst h; exact hinv
  | cons op ops ih =>
    intro st st' hinv h
    simp only [run] at h
    cases hs : step st op with
    | none => rw [hs] at h; cases h
    | some st1 =>
      rw [hs] at h
      exact ih st1 st' (step_inv st st1 op hinv hs) h

theorem inv_initState : InvSt initState := by
  refine ⟨?_, ?_, ?_⟩
  · rw [initState_mem, tabOf_kinit_zero]; exact good_initTab
  · rw [initState_mem]; exact ent_end_kinit_zero
  · intro b hb
    rw [initState_live] at hb
    cases hb

/-- Every reachable state has the invariant. -/
theorem reachable_inv (st : State) (h : Reachable st) : InvSt st := by
  obtain ⟨ops, hops⟩ := h
  exact run_inv ops initState st inv_initState hops

/-! ## Conservation -/

theorem sizeOf_of_level (e : Int) (k : Nat) (h : HasLevel e k) : sizeOf e = 32 * 2 ^ k := by
  have hp : (0 : Int) < 2 ^ k := two_pow_pos_int k
  unfold sizeOf
  rcases h with h | h <;> omega

/-- One step of the walk over a block entry. -/
theorem walkFrom_block (m : Mem) (n i k : Nat) (acc : Int) (hi : i < 512)
    (hl : HasLevel (ent m i) k) :
    walkFrom m (n + 1) i acc = walkFrom m n (i + 2 ^ k) (acc + 32 * 2 ^ k) := by
  have hp : (0 : Int) < 2 ^ k := two_pow_pos_int k
  have hs := sizeOf_of_level _ _ hl
  have hdiv : sizeOf (ent m i) / 32 = ((2 ^ k : Nat) : Int) := by
    rw [hs]; push_cast; omega
  rw [walkFrom, if_neg (by omega), if_neg (by omega), hdiv, if_neg (by push_cast; omega),
    Int.toNat_ofNat, hs]

/-- The walk crosses a tiled window in at most as many steps as the window has entries,
adding up exactly the window's size. -/
theorem walkFrom_cover (m : Mem) : ∀ (j i : Nat), Cover (tabOf m) j i → i + 2 ^ j ≤ 512 →
    ∃ c, 1 ≤ c ∧ c ≤ 2 ^ j ∧ ∀ n acc,
      walkFrom m (n + c) i acc = walkFrom m n (i + 2 ^ j) (acc + 32 * 2 ^ j) := by
  intro j
  induction j with
  | zero =>
    intro i hc hi
    have hl : HasLevel (ent m i) 0 := by
      rw [← getE_tabOf m i (by simp at hi; omega)]; exact hc
    exact ⟨1, le_refl _, by simp, fun n acc => walkFrom_block m n i 0 acc (by simp at hi; omega) hl⟩
  | succ j ih =>
    intro i hc hi
    have hp : 0 < 2 ^ j := by positivity
    have hs := two_pow_succ j
    have hsI := two_pow_succ_int j
    rcases hc with hc | ⟨hcl, hcr⟩
    · have hl : HasLevel (ent m i) (j + 1) := by
        rw [← getE_tabOf m i (by omega)]; exact hc
      exact ⟨1, le_refl _, by omega, fun n acc => walkFrom_block m n i (j + 1) acc (by omega) hl⟩
    · obtain ⟨c1, a1, a2, a3⟩ := ih i hcl (by omega)
      obtain ⟨c2, b1, b2, b3⟩ := ih (i + 2 ^ j) hcr (by omega)
      refine ⟨c2 + c1, by omega, by omega, ?_⟩
      intro n acc
      have e1 : n + (c2 + c1) = (n + c2) + c1 := by omega
      have e2 : i + 2 ^ (j + 1) = i + 2 ^ j + 2 ^ j := by omega
      have e3 : acc + 32 * 2 ^ (j + 1) = acc + 32 * 2 ^ j + 32 * 2 ^ j := by rw [hsI]; ring
      rw [e1, a3, b3, e2, e3]

/-- In a table with the invariant the whole table is tiled. -/
theorem good_cover (T : List Int) (hg : Good T) : Cover T 9 0 := by
  obtain ⟨_, hgw, h0⟩ := hg
  rcases goodW_wfEntry T 9 0 hgw with hw | ⟨k, hk, hl, _⟩
  · exact absurd hw h0
  · exact cover_of_small T 9 0 k (goodW_nodeOK T 9 0 hgw) hl hk

theorem walk_of_good (m : Mem) (hg : Good (tabOf m)) : walk m = some 16384 := by
  obtain ⟨c, h1, h2, h3⟩ := walkFrom_cover m 9 0 (good_cover _ hg) (by norm_num)
  have hc : c ≤ 512 := by norm_num at h2; exact h2
  unfold walk
  have e : 513 = (513 - c) + c := by omega
  rw [e, h3]
  obtain ⟨n, hn⟩ : ∃ n, 513 - c = n + 1 := ⟨513 - c - 1, by omega⟩
  rw [hn, walkFrom]
  norm_num

/-- C4 (conservation): in every state reachable from the state after `_kinit` by calls of
`_kalloc` and calls of `_kfree` on currently allocated addresses, the walk over the control
table from its first entry, advancing from each block-start entry by the `size / 32`
entries it records, ends exactly at the end of the 512-entry table, and the sizes met sum
to exactly 16384. -/
theorem conservation (st : State) (h : Reachable st) : walk st.mem = some 16384 :=
  walk_of_good st.mem (reachable_inv st h).1

theorem conservation_witness :
    ∃ st, run [.alloc 8192, .alloc 4096, .alloc 4096, .free (heap_top + 8192), .free heap_top,
        .alloc 32, .alloc 8192] initState = some st ∧ walk st.mem = some 16384 := by
  obtain ⟨m', h, _⟩ := run_init_live _ _ overlap_run
  exact ⟨_, h, conservation _ ⟨_, h⟩⟩

/-! ## Freeing two buddies in either order -/

theorem list_eq_of_getE (T T' : List Int) (hlen : T.length = T'.length)
    (h : ∀ s, getE T s = getE T' s) : T = T' := by
  apply List.ext_getElem hlen
  intro n h1 h2
  have := h n
  unfold getE at this
  rw [List.getD_eq_getElem?_getD, List.getD_eq_getElem?_getD, List.getElem?_eq_getElem h1,
    List.getElem?_eq_getElem h2] at this
  exact this

/-- One call of the table-level `_rfree` on a block entry at an aligned position. -/
theorem rfreeT_step (fuel s k : Nat) (T : List Int) (hk : k ≤ 9) (hs : s < 512)
    (hl : HasLevel (getE T s) k) (hd : 2 ^ k ∣ s) :
    rfreeT (fuel + 1) s T
      = if s / 2 ^ k % 2 = 0 then
          if getE (if getE T s % 2 = 0 then T else T.set s (32 * 2 ^ k)) (s + 2 ^ k)
              = 32 * 2 ^ k then
            rfreeT fuel s
              (((if getE T s % 2 = 0 then T else T.set s (32 * 2 ^ k)).set (s + 2 ^ k) 0).set s
                (32 * 2 ^ k + 32 * 2 ^ k))
          else some (.ok (s, if getE T s % 2 = 0 then T else T.set s (32 * 2 ^ k)))
        else
          if getE (if getE T s % 2 = 0 then T else T.set s (32 * 2 ^ k)) (s - 2 ^ k)
              = 32 * 2 ^ k then
            rfreeT fuel (s - 2 ^ k)
              (((if getE T s % 2 = 0 then T else T.set s (32 * 2 ^ k)).set s 0).set (s - 2 ^ k)
                (32 * 2 ^ k + 32 * 2 ^ k))
          else some (.ok (s, if getE T s % 2 = 0 then T else T.set s (32 * 2 ^ k))) := by
  rw [rfreeT]
  simp only [if_neg (by omega : ¬ 512 ≤ s), if_neg (hasLevel_ne_zero _ _ hl),
    levelOf_of_hasLevel _ k hk hl, Nat.mod_eq_zero_of_dvd hd, ne_eq, not_true_eq_false,
    if_false]

theorem kfreeT_of_rfreeT (T T' : List Int) (t r : Nat) (ht : t < 512)
    (h : rfreeT 16 t T = some (.ok (r, T'))) :
    kfreeT (heap_top + 32 * (t : Int)) T = some (.ok (heap_top + 32 * (t : Int), T')) := by
  unfold kfreeT
  have h1 : ¬ (heap_top + 32 * (t : Int) < heap_top ∨ heap_top + 32 * (t : Int) > heap_bot) := by
    unfold heap_top heap_bot; omega
  have h2 : (heap_top + 32 * (t : Int) - heap_top) % 32 = 0 := by omega
  have h3 : ((heap_top + 32 * (t : Int) - heap_top) / 32).toNat = t := by omega
  simp only [h1, if_false, h2, ne_eq, not_true_eq_false, h3, h]

/-- Where the table-level `_rfree` ends: the entry `r` it returns is at or below the entry
`s` it was called on and records a free block that contains the block of `s`; the entry `s`
is that entry or has been zeroed; entries whose number is not a multiple of the block's
`2 ^ k` are untouched. -/
theorem rfreeT_cover : ∀ (fuel k s : Nat) (T : List Int), Good T → s < 512 →
    HasLevel (getE T s) k → ∀ r T', rfreeT fuel s T = some (.ok (r, T')) →
    (∃ k', k ≤ k' ∧ 2 ^ k' ∣ r ∧ r ≤ s ∧ s + 2 ^ k ≤ r + 2 ^ k' ∧ getE T' r = 32 * 2 ^ k')
      ∧ (r = s ∨ (r < s ∧ getE T' s = 0))
      ∧ (∀ u, ¬ 2 ^ k ∣ u → getE T' u = getE T u) := by
  intro fuel
  induction fuel with
  | zero =>
    intro k s T _ _ _ r T' hr
    simp only [rfreeT, Option.some.injEq] at hr
    cases hr
  | succ fuel ih =>
    intro k s T hg hs hl r T' hr
    obtain ⟨hk, hd⟩ := good_level T s k hg hs hl
    have hp : 0 < 2 ^ k := by positivity
    have hpI : (0 : Int) < 2 ^ k := two_pow_pos_int k
    have hsk := two_pow_succ k
    obtain ⟨hg1, hlen1, hself1, hother1⟩ := good_clear T s k hg hs hl
    rw [rfreeT] at hr
    simp only [if_neg (by omega : ¬ 512 ≤ s), if_neg (hasLevel_ne_zero _ _ hl),
      levelOf_of_hasLevel _ k hk hl, Nat.mod_eq_zero_of_dvd hd, ne_eq, not_true_eq_false,
      if_false] at hr
    generalize (if getE T s % 2 = 0 then T else T.set s (32 * 2 ^ k)) = T1
      at hg1 hlen1 hself1 hother1 hr
    have hl1 : HasLevel (getE T1 s) k := by rw [hself1]; exact Or.inl rfl
    have hstop : (some (Except.ok (s, T1)) : Option (Except Err (Nat × List Int)))
        = some (Except.ok (r, T')) →
        (∃ k', k ≤ k' ∧ 2 ^ k' ∣ r ∧ r ≤ s ∧ s + 2 ^ k ≤ r + 2 ^ k' ∧ getE T' r = 32 * 2 ^ k')
          ∧ (r = s ∨ (r < s ∧ getE T' s = 0))
          ∧ (∀ u, ¬ 2 ^ k ∣ u → getE T' u = getE T u) := by
      intro h
      simp only [Option.some.injEq, Except.ok.injEq, Prod.mk.injEq] at h
      obtain ⟨h1, h2⟩ := h
      subst h1 h2
      exact ⟨⟨k, le_refl _, hd, le_refl _, le_refl _, hself1⟩, Or.inl rfl,
        fun u hu => hother1 u (fun h => hu (h ▸ hd))⟩
    by_cases hi : s / 2 ^ k % 2 = 0
    · simp only [hi, if_true] at hr
      have hd1 : 2 ^ (k + 1) ∣ s := (index_even_iff s k hd).1 hi
      by_cases hb : getE T1 (s + 2 ^ k) = 32 * 2 ^ k
      · simp only [hb, if_true] at hr
        have hb5 : s + 2 ^ k < 512 := by
          by_contra hc
          rw [getE_of_length_le T1 _ (by omega)] at hb
          omega
        have e1 : getE ((T1.set (s + 2 ^ k) 0).set s (32 * 2 ^ k + 32 * 2 ^ k)) s
            = 32 * 2 ^ k + 32 * 2 ^ k :=
          getE_set_self _ s _ (by simp only [List.length_set]; omega)
        have e2 : getE ((T1.set (s + 2 ^ k) 0).set s (32 * 2 ^ k + 32 * 2 ^ k)) (s + 2 ^ k)
            = 0 := by
          rw [getE_set_ne _ s _ _ (by omega), getE_set_self _ _ _ (by omega)]
        have e3 : ∀ u, u ≠ s → u ≠ s + 2 ^ k →
            getE ((T1.set (s + 2 ^ k) 0).set s (32 * 2 ^ k + 32 * 2 ^ k)) u = getE T1 u := by
          intro u h1 h2
          rw [getE_set_ne _ s _ _ (fun h => h1 h.symm),
            getE_set_ne _ _ _ _ (fun h => h2 h.symm)]
        have hg3 := good_merge T1 _ s k hg1
          (by simp only [List.length_set]; exact hlen1) hb5 hd1 hl1
          (by rw [e1]; exact hasLevel_double k) e2 e3
        generalize ((T1.set (s + 2 ^ k) 0).set s (32 * 2 ^ k + 32 * 2 ^ k)) = T3
          at e1 e2 e3 hg3 hr
        obtain ⟨⟨k', c1, c2, c3, c4, c5⟩, c6, c7⟩ :=
          ih (k + 1) s T3 hg3 hs (by rw [e1]; exact hasLevel_double k) r T' hr
        refine ⟨⟨k', by omega, c2, c3, by omega, c5⟩, c6, fun u hu => ?_⟩
        have h1 : u ≠ s := fun h => hu (h ▸ hd)
        have h2 : u ≠ s + 2 ^ k := fun h => hu (h ▸ Nat.dvd_add hd (dvd_refl _))
        have h3 : ¬ 2 ^ (k + 1) ∣ u := fun h => hu (dvd_left k u h)
        rw [c7 u h3, e3 u h1 h2, hother1 u h1]
      · simp only [hb, if_false] at hr
        exact hstop hr
    · simp only [hi, if_false] at hr
      have hge := odd_index_ge s k hi
      have hnd1 : ¬ 2 ^ (k + 1) ∣ s := fun h => hi ((index_even_iff s k hd).2 h)
      have hdb : 2 ^ k ∣ s - 2 ^ k := Nat.dvd_sub' hd (dvd_refl _)
      have hdb1 : 2 ^ (k + 1) ∣ s - 2 ^ k := by
        rw [← index_even_iff _ k hdb]
        obtain ⟨q, hq⟩ := hd
        have hq1 : 1 ≤ q := by
          rcases Nat.eq_zero_or_pos q with h | h
          · subst h; omega
          · exact h
        have e : s - 2 ^ k = 2 ^ k * (q - 1) := by
          rw [Nat.mul_sub, ← hq]; simp
        have hqq : s / 2 ^ k = q := by rw [hq]; exact Nat.mul_div_cancel_left q hp
        rw [e, Nat.mul_div_cancel_left _ hp]
        rw [hqq] at hi
        omega
      by_cases hb : getE T1 (s - 2 ^ k) = 32 * 2 ^ k
      · simp only [hb, if_true] at hr
        have hsb : s - 2 ^ k + 2 ^ k = s := by omega
        have e1 : getE ((T1.set s 0).set (s - 2 ^ k) (32 * 2 ^ k + 32 * 2 ^ k)) (s - 2 ^ k)
            = 32 * 2 ^ k + 32 * 2 ^ k :=
          getE_set_self _ _ _ (by simp only [List.length_set]; omega)
        have e2 : getE ((T1.set s 0).set (s - 2 ^ k) (32 * 2 ^ k + 32 * 2 ^ k))
            (s - 2 ^ k + 2 ^ k) = 0 := by
          rw [hsb, getE_set_ne _ _ _ _ (by omega), getE_set_self _ _ _ (by omega)]
        have e3 : ∀ u, u ≠ s - 2 ^ k → u ≠ s - 2 ^ k + 2 ^ k →
            getE ((T1.set s 0).set (s - 2 ^ k) (32 * 2 ^ k + 32 * 2 ^ k)) u = getE T1 u := by
          intro u h1 h2
          rw [hsb] at h2
          rw [getE_set_ne _ _ _ _ (fun h => h1 h.symm),
            getE_set_ne _ _ _ _ (fun h => h2 h.symm)]
        have hlb : HasLevel (getE T1 (s - 2 ^ k)) k := by rw [hb]; exact Or.inl rfl
        have hg3 := good_merge T1 _ (s - 2 ^ k) k hg1
          (by simp only [List.length_set]; exact hlen1) (by omega) hdb1 hlb
          (by rw [e1]; exact hasLevel_double k) e2 e3
        rw [hsb] at e2 e3
        generalize ((T1.set s 0).set (s - 2 ^ k) (32 * 2 ^ k + 32 * 2 ^ k)) = T3
          at e1 e2 e3 hg3 hr
        obtain ⟨⟨k', c1, c2, c3, c4, c5⟩, _, c7⟩ :=
          ih (k + 1) (s - 2 ^ k) T3 hg3 (by omega) (by rw [e1]; exact hasLevel_double k)
            r T' hr
        refine ⟨⟨k', by omega, c2, by omega, by omega, c5⟩,
          Or.inr ⟨by omega, by rw [c7 s hnd1, e2]⟩, fun u hu => ?_⟩
        have h1 : u ≠ s := fun h => hu (h ▸ hd)
        have h2 : u ≠ s - 2 ^ k := fun h => hu (h ▸ hdb)
        have h3 : ¬ 2 ^ (k + 1) ∣ u := fun h => hu (dvd_left k u h)
        rw [c7 u h3, e3 u h2 h1, hother1 u h1]
      · simp only [hb, if_false] at hr
        exact hstop hr

/-- Freeing two allocated buddies on the table, lower one first or upper one first: both
orders succeed and end in the same table, in which the upper entry is zero and the lower
entry is zero or records a free block of at least twice the size; an entry at or below the
lower one records a free block that contains both blocks, and the lower entry is that entry
or is zero. -/
theorem buddiesT (T : List Int) (k l : Nat) (hg : Good T) (hk : k ≤ 8)
    (hd : 2 ^ (k + 1) ∣ l) (hr : l + 2 ^ k < 512)
    (el : getE T l = 32 * 2 ^ k + 1) (er : getE T (l + 2 ^ k) = 32 * 2 ^ k + 1) :
    ∃ T1 T1' T' r2 r3, rfreeT 16 l T = some (.ok (l, T1))
      ∧ rfreeT 16 (l + 2 ^ k) T1 = some (.ok (r2, T'))
      ∧ rfreeT 16 (l + 2 ^ k) T = some (.ok (l + 2 ^ k, T1'))
      ∧ rfreeT 16 l T1' = some (.ok (r3, T'))
      ∧ Good T1 ∧ Good T1' ∧ Good T'
      ∧ getE T' (l + 2 ^ k) = 0
      ∧ (getE T' l = 0 ∨ ∃ k', k + 1 ≤ k' ∧ getE T' l = 32 * 2 ^ k')
      ∧ ∃ a k', k + 1 ≤ k' ∧ k' ≤ 9 ∧ 2 ^ k' ∣ a ∧ a ≤ l ∧ l + 2 ^ (k + 1) ≤ a + 2 ^ k'
          ∧ getE T' a = 32 * 2 ^ k' ∧ (a = l ∨ (a < l ∧ getE T' l = 0)) := by
  have hp : 0 < 2 ^ k := by positivity
  have hpI : (0 : Int) < 2 ^ k := two_pow_pos_int k
  have hlen := hg.1
  have hdl : 2 ^ k ∣ l := dvd_left k l hd
  have hdr : 2 ^ k ∣ l + 2 ^ k := dvd_mid k l hd
  have hndr : ¬ 2 ^ (k + 1) ∣ l + 2 ^ k := not_dvd_mid k l (k + 1) hd (by omega)
  have hil : l / 2 ^ k % 2 = 0 := (index_even_iff l k hdl).2 hd
  have hir : ¬ (l + 2 ^ k) / 2 ^ k % 2 = 0 := fun h => hndr ((index_even_iff _ k hdr).1 h)
  have hll : HasLevel (getE T l) k := Or.inr el
  have hlr : HasLevel (getE T (l + 2 ^ k)) k := Or.inr er
  have hoddl : ¬ getE T l % 2 = 0 := by rw [el]; omega
  have hoddr : ¬ getE T (l + 2 ^ k) % 2 = 0 := by rw [er]; omega
  have hsub : l + 2 ^ k - 2 ^ k = l := by omega
  -- lower block first
  obtain ⟨g1, len1, s1, o1⟩ := good_clear T l k hg (by omega) hll
  simp only [if_neg hoddl] at g1 len1 s1 o1
  have hA : rfreeT 16 l T = some (.ok (l, T.set l (32 * 2 ^ k))) := by
    rw [rfreeT_step 15 l k T (by omega) (by omega) hll hdl]
    simp only [hil, if_true, if_neg hoddl]
    rw [o1 _ (by omega), er, if_neg (by omega)]
  have er1 : getE (T.set l (32 * 2 ^ k)) (l + 2 ^ k) = 32 * 2 ^ k + 1 := by
    rw [o1 _ (by omega), er]
  have hoddr1 : ¬ getE (T.set l (32 * 2 ^ k)) (l + 2 ^ k) % 2 = 0 := by rw [er1]; omega
  obtain ⟨g2, len2, s2, o2⟩ := good_clear _ (l + 2 ^ k) k g1 hr (Or.inr er1)
  simp only [if_neg hoddr1] at g2 len2 s2 o2
  have hB : rfreeT 16 (l + 2 ^ k) (T.set l (32 * 2 ^ k))
      = rfreeT 15 l ((((T.set l (32 * 2 ^ k)).set (l + 2 ^ k) (32 * 2 ^ k)).set (l + 2 ^ k) 0).set
          l (32 * 2 ^ k + 32 * 2 ^ k)) := by
    rw [rfreeT_step 15 (l + 2 ^ k) k _ (by omega) hr (Or.inr er1) hdr]
    simp only [hir, if_false, if_neg hoddr1, hsub]
    rw [o2 l (by omega), s1, if_pos rfl]
  -- upper block first
  obtain ⟨g1', len1', s1', o1'⟩ := good_clear T (l + 2 ^ k) k hg hr hlr
  simp only [if_neg hoddr] at g1' len1' s1' o1'
  have hA' : rfreeT 16 (l + 2 ^ k) T = some (.ok (l + 2 ^ k, T.set (l + 2 ^ k) (32 * 2 ^ k))) := by
    rw [rfreeT_step 15 (l + 2 ^ k) k T (by omega) hr hlr hdr]
    simp only [hir, if_false, if_neg hoddr, hsub]
    rw [o1' l (by omega), el, if_neg (by omega)]
  have el1 : getE (T.set (l + 2 ^ k) (32 * 2 ^ k)) l = 32 * 2 ^ k + 1 := by
    rw [o1' l (by omega), el]
  have hoddl1 : ¬ getE (T.set (l + 2 ^ k) (32 * 2 ^ k)) l % 2 = 0 := by rw [el1]; omega
  obtain ⟨g2', len2', s2', o2'⟩ := good_clear _ l k g1' (by omega) (Or.inr el1)
  simp only [if_neg hoddl1] at g2' len2' s2' o2'
  have hB' : rfreeT 16 l (T.set (l + 2 ^ k) (32 * 2 ^ k))
      = rfreeT 15 l ((((T.set (l + 2 ^ k) (32 * 2 ^ k)).set l (32 * 2 ^ k)).set (l + 2 ^ k) 0).set
          l (32 * 2 ^ k + 32 * 2 ^ k)) := by
    rw [rfreeT_step 15 l k _ (by omega) (by omega) (Or.inr el1) hdl]
    simp only [hil, if_true, if_neg hoddl1]
    rw [o2' _ (by omega), s1', if_pos rfl]
  -- the two merged tables are the same table
  have e1 : ∀ (X : List Int), X.length = 512 →
      getE ((X.set (l + 2 ^ k) 0).set l (32 * 2 ^ k + 32 * 2 ^ k)) l = 32 * 2 ^ k + 32 * 2 ^ k :=
    fun X hX => getE_set_self _ _ _ (by simp only [List.length_set]; omega)
  have e2 : ∀ (X : List Int), X.length = 512 →
      getE ((X.set (l + 2 ^ k) 0).set l (32 * 2 ^ k + 32 * 2 ^ k)) (l + 2 ^ k) = 0 :=
    fun X hX => by rw [getE_set_ne _ _ _ _ (by omega), getE_set_self _ _ _ (by omega)]
  have e3 : ∀ (X : List Int) u, u ≠ l → u ≠ l + 2 ^ k →
      getE ((X.set (l + 2 ^ k) 0).set l (32 * 2 ^ k + 32 * 2 ^ k)) u = getE X u :=
    fun X u h1 h2 => by
      rw [getE_set_ne _ _ _ _ (fun h => h1 h.symm), getE_set_ne _ _ _ _ (fun h => h2 h.symm)]
  have hsame : (((T.set l (32 * 2 ^ k)).set (l + 2 ^ k) (32 * 2 ^ k)).set (l + 2 ^ k) 0).set
        l (32 * 2 ^ k + 32 * 2 ^ k)
      = (((T.set (l + 2 ^ k) (32 * 2 ^ k)).set l (32 * 2 ^ k)).set (l + 2 ^ k) 0).set
        l (32 * 2 ^ k + 32 * 2 ^ k) := by
    apply list_eq_of_getE
    · simp only [List.length_set]
    · intro u
      by_cases h1 : u = l
      · subst h1; rw [e1 _ len2, e1 _ len2']
      · by_cases h2 : u = l + 2 ^ k
        · subst h2; rw [e2 _ len2, e2 _ len2']
        · rw [e3 _ u h1 h2, e3 _ u h1 h2, o2 u h2, o1 u h1, o2' u h1, o1' u h2]
  -- the merged table has the invariant, and the rest of the merge runs on it
  have hl2 : HasLevel (getE ((T.set l (32 * 2 ^ k)).set (l + 2 ^ k) (32 * 2 ^ k)) l) k := by
    rw [o2 l (by omega), s1]; exact Or.inl rfl
  have g3 := good_merge _ ((((T.set l (32 * 2 ^ k)).set (l + 2 ^ k) (32 * 2 ^ k)).set
      (l + 2 ^ k) 0).set l (32 * 2 ^ k + 32 * 2 ^ k)) l k g2
    (by simp only [List.length_set]; exact hlen) hr hd hl2
    (by rw [e1 _ len2]; exact hasLevel_double k) (e2 _ len2) (fun u h1 h2 => e3 _ u h1 h2)
  have hl3 : HasLevel (getE ((((T.set l (32 * 2 ^ k)).set (l + 2 ^ k) (32 * 2 ^ k)).set
      (l + 2 ^ k) 0).set l (32 * 2 ^ k + 32 * 2 ^ k)) l) (k + 1) := by
    rw [e1 _ len2]; exact hasLevel_double k
  obtain ⟨r', T', hr', q1, _, q3, q4⟩ := rfreeT_post 15 (k + 1) l _ g3 (by omega) hl3 (by omega)
  obtain ⟨⟨k', c1, c2, c3, c4, c5⟩, c6, _⟩ :=
    rfreeT_cover 15 (k + 1) l _ g3 (by omega) hl3 r' T' hr'
  have hk9 := (good_level T' r' k' q1 (by omega) (Or.inl c5)).1
  refine ⟨_, _, T', r', r', hA, by rw [hB]; exact hr', hA', by rw [hB', ← hsame]; exact hr',
    g1, g1', q1, ?_, q4, r', k', c1, hk9, c2, c3, c4, c5, c6⟩
  rw [q3 _ hndr, e2 _ len2]

theorem run_init_table (ops : List Op) (T' : List Int)
    (h : (runT ops (initTab, [])).map Prod.fst = some T') :
    ∃ st, run ops initState = some st ∧ tabOf st.mem = T' := by
  cases hx : runT ops (initTab, []) with
  | none => rw [hx] at h; cases h
  | some r =>
    obtain ⟨T1, L1⟩ := r
    rw [hx] at h
    simp only [Option.map_some', Option.some.injEq] at h
    subst h
    obtain ⟨m', h1, h2, _⟩ := run_init ops T1 L1 hx
    exact ⟨⟨m', L1⟩, h1, h2⟩

/-- C9 as amended (buddy symmetry): in every reachable state in which the two halves of a
`2B`-aligned block, `B = 32 * 2 ^ k` with `B` from 32 to 8192, are both allocated (both
entries are `B | 1`), `_kfree` of the lower then of the upper block, and `_kfree` of the
upper then of the lower block, all succeed and end in the same control table; in it the
two blocks are coalesced: the upper block's entry is 0, and an entry `a` at or below the
lower block's entry `l` records a free block of a power of two of at least `2B` bytes whose
range contains both blocks.  The lower block's entry is that entry (`a = l`), or it is 0 and
the entry lies below it (the merged block was merged again into its own lower buddy). -/
theorem buddy_symmetry (st : State) (h : Reachable st) (k l : Nat) (hk : k ≤ 8)
    (hd : 2 ^ (k + 1) ∣ l) (hr : l + 2 ^ (k + 1) ≤ 512)
    (el : ent st.mem l = 32 * 2 ^ k + 1) (er : ent st.mem (l + 2 ^ k) = 32 * 2 ^ k + 1) :
    ∃ m1 m2 m1' m2',
      _kfree (heap_top + 32 * (l : Int)) st.mem = .ok (heap_top + 32 * (l : Int), m1)
      ∧ _kfree (heap_top + 32 * (l : Int) + 32 * 2 ^ k) m1
          = .ok (heap_top + 32 * (l : Int) + 32 * 2 ^ k, m2)
      ∧ _kfree (heap_top + 32 * (l : Int) + 32 * 2 ^ k) st.mem
          = .ok (heap_top + 32 * (l : Int) + 32 * 2 ^ k, m1')
      ∧ _kfree (heap_top + 32 * (l : Int)) m1' = .ok (heap_top + 32 * (l : Int), m2')
      ∧ tabOf m2 = tabOf m2'
      ∧ ent m2 (l + 2 ^ k) = 0
      ∧ (ent m2 l = 0 ∨ ∃ k', k + 1 ≤ k' ∧ ent m2 l = 32 * 2 ^ k')
      ∧ ∃ a k', k + 1 ≤ k' ∧ k' ≤ 9 ∧ 2 ^ k' ∣ a ∧ a ≤ l ∧ l + 2 ^ (k + 1) ≤ a + 2 ^ k'
          ∧ ent m2 a = 32 * 2 ^ k' ∧ (a = l ∨ (a < l ∧ ent m2 l = 0)) := by
  have hp : 0 < 2 ^ k := by positivity
  have hs := two_pow_succ k
  obtain ⟨hg, h0, _⟩ := reachable_inv st h
  have hr5 : l + 2 ^ k < 512 := by omega
  have eaddr : heap_top + 32 * (l : Int) + 32 * 2 ^ k
      = heap_top + 32 * ((l + 2 ^ k : Nat) : Int) := by push_cast; ring
  rw [eaddr]
  rw [← getE_tabOf st.mem l (by omega)] at el
  rw [← getE_tabOf st.mem _ hr5] at er
  obtain ⟨T1, T1', T', r2, r3, a1, a2, a3, a4, _, _, _, z1, z2, a, k', y1, y2, y3, y4, y5, y6,
      y7⟩ :=
    buddiesT (tabOf st.mem) k l hg hk hd hr5 el er
  have b1 := kfreeT_of_rfreeT _ _ l l (by omega) a1
  have b3 := kfreeT_of_rfreeT _ _ (l + 2 ^ k) (l + 2 ^ k) hr5 a3
  obtain ⟨m1, c1, d1, f1⟩ := (kfree_refines _ st.mem h0).2 _ _ b1
  have h01 : ent m1 512 = 0 := by rw [ent_end_of_frame _ _ f1]; exact h0
  obtain ⟨m1', c3, d3, f3⟩ := (kfree_refines _ st.mem h0).2 _ _ b3
  have h03 : ent m1' 512 = 0 := by rw [ent_end_of_frame _ _ f3]; exact h0
  rw [← d1] at a2
  rw [← d3] at a4
  have b2 := kfreeT_of_rfreeT _ _ (l + 2 ^ k) r2 hr5 a2
  have b4 := kfreeT_of_rfreeT _ _ l r3 (by omega) a4
  obtain ⟨m2, c2, d2, _⟩ := (kfree_refines _ m1 h01).2 _ _ b2
  obtain ⟨m2', c4, d4, _⟩ := (kfree_refines _ m1' h03).2 _ _ b4
  refine ⟨m1, m2, m1', m2', c1, c2, c3, c4, by rw [d2, d4], ?_, ?_, a, k', y1, y2, y3, y4, y5,
    ?_, ?_⟩
  · rw [← getE_tabOf m2 _ hr5, d2]; exact z1
  · rw [← getE_tabOf m2 l (by omega), d2]; exact z2
  · rw [← getE_tabOf m2 a (by omega), d2]; exact y6
  · rw [← getE_tabOf m2 l (by omega), d2]; exact y7

set_option maxRecDepth 100000 in
theorem buddy_witness_run :
    (runT [.alloc 32, .alloc 32] (initTab, [])).map Prod.fst
      = some (kallocT 32 (kallocT 32 initTab).2).2
    ∧ getE (kallocT 32 (kallocT 32 initTab).2).2 0 = 33
    ∧ getE (kallocT 32 (kallocT 32 initTab).2).2 1 = 33 := by
  decide!

theorem buddy_symmetry_witness :
    ∃ st, run [.alloc 32, .alloc 32] initState = some st ∧ ∃ m1 m2 m1' m2',
      _kfree (heap_top + 32 * ((0 : Nat) : Int)) st.mem
          = .ok (heap_top + 32 * ((0 : Nat) : Int), m1)
      ∧ _kfree (heap_top + 32 * ((0 : Nat) : Int) + 32 * 2 ^ 0) m1
          = .ok (heap_top + 32 * ((0 : Nat) : Int) + 32 * 2 ^ 0, m2)
      ∧ _kfree (heap_top + 32 * ((0 : Nat) : Int) + 32 * 2 ^ 0) st.mem
          = .ok (heap_top + 32 * ((0 : Nat) : Int) + 32 * 2 ^ 0, m1')
      ∧ _kfree (heap_top + 32 * ((0 : Nat) : Int)) m1'
          = .ok (heap_top + 32 * ((0 : Nat) : Int), m2')
      ∧ tabOf m2 = tabOf m2'
      ∧ ent m2 (0 + 2 ^ 0) = 0
      ∧ (ent m2 0 = 0 ∨ ∃ k', 0 + 1 ≤ k' ∧ ent m2 0 = 32 * 2 ^ k')
      ∧ ∃ a k', 0 + 1 ≤ k' ∧ k' ≤ 9 ∧ 2 ^ k' ∣ a ∧ a ≤ 0 ∧ 0 + 2 ^ (0 + 1) ≤ a + 2 ^ k'
          ∧ ent m2 a = 32 * 2 ^ k' ∧ (a = 0 ∨ (a < 0 ∧ ent m2 0 = 0)) := by
  obtain ⟨w1, w2, w3⟩ := buddy_witness_run
  obtain ⟨st, hrun, hT⟩ := run_init_table _ _ w1
  refine ⟨st, hrun, buddy_symmetry st ⟨_, hrun⟩ 0 0 (by decide) (dvd_zero _) (by decide) ?_ ?_⟩
  · rw [← getE_tabOf st.mem 0 (by decide), hT, w2]; norm_num
  · rw [← getE_tabOf st.mem _ (by decide), hT]
    simpa using w3

set_option maxRecDepth 100000 in
theorem buddy_counterexample_run :
    (runT [.alloc 32, .alloc 32, .alloc 32, .alloc 32, .free heap_top, .free (heap_top + 32)]
        (initTab, [])).bind (fun r => (freeThenT (heap_top + 64) r.1).bind (fun T7 =>
          (freeThenT (heap_top + 96) T7).map (fun T8 => (getE r.1 2, getE r.1 3, getE T8 2))))
      = some (33, 33, 0) := by
  decide!

/-- C9 as stated fails: after four calls `_kalloc(32)` and `_kfree` of the first two blocks,
the blocks at `heap_top + 64` and `heap_top + 96` are two allocated buddies of 32 bytes
(both entries 33); after `_kfree` of the lower and then of the upper one, the lower block's
entry is 0 and not a free block of 64 bytes or more: the merged block was merged again
into the free block at `heap_top`. -/
theorem buddy_lower_entry_zero :
    ∃ st, Reachable st ∧ ent st.mem 2 = 33 ∧ ent st.mem 3 = 33 ∧ ∃ m1 m2,
      _kfree (heap_top + 64) st.mem = .ok (heap_top + 64, m1)
      ∧ _kfree (heap_top + 96) m1 = .ok (heap_top + 96, m2)
      ∧ ent m2 2 = 0 := by
  have hrun := buddy_counterexample_run
  cases hx : runT [.alloc 32, .alloc 32, .alloc 32, .alloc 32, .free heap_top,
      .free (heap_top + 32)] (initTab, []) with
  | none => rw [hx] at hrun; cases hrun
  | some r =>
    obtain ⟨T6, L6⟩ := r
    rw [hx] at hrun
    simp only [Option.some_bind] at hrun
    cases h7 : freeThenT (heap_top + 64) T6 with
    | none => rw [h7] at hrun; cases hrun
    | some T7 =>
      rw [h7] at hrun
      simp only [Option.some_bind] at hrun
      cases h8 : freeThenT (heap_top + 96) T7 with
      | none => rw [h8] at hrun; cases hrun
      | some T8 =>
        rw [h8] at hrun
        simp only [Option.map_some', Option.some.injEq, Prod.mk.injEq] at hrun
        obtain ⟨v2, v3, v8⟩ := hrun
        obtain ⟨m6, hr6, hT6, h06⟩ := run_init _ _ _ hx
        rw [← hT6] at h7
        obtain ⟨m7, f7, hT7, h07⟩ := freeThenT_refines _ m6 T7 h06 h7
        rw [← hT7] at h8
        obtain ⟨m8, f8, hT8, _⟩ := freeThenT_refines _ m7 T8 h07 h8
        refine ⟨⟨m6, L6⟩, ⟨_, hr6⟩, ?_, ?_, m7, m8, f7, f8, ?_⟩
        · show ent m6 2 = 33
          rw [← getE_tabOf m6 2 (by decide), hT6]; exact v2
        · show ent m6 3 = 33
          rw [← getE_tabOf m6 3 (by decide), hT6]; exact v3
        · rw [← getE_tabOf m8 2 (by decide), hT8]; exact v8

/-! ## The entry codec -/

theorem lor_one_of_even (n : Nat) (h : n % 2 = 0) : n ||| 1 = n + 1 := by
  have h1 : n = 2 ^ 1 * (n / 2) := by omega
  have h2 := Nat.mul_add_lt_is_or (show 1 < 2 ^ 1 by decide) (n / 2)
  rw [← h1] at h2
  exact h2.symm

theorem land_clear_of_odd (n : Nat) (h : n % 2 = 1) (hn : n < 4294967296) :
    n &&& 0xFFFFFFFE = n - 1 := by
  have h1 : n = Nat.bit true (n / 2) := by show n = 2 * (n / 2) + 1; omega
  have h2 : (0xFFFFFFFE : Nat) = Nat.bit false (2 ^ 31 - 1) := by
    show 0xFFFFFFFE = 2 * (2 ^ 31 - 1); norm_num
  rw [h2]
  nth_rewrite 1 [h1]
  rw [Nat.land_bit, Nat.and_pow_two_sub_one_eq_mod]
  show 2 * (n / 2 % 2 ^ 31) = n - 1
  omega

theorem bor_even_one (x : Int) (h : x % 2 = 0) (h1 : -2147483648 ≤ x) (h2 : x < 2147483647) :
    bor x 0x01 = x + 1 := by
  unfold bor
  rw [toU32_one, lor_one_of_even]
  · unfold wrap32 toU32
    have h3 : (0 : Int) ≤ x % 4294967296 := Int.emod_nonneg _ (by decide)
    push_cast
    rw [Int.toNat_of_nonneg h3]; omega
  · unfold toU32
    have h3 : (0 : Int) ≤ x % 4294967296 := Int.emod_nonneg _ (by decide)
    omega

theorem band_clear_odd (v : Int) (h : v % 2 = 1) (h1 : -2147483648 ≤ v) (h2 : v < 2147483648) :
    band v 0xFFFFFFFE = v - 1 := by
  unfold band
  have h3 : (0 : Int) ≤ v % 4294967296 := Int.emod_nonneg _ (by decide)
  have e : toU32 0xFFFFFFFE = 0xFFFFFFFE := by decide
  rw [e, land_clear_of_odd]
  · unfold wrap32 toU32
    have h4 : 1 ≤ (v % 4294967296).toNat := by omega
    push_cast [h4]
    rw [Int.toNat_of_nonneg h3]; omega
  · unfold toU32; omega
  · unfold toU32; omega

theorem load_put_self (m : Mem) (i v : Int) (h1 : 0 ≤ i) (h2 : i + 1 < 0x8000) :
    loadShort (putShort m i v) i = .ok (toShort v) := by
  unfold loadShort putShort
  rw [if_pos ⟨h1, h2⟩, if_pos rfl, if_neg (by omega), if_pos rfl, toShort_bytes]

/-- C11: for every valid block size `s = 32 * 2 ^ k` (`k ≤ 9`) and flag `o` in `{0, 1}`, the
entry `s | o` written as a `short` anywhere in the array and read back as a `short` decodes
as `_ralloc` and `_rfree` read it: it is odd exactly when `o = 1`, its low bit `e & 1` is
`o`, and the entry with the low bit cleared (`e & ~1`, which is `e - o`) is `s`. -/
theorem entry_codec_inverse (k : Nat) (o : Int) (m : Mem) (i : Int) (hk : k ≤ 9)
    (ho : o = 0 ∨ o = 1) (hi : 0 ≤ i ∧ i + 1 < 0x8000) :
    ∃ m' e, storeShort m i (bor (32 * 2 ^ k) o) = .ok m' ∧ loadShort m' i = .ok e
      ∧ (Int.tmod e 2 ≠ 0 ↔ o = 1) ∧ band e 0x01 = o
      ∧ band e 0xFFFFFFFE = 32 * 2 ^ k ∧ e - o = 32 * 2 ^ k := by
  have hs : storeShort m i (bor (32 * 2 ^ k) o) = .ok (putShort m i (bor (32 * 2 ^ k) o)) := by
    unfold storeShort; rw [if_pos hi]
  refine ⟨_, _, hs, load_put_self m i _ hi.1 hi.2, ?_⟩
  rcases ho with ho | ho <;> subst ho <;>
    rcases pow_cases k hk with h | h | h | h | h | h | h | h | h | h <;> subst h <;> decide

theorem entry_codec_inverse_witness :
    ∃ m' e, storeShort zeroMem 0x6800 (bor (32 * 2 ^ 2) 1) = .ok m'
      ∧ loadShort m' 0x6800 = .ok e
      ∧ (Int.tmod e 2 ≠ 0 ↔ (1 : Int) = 1) ∧ band e 0x01 = 1
      ∧ band e 0xFFFFFFFE = 32 * 2 ^ 2 ∧ e - 1 = 32 * 2 ^ 2 :=
  entry_codec_inverse 2 1 zeroMem 0x6800 (by decide) (Or.inr rfl) (by decide)


/-! ## The value `_rfree` returns -/

set_option maxRecDepth 100000 in
theorem rfree_lower_slot_run :
    (runT [.alloc 32, .alloc 32, .free heap_top] (initTab, [])).bind (fun r =>
        (rfreeT 16 1 r.1).map (fun x => (r.2, getE r.1 1, x.map Prod.fst)))
      = some ([(heap_top + 32, 32)], 33, .ok 0) := by
  decide!

/-- C12 at its failing input: after `_kalloc(32)` twice and `_kfree` of the first block, the
second block is still allocated (its entry, at `mcb_top + 2`, is 33), and `_rfree` called
with the address of that entry merges the block into its lower buddy and returns the
address of the lower entry, `mcb_top`, which is not its argument. -/
theorem rfree_returns_lower_slot :
    ∃ st, Reachable st ∧ st.live = [(heap_top + 32, 32)] ∧ ent st.mem 1 = 33
      ∧ ∃ m', _rfree 16 (mcb_top + 2) st.mem = .ok (mcb_top, m')
      ∧ mcb_top ≠ mcb_top + 2 := by
  have hrun := rfree_lower_slot_run
  cases hx : runT [.alloc 32, .alloc 32, .free heap_top] (initTab, []) with
  | none => rw [hx] at hrun; cases hrun
  | some r =>
    obtain ⟨T3, L3⟩ := r
    rw [hx] at hrun
    simp only [Option.some_bind] at hrun
    cases hf : rfreeT 16 1 T3 with
    | none => rw [hf] at hrun; cases hrun
    | some x =>
      rw [hf] at hrun
      simp only [Option.map_some', Option.some.injEq, Prod.mk.injEq] at hrun
      obtain ⟨v1, v2, v3⟩ := hrun
      obtain ⟨m3, hr3, hT3, h03⟩ := run_init _ _ _ hx
      cases x with
      | error e => cases v3
      | ok p =>
        obtain ⟨r, T4⟩ := p
        have hr : r = 0 := by
          simpa [Except.map] using v3
        subst hr
        rw [← hT3] at hf
        obtain ⟨m4, h4, _, _⟩ := (rfree_refines 16 1 m3 h03).2 0 T4 hf
        have e1 : mcb_top + 2 * ((1 : Nat) : Int) = mcb_top + 2 := by norm_num
        have e0 : mcb_top + 2 * ((0 : Nat) : Int) = mcb_top := by norm_num
        rw [e1, e0] at h4
        refine ⟨⟨m3, L3⟩, ⟨_, hr3⟩, v1, ?_, m4, h4, by decide⟩
        show ent m3 1 = 33
        rw [← getE_tabOf m3 1 (by decide), hT3]; exact v2

/-! ## Placement: the search returns the lowest fitting entry -/

theorem aligned_unique (p i t : Nat) (hi : p ∣ i) (ht : p ∣ t) (h1 : i ≤ t) (h2 : t < i + p) :
    t = i := by
  rcases Nat.eq_or_lt_of_le h1 with h | h
  · exact h.symm
  · have := aligned_step p i t hi ht h
    omega

theorem baseT_first (T : List Int) (k i : Nat) (hlen : T.length = 512) (hi : i < 512)
    (hd : 2 ^ k ∣ i) : FirstFit T k k i (baseT k i T) := by
  unfold baseT FirstFit
  split
  · rename_i h
    refine ⟨fun hn => (by cases hn), fun t ht => ?_⟩
    simp only [Option.some.injEq] at ht
    subst ht
    have hp : 0 < 2 ^ k := by positivity
    refine ⟨le_refl _, by omega, ⟨hd, h.1, h.2⟩, fun u h1 h2 => by omega, ?_⟩
    exact getE_set_self T i _ (by omega)
  · rename_i h
    refine ⟨fun _ => ⟨rfl, fun t h1 h2 hf => ?_⟩, fun t ht => by cases ht⟩
    have := aligned_unique (2 ^ k) i t hd hf.1 h1 h2
    subst this
    exact h ⟨hf.2.1, hf.2.2⟩

theorem rallocT_first (S : Int) (k : Nat) (hlo : k = 0 ∨ 32 * 2 ^ (k - 1) < S)
    (hhi : S ≤ 32 * 2 ^ k) :
    ∀ (j i : Nat) (T : List Int), k ≤ j → 2 ^ j ∣ i → T.length = 512 → i + 2 ^ j ≤ 512 →
      FirstFit T k j i (rallocT j S i T) := by
  intro j
  induction j with
  | zero =>
    intro i T hk hd hlen hi
    have : k = 0 := by omega
    subst this
    exact baseT_first T 0 i hlen (by simp at hi; omega) hd
  | succ j ih =>
    intro i T hk hd hlen hi
    have hp : 0 < 2 ^ j := by positivity
    have e2 := two_pow_succ j
    rcases Nat.eq_or_lt_of_le hk with hk' | hk'
    · subst hk'
      have hbig : ¬ S ≤ 32 * 2 ^ j := by
        rcases hlo with h | h
        · omega
        · simpa using h
      rw [rallocT, if_neg hbig]
      exact baseT_first T (j + 1) i hlen (by omega) hd
    · have hkj : k ≤ j := by omega
      have hfit : S ≤ 32 * 2 ^ j := by
        have := two_pow_int_mono k j hkj
        omega
      rw [rallocT, if_pos hfit]
      have hL := ih i T hkj (dvd_left j i hd) hlen (by omega)
      generalize rallocT j S i T = rL at hL
      obtain ⟨a, T1⟩ := rL
      cases a with
      | none =>
        obtain ⟨e1, hno⟩ := hL.1 rfl
        simp only at e1
        subst e1
        simp only
        have hR := ih (i + 2 ^ j) T1 hkj (dvd_mid j i hd) hlen (by omega)
        generalize rallocT j S (i + 2 ^ j) T1 = rR at hR
        refine ⟨fun hn => ?_, fun t ht => ?_⟩
        · obtain ⟨e3, hno2⟩ := hR.1 hn
          refine ⟨e3, fun t h1 h2 => ?_⟩
          by_cases hc : t < i + 2 ^ j
          · exact hno t h1 hc
          · exact hno2 t (by omega) (by omega)
        · obtain ⟨h1, h2, h3, h4, h5⟩ := hR.2 t ht
          refine ⟨by omega, by omega, h3, fun u g1 g2 => ?_, h5⟩
          by_cases hc : u < i + 2 ^ j
          · exact hno u g1 hc
          · exact h4 u (by omega) g2
      | some t0 =>
        obtain ⟨h1, h2, h3, h4, h5⟩ := hL.2 t0 rfl
        simp only at h5
        simp only
        split
        · refine ⟨fun hn => (by cases hn), fun t ht => ?_⟩
          simp only [Option.some.injEq] at ht
          subst ht
          refine ⟨h1, by omega, h3, h4, ?_⟩
          simp only
          rw [getE_set_ne _ _ _ _ (by omega)]
          exact h5
        · refine ⟨fun hn => (by cases hn), fun t ht => ?_⟩
          simp only [Option.some.injEq] at ht
          subst ht
          exact ⟨h1, by omega, h3, h4, h5⟩


theorem smallest_pow_class (S P : Int) (h1 : 32 ≤ S) (h2 : S ≤ 16384)
    (hP : ∃ n : Nat, P = 2 ^ n) (hge : S ≤ P) (hmin : ∀ n : Nat, S ≤ 2 ^ n → P ≤ 2 ^ n) :
    ∃ k, k ≤ 9 ∧ P = 32 * 2 ^ k ∧ (k = 0 ∨ 32 * 2 ^ (k - 1) < S) ∧ S ≤ 32 * 2 ^ k := by
  obtain ⟨n, rfl⟩ := hP
  have hn5 : 5 ≤ n := by
    by_contra h
    have := two_pow_int_mono n 4 (by omega)
    norm_num at this
    omega
  have hn14 : n ≤ 14 := by
    by_contra h
    have a := hmin 14 (by norm_num; omega)
    have b := two_pow_int_lt 14 n (by omega)
    omega
  have e : (2 : Int) ^ n = 32 * 2 ^ (n - 5) := by
    have : n = 5 + (n - 5) := by omega
    nth_rewrite 1 [this]
    rw [pow_add]; norm_num
  refine ⟨n - 5, by omega, e, ?_, by rw [← e]; exact hge⟩
  by_cases h0 : n - 5 = 0
  · exact Or.inl h0
  · right
    by_contra hc
    have e' : (2 : Int) ^ (n - 1) = 32 * 2 ^ (n - 5 - 1) := by
      have : n - 1 = 5 + (n - 5 - 1) := by omega
      nth_rewrite 1 [this]
      rw [pow_add]; norm_num
    have a := hmin (n - 1) (by rw [e']; omega)
    have b := two_pow_int_lt (n - 1) n (by omega)
    omega

theorem candidate_iff (m : Mem) (k : Nat) (s : Int) :
    Candidate m (32 * 2 ^ k) s
      ↔ ∃ t : Nat, t < 512 ∧ s = mcb_top + 2 * (t : Int) ∧ FitsT (tabOf m) k t := by
  have hp := two_pow_pos_int k
  have hpn : 0 < 2 ^ k := by positivity
  have e16 : (32 * 2 ^ k : Int) / 16 = 2 * 2 ^ k := by
    have : (32 * 2 ^ k : Int) = 16 * (2 * 2 ^ k) := by ring
    rw [this, Int.mul_ediv_cancel_left _ (by decide)]
  unfold Candidate FitsT
  rw [e16]
  constructor
  · rintro ⟨h1, h2, h3, e, he, hev, hge⟩
    obtain ⟨q, hq⟩ := Int.dvd_of_emod_eq_zero h3
    have hq0 : 0 ≤ q := by
      by_contra hc
      have : 2 * 2 ^ k * q ≤ 2 * 2 ^ k * (-1) :=
        Int.mul_le_mul_of_nonneg_left (by omega) (by omega)
      omega
    obtain ⟨n, rfl⟩ := Int.eq_ofNat_of_zero_le hq0
    have hs : s = mcb_top + 2 * ((2 ^ k * n : Nat) : Int) := by
      push_cast; rw [← mul_assoc, ← hq]; ring
    have ht : 2 ^ k * n < 512 := by
      have : (((2 ^ k * n : Nat)) : Int) < 512 := by
        unfold mcb_bot at h2; unfold mcb_top at hs; omega
      exact_mod_cast this
    refine ⟨2 ^ k * n, ht, hs, Dvd.intro _ rfl, ?_⟩
    rw [hs, load_slot m _ (by omega)] at he
    simp only [Except.ok.injEq] at he
    rw [getE_tabOf m _ ht, he]
    exact ⟨hev, hge⟩
  · rintro ⟨t, ht, hs, ⟨q, hq⟩, hev, hge⟩
    subst hs
    rw [getE_tabOf m _ ht] at hev hge
    refine ⟨by omega, by unfold mcb_bot mcb_top; omega, ?_,
      ent m t, load_slot m t (by omega), hev, hge⟩
    rw [add_sub_cancel_left, hq]
    push_cast
    rw [← mul_assoc]
    exact Int.mul_emod_right _ _

theorem kalloc_first_fit (m : Mem) (S : Int) (k : Nat) (h1 : 32 ≤ S) (h2 : S ≤ 16384)
    (hk : k ≤ 9) (hlo : k = 0 ∨ 32 * 2 ^ (k - 1) < S) (hhi : S ≤ 32 * 2 ^ k) :
    ∃ (r : Option Nat × List Int) (m' : Mem), _kalloc S m = .ok (ptrOf r.1, m')
      ∧ tabOf m' = r.2 ∧ FirstFit (tabOf m) k 9 0 r := by
  obtain ⟨m', h, hT, _, _⟩ := kalloc_refines S m
  have e : kallocT S (tabOf m)
      = (ptrOf (rallocT 9 S 0 (tabOf m)).1, (rallocT 9 S 0 (tabOf m)).2) := by
    unfold kallocT; rw [if_neg (by omega)]
  rw [e] at h hT
  exact ⟨_, m', h, hT,
    rallocT_first S k hlo hhi 9 0 (tabOf m) hk (dvd_zero _) (length_tabOf m) (by norm_num)⟩


theorem smallest_pow_100 (n : Nat) (hn : (100 : Int) ≤ 2 ^ n) : (128 : Int) ≤ 2 ^ n := by
  rcases Nat.lt_or_ge n 7 with h | h
  · have := two_pow_int_mono n 6 (by omega)
    norm_num at this
    omega
  · have := two_pow_int_mono 7 n h
    norm_num at this
    exact this

/-- C13: for every image and every size `S` with `32 ≤ S ≤ 16384`, with `P` the smallest
power of two that is at least `S`, `_kalloc(S)` returns: it returns `NULL` exactly when no
control-table address in `[mcb_top, mcb_bot]` has an offset that is a multiple of `P / 16`
and an entry that is even and at least `P`; otherwise it returns
`heap_top + 16 * (s - mcb_top)` for the lowest such address `s`. -/
theorem left_first_placement (m : Mem) (S P : Int) (h1 : 32 ≤ S) (h2 : S ≤ 16384)
    (hP : ∃ n : Nat, P = 2 ^ n) (hge : S ≤ P) (hmin : ∀ n : Nat, S ≤ 2 ^ n → P ≤ 2 ^ n) :
    ∃ p m', _kalloc S m = .ok (p, m')
      ∧ (p = 0 ↔ ∀ s, ¬ Candidate m P s)
      ∧ (p ≠ 0 → ∃ s, Candidate m P s ∧ (∀ s', Candidate m P s' → s ≤ s')
          ∧ p = heap_top + 16 * (s - mcb_top)) := by
  obtain ⟨k, hk, rfl, hlo, hhi⟩ := smallest_pow_class S P h1 h2 hP hge hmin
  obtain ⟨r, m', hr, _, hno, hsome⟩ := kalloc_first_fit m S k h1 h2 hk hlo hhi
  refine ⟨_, m', hr, ?_⟩
  obtain ⟨a, T1⟩ := r
  cases a with
  | none =>
    have hn := (hno rfl).2
    have hnc : ∀ s, ¬ Candidate m (32 * 2 ^ k) s := by
      intro s hc
      obtain ⟨t, ht, _, hf⟩ := (candidate_iff m k s).1 hc
      exact hn t (Nat.zero_le _) (by norm_num; omega) hf
    exact ⟨⟨fun _ => hnc, fun _ => rfl⟩, fun h => absurd rfl h⟩
  | some t =>
    obtain ⟨_, ht, hf, hlow, _⟩ := hsome t rfl
    have ht' : t < 512 := by norm_num at ht; omega
    have hc : Candidate m (32 * 2 ^ k) (mcb_top + 2 * (t : Int)) :=
      (candidate_iff m k _).2 ⟨t, ht', rfl, hf⟩
    have hp : ptrOf (some t) ≠ 0 := by
      show heap_top + 32 * (t : Int) ≠ 0
      unfold heap_top; omega
    refine ⟨⟨fun h => absurd h hp, fun h => absurd hc (h _)⟩, fun _ => ?_⟩
    refine ⟨_, hc, fun s' hs' => ?_, ?_⟩
    · obtain ⟨u, _, hu, hfu⟩ := (candidate_iff m k s').1 hs'
      subst hu
      by_contra hlt
      exact hlow u (Nat.zero_le _) (by omega) hfu
    · show heap_top + 32 * (t : Int) = _
      ring

theorem left_first_placement_witness :
    (32 : Int) ≤ 100 ∧ ∃ p m', _kalloc 100 (_kinit zeroMem) = .ok (p, m')
      ∧ (p = 0 ↔ ∀ s, ¬ Candidate (_kinit zeroMem) 128 s)
      ∧ (p ≠ 0 → ∃ s, Candidate (_kinit zeroMem) 128 s
          ∧ (∀ s', Candidate (_kinit zeroMem) 128 s' → s ≤ s')
          ∧ p = heap_top + 16 * (s - mcb_top)) :=
  ⟨by decide, left_first_placement (_kinit zeroMem) 100 128 (by decide) (by decide) ⟨7, by norm_num⟩
    (by decide) smallest_pow_100⟩

/-- C14: for every image and every size `S` with `32 ≤ S ≤ 16384`, with `P` the smallest
power of two that is at least `S`: if `_kalloc(S)` returns a non-`NULL` address `A`, then
after the call the control entry for `A`, at `mcb_top + (A - heap_top) / 16`, is `P | 1`,
and `A` lies inside the heap, as do the `P` bytes from `A` on, with `A - heap_top` a
multiple of `P`. -/
theorem round_up (m : Mem) (S P : Int) (h1 : 32 ≤ S) (h2 : S ≤ 16384)
    (hP : ∃ n : Nat, P = 2 ^ n) (hge : S ≤ P) (hmin : ∀ n : Nat, S ≤ 2 ^ n → P ≤ 2 ^ n)
    (A : Int) (m' : Mem) (h : _kalloc S m = .ok (A, m')) (hA : A ≠ 0) :
    loadShort m' (m2a (mcb_top + Int.tdiv (A - heap_top) 16)) = .ok (bor P 0x01)
      ∧ heap_top ≤ A ∧ A ≤ heap_bot ∧ A + P ≤ heap_top + 16384
      ∧ (A - heap_top) % P = 0 := by
  obtain ⟨k, hk, rfl, hlo, hhi⟩ := smallest_pow_class S P h1 h2 hP hge hmin
  obtain ⟨r, m'', hr, hT, _, hsome⟩ := kalloc_first_fit m S k h1 h2 hk hlo hhi
  rw [h] at hr
  simp only [Except.ok.injEq, Prod.mk.injEq] at hr
  obtain ⟨hA', hm⟩ := hr
  subst hm
  obtain ⟨a, T1⟩ := r
  cases a with
  | none => exact absurd hA' hA
  | some t =>
    obtain ⟨_, ht, hf, _, hv⟩ := hsome t rfl
    have ht' : t < 512 := by norm_num at ht; omega
    have hA2 : A = heap_top + 32 * (t : Int) := hA'
    subst hA2
    have e1 : Int.tdiv (heap_top + 32 * (t : Int) - heap_top) 16 = 2 * (t : Int) := by
      rw [add_sub_cancel_left]
      have : (32 * (t : Int)) = 16 * (2 * (t : Int)) := by ring
      rw [this, Int.mul_tdiv_cancel_left _ (by decide)]
    rw [e1, load_slot m' t (by omega), bor_block_one k hk, ← getE_tabOf m' t ht', hT]
    have hfit : ((t + 2 ^ k : Nat) : Int) ≤ 512 := by
      exact_mod_cast aligned_add_le t k hk ht' (Nat.mod_eq_zero_of_dvd hf.1)
    push_cast at hfit
    refine ⟨by rw [← hv], by omega, by unfold heap_top heap_bot; omega, by omega, ?_⟩
    obtain ⟨q, hq⟩ := hf.1
    rw [add_sub_cancel_left, hq]
    push_cast
    rw [← mul_assoc]
    exact Int.mul_emod_right _ _

set_option maxRecDepth 100000 in
theorem kallocT_100_init : (kallocT 100 initTab).1 = heap_top := by
  decide!

theorem round_up_witness :
    ∃ A m', _kalloc 100 (_kinit zeroMem) = .ok (A, m') ∧ A ≠ 0
      ∧ loadShort m' (m2a (mcb_top + Int.tdiv (A - heap_top) 16)) = .ok 129
      ∧ heap_top ≤ A ∧ A ≤ heap_bot ∧ A + 128 ≤ heap_top + 16384
      ∧ (A - heap_top) % 128 = 0 := by
  obtain ⟨m', h, _⟩ := kalloc_refines 100 (_kinit zeroMem)
  rw [tabOf_kinit_zero, kallocT_100_init] at h
  have e : bor 128 0x01 = 129 := by decide
  have hA : heap_top ≠ 0 := by decide
  have w := round_up (_kinit zeroMem) 100 128 (by decide) (by decide) ⟨7, by norm_num⟩
    (by decide) smallest_pow_100 heap_top m' h hA
  rw [e] at w
  exact ⟨heap_top, m', h, hA, w⟩


/-! ## The base case of `_ralloc` -/

theorem toShort_range (v : Int) : -32768 ≤ toShort v ∧ toShort v < 32768 := by
  unfold toShort; omega

theorem load_ok (m : Mem) (i v : Int) (h : loadShort m i = .ok v) :
    (0 ≤ i ∧ i + 1 < 0x8000) ∧ -32768 ≤ v ∧ v < 32768 := by
  unfold loadShort at h
  by_cases hb : 0 ≤ i ∧ i + 1 < 0x8000
  · rw [if_pos hb] at h
    simp only [Except.ok.injEq] at h
    subst h
    exact ⟨hb, toShort_range _⟩
  · rw [if_neg hb] at h; cases h

theorem store_ok (m : Mem) (i v : Int) (h : 0 ≤ i ∧ i + 1 < 0x8000) :
    storeShort m i v = .ok (putShort m i v) := by
  unfold storeShort; rw [if_pos h]

set_option maxRecDepth 100000 in
theorem getE_initTab_first : getE initTab 0 = 16384 := by
  decide!

/-- C15 as stated fails: on the image after `_kinit`, `_ralloc(32, mcb_top, mcb_top)` takes
the base case on the one-entry window at `mcb_top` (32 is more than half the window's 32
bytes); the entry there is free and records 16384 bytes, and after the call it is 33:
occupied, with recorded size 32, the window's size, not the 16384 recorded before. -/
theorem base_case_shrinks_entry :
    ¬ (32 : Int) ≤ Int.tdiv (mcb_top - mcb_top + mcb_ent_sz) 2 * 16
      ∧ loadShort (_kinit zeroMem) (m2a mcb_top) = .ok 16384
      ∧ ∃ p m', _ralloc 1 32 mcb_top mcb_top (_kinit zeroMem) = .ok (p, m')
        ∧ loadShort m' (m2a mcb_top) = .ok 33
        ∧ sizeOf 33 = 32 ∧ sizeOf 33 ≠ sizeOf 16384 := by
  have e0 : ent (_kinit zeroMem) 0 = 16384 := by
    rw [← getE_tabOf _ 0 (by decide), tabOf_kinit_zero]; exact getE_initTab_first
  have hl : loadShort (_kinit zeroMem) (m2a mcb_top) = .ok 16384 := by
    have := load_slot (_kinit zeroMem) 0 (by decide)
    rw [e0] at this
    simpa using this
  have hs := ralloc_base_step 0 0 32 0 (_kinit zeroMem) (by decide) (by decide) (by decide)
    (by decide) (by decide)
  rw [e0] at hs
  norm_num at hs
  refine ⟨by decide, hl, _, _, hs, ?_, by decide, by decide⟩
  have := load_slot (putShort (_kinit zeroMem) 26624 33) 0 (by decide)
  have e1 := ent_put_self (_kinit zeroMem) 0 33
  norm_num at this e1
  rw [e1] at this
  rw [this]
  decide

/-- C15 as amended: for every window `[left, right]` with `left ≤ right` and every size `S`
for which `_ralloc` takes the base case (`S` in `[32, 16384]` and greater than half the
window's byte size), if the entry at `left` is free and at least the window's byte size
`16 * (right - left + 2)`, then the call returns the address of the block and afterwards
the entry at `left` has its occupied bit set and records the window's byte size; this is
the size recorded before the call only when the entry recorded exactly the window. -/
theorem base_case_records_window (fuel : Nat) (S left right : Int) (m : Mem) (v : Int)
    (h1 : 32 ≤ S) (h2 : S ≤ 16384) (hw : left ≤ right)
    (hbase : ¬ S ≤ Int.tdiv (right - left + mcb_ent_sz) 2 * 16)
    (hv : loadShort m (m2a left) = .ok v) (hfree : v % 2 = 0)
    (hsz : v ≥ (right - left + mcb_ent_sz) * 16) :
    ∃ m' e, _ralloc (fuel + 1) S left right m
          = .ok (wrap32 ((left - 0x6800) * 16) + heap_top, m')
      ∧ loadShort m' (m2a left) = .ok e ∧ e % 2 = 1
      ∧ sizeOf e = (right - left + mcb_ent_sz) * 16
      ∧ (sizeOf e = sizeOf v ↔ v = (right - left + mcb_ent_sz) * 16) := by
  obtain ⟨hb, hv1, hv2⟩ := load_ok m _ v hv
  have hbor : bor ((right - left + mcb_ent_sz) * 16) 0x01
      = (right - left + mcb_ent_sz) * 16 + 1 := by
    apply bor_even_one
    · omega
    · unfold mcb_ent_sz; omega
    · omega
  have hsv : sizeOf v = v := by unfold sizeOf; omega
  refine ⟨putShort m (m2a left) ((right - left + mcb_ent_sz) * 16 + 1),
    (right - left + mcb_ent_sz) * 16 + 1, ?_, ?_, by omega, by unfold sizeOf; omega, ?_⟩
  · rw [_ralloc]
    rw [if_neg (by unfold min_size max_size; omega), if_neg hbase, hv]
    simp only [tmod_two_eq_zero_iff]
    rw [if_pos hfree, if_pos hsz, hbor, store_ok m _ _ hb]
  · rw [load_put_self m _ _ hb.1 hb.2, toShort_of_range _ (by unfold mcb_ent_sz; omega) (by omega)]
  · rw [hsv]; unfold sizeOf; omega

theorem base_case_records_window_witness :
    ∃ m' e, _ralloc (0 + 1) 32 mcb_top mcb_top (_kinit zeroMem)
          = .ok (wrap32 ((mcb_top - 0x6800) * 16) + heap_top, m')
      ∧ loadShort m' (m2a mcb_top) = .ok e ∧ e % 2 = 1
      ∧ sizeOf e = (mcb_top - mcb_top + mcb_ent_sz) * 16
      ∧ (sizeOf e = sizeOf 16384 ↔ (16384 : Int) = (mcb_top - mcb_top + mcb_ent_sz) * 16) := by
  have e0 : ent (_kinit zeroMem) 0 = 16384 := by
    rw [← getE_tabOf _ 0 (by decide), tabOf_kinit_zero]; exact getE_initTab_first
  have hl : loadShort (_kinit zeroMem) (m2a mcb_top) = .ok 16384 := by
    have := load_slot (_kinit zeroMem) 0 (by decide)
    rw [e0] at this
    simpa using this
  exact base_case_records_window 0 32 mcb_top mcb_top (_kinit zeroMem) 16384 (by decide)
    (by decide) (le_refl _) (by decide) hl (by decide) (by decide)


/-! ## One call of `_rfree` on any image -/

theorem load_put_other (m : Mem) (i j v : Int) (h : j + 2 ≤ i ∨ i + 2 ≤ j) :
    loadShort (putShort m i v) j = loadShort m j := by
  unfold loadShort
  by_cases hb : 0 ≤ j ∧ j + 1 < 0x8000
  · rw [if_pos hb, if_pos hb]
    unfold putShort
    rw [if_neg (by omega), if_neg (by omega), if_neg (by omega), if_neg (by omega)]
  · rw [if_neg hb, if_neg hb]

theorem buddyOf_bounds (a c : Int) (h1 : mcb_top ≤ a) (h2 : a ≤ mcb_bot) (hc1 : 32 ≤ c)
    (hc2 : c < 32768) :
    mcb_top ≤ buddyOf a c ∧ buddyOf a c + 1 < 0x20008000
      ∧ (buddyOf a c + 2 ≤ a ∨ a + 2 ≤ buddyOf a c)
      ∧ (buddyOf a c ≤ mcb_bot → c < 16384) := by
  unfold mcb_top at h1 ⊢
  unfold mcb_bot at h2 ⊢
  have e : Int.tdiv c 16 = c / 16 := Int.tdiv_eq_ediv (by omega) (by decide)
  unfold buddyOf
  rw [e]
  split
  · omega
  · rename_i hodd
    have hle : c / 16 ≤ a - mcb_top := by
      by_contra hlt
      apply hodd
      rw [Int.tdiv_eq_zero_of_lt (by unfold mcb_top; omega) (by omega)]
      rfl
    unfold mcb_top at hle
    omega

/-- One call of `_rfree` on a free entry `v ≥ 32` of the control table, on any image: the
buddy is read; if it is free and equal to `v` the higher entry of the pair is set to 0, the
lower one to `v + v`, and `_rfree` recurses on the lower one; otherwise `_rfree` returns
its argument and leaves the image as it is. -/
theorem rfree_even_step (fuel : Nat) (a : Int) (m : Mem) (v b : Int) (h1 : mcb_top ≤ a)
    (h2 : a ≤ mcb_bot) (hv : loadShort m (m2a a) = .ok v) (hev : v % 2 = 0) (hc : 32 ≤ v)
    (hb : loadShort m (m2a (buddyOf a v)) = .ok b) :
    _rfree (fuel + 1) a m
      = if b = v ∧ b % 2 = 0 then
          _rfree fuel (min a (buddyOf a v))
            (putShort (putShort m (m2a (max a (buddyOf a v))) 0) (m2a (min a (buddyOf a v)))
              (v + v))
        else .ok (a, m) := by
  obtain ⟨hba, _, hv2⟩ := load_ok m _ v hv
  obtain ⟨hbb, _, _⟩ := load_ok m _ b hb
  obtain ⟨g1, g2, g3, _⟩ := buddyOf_bounds a v h1 h2 hc hv2
  have e : Int.tdiv v 16 = v / 16 := Int.tdiv_eq_ediv (by omega) (by decide)
  have hne0 : ¬ Int.tdiv v 16 = 0 := by rw [e]; omega
  rw [_rfree, hv]
  simp only [tmod_two_eq_zero_iff, ne_eq, hev, not_true_eq_false, if_false, if_true, hne0]
  by_cases hidx : Int.tdiv (a - mcb_top) (Int.tdiv v 16) % 2 = 0
  · have ebd : buddyOf a v = a + Int.tdiv v 16 := by
      unfold buddyOf; rw [if_pos ((tmod_two_eq_zero_iff _).2 hidx)]
    rw [ebd] at hb g3 hbb ⊢
    rw [if_pos hidx, hb]
    have hlt : a ≤ a + Int.tdiv v 16 := by rw [e]; omega
    rw [min_eq_left hlt, max_eq_right hlt]
    by_cases hm : b = v ∧ b % 2 = 0
    · simp only [hm, hev, and_self, if_true, store_ok _ _ _ hbb, store_ok _ _ _ hba]
    · simp only [hm, if_false]
  · have ebd : buddyOf a v = a - Int.tdiv v 16 := by
      unfold buddyOf; rw [if_neg (fun h => hidx ((tmod_two_eq_zero_iff _).1 h))]
    rw [ebd] at hb g3 hbb ⊢
    rw [if_neg hidx, hb]
    have hlt : a - Int.tdiv v 16 ≤ a := by rw [e]; omega
    rw [min_eq_right hlt, max_eq_left hlt]
    by_cases hm : b = v ∧ b % 2 = 0
    · simp only [hm, hev, and_self, if_true, store_ok _ _ _ hbb, store_ok _ _ _ hba]
    · simp only [hm, if_false]

/-- On an occupied entry, `_rfree` first clears the occupied bit and then proceeds as on the
free entry. -/
theorem rfree_clear_first (fuel : Nat) (a : Int) (m : Mem) (v : Int)
    (hv : loadShort m (m2a a) = .ok v) (hodd : v % 2 = 1) :
    _rfree (fuel + 1) a m = _rfree (fuel + 1) a (putShort m (m2a a) (v - 1)) := by
  obtain ⟨hba, hv1, hv2⟩ := load_ok m _ v hv
  have hne : ¬ v % 2 = 0 := by omega
  have hev : (v - 1) % 2 = 0 := by omega
  rw [_rfree, _rfree, hv, load_put_self m _ _ hba.1 hba.2,
    toShort_of_range _ (by omega) (by omega)]
  simp only [tmod_two_eq_zero_iff, ne_eq, hne, hev, not_false_eq_true, not_true_eq_false,
    if_true, if_false, band_clear_odd v hodd (by omega) (by omega), store_ok _ _ _ hba]


theorem load_clearOccupied (m : Mem) (a v : Int) (hv : loadShort m (m2a a) = .ok v) :
    loadShort (clearOccupied m a v) (m2a a) = .ok (sizeOf v)
      ∧ (sizeOf v) % 2 = 0
      ∧ (∀ i, i ≠ m2a a → i ≠ m2a a + 1 → clearOccupied m a v i = m i)
      ∧ (∀ j, j + 2 ≤ m2a a ∨ m2a a + 2 ≤ j →
          loadShort (clearOccupied m a v) j = loadShort m j) := by
  obtain ⟨hba, hv1, hv2⟩ := load_ok m _ v hv
  unfold clearOccupied sizeOf
  by_cases hev : v % 2 = 0
  · rw [if_pos hev, hev, sub_zero]
    exact ⟨hv, hev, fun _ _ _ => rfl, fun _ _ => rfl⟩
  · rw [if_neg hev]
    refine ⟨?_, by omega, fun i g1 g2 => ?_, fun j hj => load_put_other m _ j _ hj⟩
    · rw [load_put_self m _ _ hba.1 hba.2, toShort_of_range _ (by omega) (by omega)]
    · unfold putShort; rw [if_neg g1, if_neg g2]

/-- One call of `_rfree` on an entry of the control table that records at least 32 bytes,
free or occupied, on any image. -/
theorem rfree_any_step (fuel : Nat) (a : Int) (m : Mem) (v b : Int) (h1 : mcb_top ≤ a)
    (h2 : a ≤ mcb_bot) (hv : loadShort m (m2a a) = .ok v) (hc : 32 ≤ sizeOf v)
    (hb : loadShort m (m2a (buddyOf a (sizeOf v))) = .ok b) :
    _rfree (fuel + 1) a m
      = if b = sizeOf v ∧ b % 2 = 0 then
          _rfree fuel (min a (buddyOf a (sizeOf v))) (mergeBuddies m a v)
        else .ok (a, clearOccupied m a v) := by
  obtain ⟨hba, hv1, hv2⟩ := load_ok m _ v hv
  obtain ⟨l1, l2, _, l4⟩ := load_clearOccupied m a v hv
  have hs2 : sizeOf v < 32768 := by unfold sizeOf; omega
  obtain ⟨g1, g2, g3, _⟩ := buddyOf_bounds a (sizeOf v) h1 h2 hc hs2
  have hb' : loadShort (clearOccupied m a v) (m2a (buddyOf a (sizeOf v))) = .ok b := by
    rw [l4 _ (by unfold m2a; omega)]; exact hb
  have step := rfree_even_step fuel a (clearOccupied m a v) (sizeOf v) b h1 h2 l1 l2 hc hb'
  unfold mergeBuddies
  rw [← step]
  by_cases hev : v % 2 = 0
  · have : clearOccupied m a v = m := by unfold clearOccupied; rw [if_pos hev]
    rw [this]
  · have e : sizeOf v = v - 1 := by unfold sizeOf; omega
    have : clearOccupied m a v = putShort m (m2a a) (v - 1) := by
      unfold clearOccupied; rw [if_neg hev, e]
    rw [this]
    exact rfree_clear_first fuel a m v hv (by omega)

theorem reachable_init : Reachable initState := ⟨[], rfl⟩

theorem ent_init_first : ent initState.mem 0 = 16384 := by
  rw [initState_mem, ← getE_tabOf _ 0 (by decide), tabOf_kinit_zero]
  exact getE_initTab_first

/-- A client call leaves every byte outside the control table as it is. -/
theorem step_frame (st st' : State) (op : Op) (hinv : InvSt st) (h : step st op = some st') :
    ∀ a, a < 0x6800 ∨ 0x6C00 ≤ a → st'.mem a = st.mem a := by
  obtain ⟨hg, h0, hlive⟩ := hinv
  cases op with
  | alloc size =>
    obtain ⟨m', hk, _, hF, _⟩ := kalloc_refines size st.mem
    simp only [step, hk] at h
    by_cases hp : (kallocT size (tabOf st.mem)).1 = 0
    · simp only [hp, if_true, Option.some.injEq] at h
      subst h; exact hF
    · simp only [hp, if_false, Option.some.injEq] at h
      subst h; exact hF
  | free ptr =>
    simp only [step] at h
    by_cases hmem : ptr ∈ st.live.map Prod.fst
    · simp only [hmem, if_true] at h
      obtain ⟨b, hb, hbp⟩ := List.mem_map.1 hmem
      obtain ⟨t, ht, hbt, hodd⟩ := hlive b hb
      rw [hbp] at hbt
      obtain ⟨T', k, hfree, _⟩ := kfreeT_post (tabOf st.mem) t hg ht hodd
      rw [← hbt] at hfree
      obtain ⟨m', hm', _, hF'⟩ := (kfree_refines ptr st.mem h0).2 ptr T' hfree
      rw [hm'] at h
      simp only [Option.some.injEq] at h
      subst h; exact hF'
    · simp only [hmem, if_false] at h
      cases h

theorem run_frame : ∀ (ops : List Op) (st st' : State), InvSt st → run ops st = some st' →
    ∀ a, a < 0x6800 ∨ 0x6C00 ≤ a → st'.mem a = st.mem a := by
  intro ops
  induction ops with
  | nil =>
    intro st st' _ h a _
    simp only [run, Option.some.injEq] at h
    subst h; rfl
  | cons op ops ih =>
    intro st st' hinv h a ha
    simp only [run] at h
    cases hs : step st op with
    | none => rw [hs] at h; cases h
    | some st1 =>
      rw [hs] at h
      rw [ih st1 st' (step_inv st st1 op hinv hs) h a ha, step_frame st st1 op hinv hs a ha]

/-- In every reachable state the bytes of `array` after the control table are zero: the
array is zero-initialised and neither `_kinit`, `_kalloc` nor `_kfree` writes there. -/
theorem reachable_tail_zero (st : State) (h : Reachable st) :
    ∀ a, 0x6C00 ≤ a → st.mem a = 0 := by
  obtain ⟨ops, hops⟩ := h
  intro a ha
  rw [run_frame ops initState st inv_initState hops a (Or.inr ha), initState_mem,
    kinit_zero_apply, if_neg (by omega)]

/-- With zero bytes after the control table, a buddy entry that equals a size `c ≥ 32`
belongs to a size below 16384: twice the size fits a `short`. -/
theorem merge_size_fits (m : Mem) (a c b : Int) (h1 : mcb_top ≤ a) (h2 : a ≤ mcb_bot)
    (hz : ∀ i, 0x6C00 ≤ i → m i = 0) (hc1 : 32 ≤ c) (hc2 : c < 32768)
    (hb : loadShort m (m2a (buddyOf a c)) = .ok b) (he : b = c) : c < 16384 := by
  obtain ⟨_, _, _, g4⟩ := buddyOf_bounds a c h1 h2 hc1 hc2
  by_cases hin : buddyOf a c ≤ mcb_bot
  · exact g4 hin
  · have hi : 0x6C00 ≤ m2a (buddyOf a c) + 1 := by
      unfold m2a; unfold mcb_bot at hin; omega
    unfold loadShort at hb
    split at hb
    · simp only [Except.ok.injEq] at hb
      rw [hz _ hi] at hb
      unfold toShort at hb
      omega
    · cases hb

/-- C16: on every image in which the bytes of `array` after the control table (from index
`0x6C00` on) are zero, as they are in every state the allocator can reach, and for every
control-table address `mcb_addr` whose entry has size `c ≥ 32` (the entry with its low bit
cleared), `_rfree` reads the buddy entry inside the array.  If the buddy entry is occupied
(odd) or differs from `c`, `_rfree` returns `mcb_addr` and changes nothing except clearing
the occupied bit of the entry at `mcb_addr`.  If the buddy entry equals `c` and is free, the
higher entry of the pair is set to 0 and the lower one to `2c`, nothing else changes, and
`_rfree` recurses on the lower one. -/
theorem merge_only_with_equal_free_buddy (fuel : Nat) (mcb_addr : Int) (m : Mem) (v : Int)
    (h1 : mcb_top ≤ mcb_addr) (h2 : mcb_addr ≤ mcb_bot)
    (hz : ∀ a, 0x6C00 ≤ a → m a = 0)
    (hv : loadShort m (m2a mcb_addr) = .ok v) (hc : 32 ≤ sizeOf v) :
    ∃ b, loadShort m (m2a (buddyOf mcb_addr (sizeOf v))) = .ok b
      ∧ ((b % 2 ≠ 0 ∨ b ≠ sizeOf v) →
          _rfree (fuel + 1) mcb_addr m = .ok (mcb_addr, clearOccupied m mcb_addr v)
          ∧ loadShort (clearOccupied m mcb_addr v) (m2a mcb_addr) = .ok (sizeOf v)
          ∧ ∀ i, i ≠ m2a mcb_addr → i ≠ m2a mcb_addr + 1 →
              clearOccupied m mcb_addr v i = m i)
      ∧ ((b = sizeOf v ∧ b % 2 = 0) →
          _rfree (fuel + 1) mcb_addr m
            = _rfree fuel (min mcb_addr (buddyOf mcb_addr (sizeOf v)))
                (mergeBuddies m mcb_addr v)
          ∧ loadShort (mergeBuddies m mcb_addr v)
              (m2a (max mcb_addr (buddyOf mcb_addr (sizeOf v)))) = .ok 0
          ∧ loadShort (mergeBuddies m mcb_addr v)
              (m2a (min mcb_addr (buddyOf mcb_addr (sizeOf v)))) = .ok (2 * sizeOf v)
          ∧ ∀ i, i ≠ m2a mcb_addr → i ≠ m2a mcb_addr + 1 →
              i ≠ m2a (buddyOf mcb_addr (sizeOf v)) →
              i ≠ m2a (buddyOf mcb_addr (sizeOf v)) + 1 →
              mergeBuddies m mcb_addr v i = m i) := by
  obtain ⟨hba, hv1, hv2⟩ := load_ok m _ v hv
  obtain ⟨l1, l2, l3, l4⟩ := load_clearOccupied m mcb_addr v hv
  have hs2 : sizeOf v < 32768 := by unfold sizeOf; omega
  obtain ⟨g1, g2, g3, g4⟩ := buddyOf_bounds mcb_addr (sizeOf v) h1 h2 hc hs2
  have hbb : 0 ≤ m2a (buddyOf mcb_addr (sizeOf v))
      ∧ m2a (buddyOf mcb_addr (sizeOf v)) + 1 < 0x8000 := by
    unfold m2a; unfold mcb_top at g1; omega
  have hld : loadShort m (m2a (buddyOf mcb_addr (sizeOf v)))
      = .ok (toShort (m (m2a (buddyOf mcb_addr (sizeOf v))) % 256
          + 256 * (m (m2a (buddyOf mcb_addr (sizeOf v)) + 1) % 256))) := by
    unfold loadShort; rw [if_pos hbb]
  refine ⟨_, hld, fun hno => ?_, fun hyes => ?_⟩
  · have step := rfree_any_step fuel mcb_addr m v _ h1 h2 hv hc hld
    rw [if_neg (by intro h; rcases hno with g | g; exact g h.2; exact g h.1)] at step
    exact ⟨step, l1, l3⟩
  · have step := rfree_any_step fuel mcb_addr m v _ h1 h2 hv hc hld
    rw [if_pos hyes] at step
    have hlt := merge_size_fits m mcb_addr (sizeOf v) _ h1 h2 hz hc hs2 hld hyes.1
    have hmax : 0 ≤ m2a (max mcb_addr (buddyOf mcb_addr (sizeOf v)))
        ∧ m2a (max mcb_addr (buddyOf mcb_addr (sizeOf v))) + 1 < 0x8000 := by
      unfold m2a at hba hbb ⊢
      rcases max_choice mcb_addr (buddyOf mcb_addr (sizeOf v)) with h | h <;> rw [h] <;> omega
    have hmin : 0 ≤ m2a (min mcb_addr (buddyOf mcb_addr (sizeOf v)))
        ∧ m2a (min mcb_addr (buddyOf mcb_addr (sizeOf v))) + 1 < 0x8000 := by
      unfold m2a at hba hbb ⊢
      rcases min_choice mcb_addr (buddyOf mcb_addr (sizeOf v)) with h | h <;> rw [h] <;> omega
    have hfar : m2a (max mcb_addr (buddyOf mcb_addr (sizeOf v))) + 2
          ≤ m2a (min mcb_addr (buddyOf mcb_addr (sizeOf v)))
        ∨ m2a (min mcb_addr (buddyOf mcb_addr (sizeOf v))) + 2
          ≤ m2a (max mcb_addr (buddyOf mcb_addr (sizeOf v))) := by
      right
      unfold m2a
      rcases g3 with g | g
      · rw [min_eq_right (by omega), max_eq_left (by omega)]; omega
      · rw [min_eq_left (by omega), max_eq_right (by omega)]; omega
    have hlow : loadShort (mergeBuddies m mcb_addr v)
        (m2a (min mcb_addr (buddyOf mcb_addr (sizeOf v))))
          = .ok (toShort (sizeOf v + sizeOf v)) := by
      unfold mergeBuddies
      rw [load_put_self _ _ _ hmin.1 hmin.2]
    refine ⟨step, ?_, ?_, fun i i1 i2 i3 i4 => ?_⟩
    · unfold mergeBuddies
      rw [load_put_other _ _ _ _ hfar, load_put_self _ _ _ hmax.1 hmax.2]
      rfl
    · rw [hlow, toShort_of_range _ (by omega) (by omega)]; congr 1; ring
    · have hne : ∀ x, (x = mcb_addr ∨ x = buddyOf mcb_addr (sizeOf v)) →
          i ≠ m2a x ∧ i ≠ m2a x + 1 := by
        intro x hx
        rcases hx with rfl | rfl
        · exact ⟨i1, i2⟩
        · exact ⟨i3, i4⟩
      have hx1 := hne _ (min_choice mcb_addr (buddyOf mcb_addr (sizeOf v)))
      have hx2 := hne _ (max_choice mcb_addr (buddyOf mcb_addr (sizeOf v)))
      unfold mergeBuddies putShort
      rw [if_neg hx1.1, if_neg hx1.2, if_neg hx2.1, if_neg hx2.2]
      exact l3 i i1 i2

theorem merge_only_with_equal_free_buddy_witness :
    ∃ b, loadShort initState.mem (m2a (buddyOf mcb_top (sizeOf 16384))) = .ok b
      ∧ ((b % 2 ≠ 0 ∨ b ≠ sizeOf 16384) →
          _rfree (15 + 1) mcb_top initState.mem
            = .ok (mcb_top, clearOccupied initState.mem mcb_top 16384)
          ∧ loadShort (clearOccupied initState.mem mcb_top 16384) (m2a mcb_top)
            = .ok (sizeOf 16384)
          ∧ ∀ i, i ≠ m2a mcb_top → i ≠ m2a mcb_top + 1 →
              clearOccupied initState.mem mcb_top 16384 i = initState.mem i)
      ∧ ((b = sizeOf 16384 ∧ b % 2 = 0) →
          _rfree (15 + 1) mcb_top initState.mem
            = _rfree 15 (min mcb_top (buddyOf mcb_top (sizeOf 16384)))
                (mergeBuddies initState.mem mcb_top 16384)
          ∧ loadShort (mergeBuddies initState.mem mcb_top 16384)
              (m2a (max mcb_top (buddyOf mcb_top (sizeOf 16384)))) = .ok 0
          ∧ loadShort (mergeBuddies initState.mem mcb_top 16384)
              (m2a (min mcb_top (buddyOf mcb_top (sizeOf 16384)))) = .ok (2 * sizeOf 16384)
          ∧ ∀ i, i ≠ m2a mcb_top → i ≠ m2a mcb_top + 1 →
              i ≠ m2a (buddyOf mcb_top (sizeOf 16384)) →
              i ≠ m2a (buddyOf mcb_top (sizeOf 16384)) + 1 →
              mergeBuddies initState.mem mcb_top 16384 i = initState.mem i) := by
  have hv : loadShort initState.mem (m2a mcb_top) = .ok 16384 := by
    have := load_slot initState.mem 0 (by decide)
    rw [ent_init_first] at this
    simpa using this
  exact merge_only_with_equal_free_buddy 15 mcb_top initState.mem 16384 (by decide) (by decide)
    (reachable_tail_zero initState reachable_init) hv (by decide)

/-! ## Address scaling -/

/-- The base case of `_ralloc` on any window: with a free entry at `left` that is at least
the window's byte size, the call marks the entry and returns the scaled address. -/
theorem ralloc_base_ok (fuel : Nat) (S left right : Int) (m : Mem) (v : Int)
    (h1 : 32 ≤ S) (h2 : S ≤ 16384) (hw : left ≤ right)
    (hbase : ¬ S ≤ Int.tdiv (right - left + mcb_ent_sz) 2 * 16)
    (hv : loadShort m (m2a left) = .ok v) (hfree : v % 2 = 0)
    (hsz : v ≥ (right - left + mcb_ent_sz) * 16) :
    _ralloc (fuel + 1) S left right m
      = .ok (wrap32 ((left - 0x6800) * 16) + heap_top,
          putShort m (m2a left) ((right - left + mcb_ent_sz) * 16 + 1)) := by
  obtain ⟨hb, hv1, hv2⟩ := load_ok m _ v hv
  have hbor : bor ((right - left + mcb_ent_sz) * 16) 0x01
      = (right - left + mcb_ent_sz) * 16 + 1 := by
    apply bor_even_one
    · omega
    · unfold mcb_ent_sz; omega
    · omega
  rw [_ralloc]
  rw [if_neg (by unfold min_size max_size; omega), if_neg hbase, hv]
  simp only [tmod_two_eq_zero_iff]
  rw [if_pos hfree, if_pos hsz, hbor, store_ok m _ _ hb]

/-- What a call of `_ralloc` that takes the base case returns: `NULL`, or the scaled address
of its `left` argument. -/
theorem ralloc_base_result (fuel : Nat) (S left right : Int) (m : Mem) (A : Int) (m' : Mem)
    (hbase : ¬ S ≤ Int.tdiv (right - left + mcb_ent_sz) 2 * 16)
    (h : _ralloc (fuel + 1) S left right m = .ok (A, m')) (hA : A ≠ 0) :
    A = wrap32 ((left - 0x6800) * 16) + heap_top := by
  rw [_ralloc] at h
  by_cases hr : S < min_size ∨ S > max_size
  · rw [if_pos hr] at h
    simp only [Except.ok.injEq, Prod.mk.injEq] at h
    exact absurd h.1.symm hA
  · rw [if_neg hr, if_neg hbase] at h
    cases hl : loadShort m (m2a left) with
    | error e => rw [hl] at h; cases h
    | ok v =>
      rw [hl] at h
      simp only at h
      by_cases hev : Int.tmod v 2 = 0
      · rw [if_pos hev] at h
        by_cases hge : v ≥ (right - left + mcb_ent_sz) * 16
        · rw [if_pos hge] at h
          cases hs : storeShort m (m2a left) (bor ((right - left + mcb_ent_sz) * 16) 0x01) with
          | error e => rw [hs] at h; cases h
          | ok m1 =>
            rw [hs] at h
            simp only [Except.ok.injEq, Prod.mk.injEq] at h
            exact h.1.symm
        · rw [if_neg hge] at h
          simp only [Except.ok.injEq, Prod.mk.injEq] at h
          exact absurd h.1.symm hA
      · rw [if_neg hev] at h
        simp only [Except.ok.injEq, Prod.mk.injEq] at h
        exact absurd h.1.symm hA

theorem scaled_address (left : Int) (h1 : mcb_top ≤ left) (h2 : left ≤ mcb_bot) :
    wrap32 ((left - 0x6800) * 16) + heap_top = heap_top + 16 * (left - mcb_top)
      ∧ ¬ (wrap32 ((left - 0x6800) * 16) + heap_top < heap_top
            ∨ wrap32 ((left - 0x6800) * 16) + heap_top > heap_bot)
      ∧ mcb_top + Int.tdiv (wrap32 ((left - 0x6800) * 16) + heap_top - heap_top) 16 = left := by
  unfold mcb_top at h1
  unfold mcb_bot at h2
  have e1 : wrap32 ((left - 0x6800) * 16) = 16 * (left - 0x20006800) := by
    unfold wrap32; omega
  have e2 : Int.tdiv (16 * (left - 0x20006800)) 16 = left - 0x20006800 := by
    rw [Int.mul_tdiv_cancel_left _ (by decide)]
  refine ⟨by rw [e1]; unfold mcb_top; omega, by rw [e1]; unfold heap_top heap_bot; omega, ?_⟩
  rw [e1, add_sub_cancel_right, e2]; unfold mcb_top; omega

theorem kfree_of_slot (A left : Int) (m : Mem) (hr : ¬ (A < heap_top ∨ A > heap_bot))
    (hm : mcb_top + Int.tdiv (A - heap_top) 16 = left) :
    _kfree A m
      = match _rfree 16 left m with
        | .error e => .error e
        | .ok (r, m1) => if r = 0 then .ok (0, m1) else .ok (A, m1) := by
  unfold _kfree
  simp only []
  rw [if_neg hr]
  subst hm
  rfl

/-- The address a successful `_kalloc` returns is the scaled address of the entry it marked:
if `_kfree`'s mapping sends it to `left`, the entry at `left` is occupied after the call and
the address is `((left - 0x6800) << 4) + heap_top`. -/
theorem kalloc_scaled (S : Int) (m : Mem) (A : Int) (m' : Mem) (left : Int)
    (h : _kalloc S m = .ok (A, m')) (hA : A ≠ 0)
    (hm : mcb_top + Int.tdiv (A - heap_top) 16 = left) :
    mcb_top ≤ left ∧ left ≤ mcb_bot ∧ A = wrap32 ((left - 0x6800) * 16) + heap_top
      ∧ ∃ e, loadShort m' (m2a left) = .ok e ∧ e % 2 = 1 := by
  by_cases hr : S < 32 ∨ S > 16384
  · rw [kalloc_rejects S m hr] at h
    simp only [Except.ok.injEq, Prod.mk.injEq] at h
    exact absurd h.1.symm hA
  · obtain ⟨k, hk, _, hlo, hhi⟩ := blockSize_class S (by omega) (by omega)
    obtain ⟨r, m'', hr', hT, _, hsome⟩ :=
      kalloc_first_fit m S k (by omega) (by omega) (by omega) hlo hhi
    rw [h] at hr'
    simp only [Except.ok.injEq, Prod.mk.injEq] at hr'
    obtain ⟨hA', hmm⟩ := hr'
    subst hmm
    obtain ⟨a, T1⟩ := r
    cases a with
    | none => exact absurd hA' hA
    | some t =>
      obtain ⟨_, ht, _, _, hv⟩ := hsome t rfl
      have ht' : t < 512 := by norm_num at ht; omega
      have hA2 : A = heap_top + 32 * (t : Int) := hA'
      have e1 : Int.tdiv (heap_top + 32 * (t : Int) - heap_top) 16 = 2 * (t : Int) := by
        rw [add_sub_cancel_left]
        have : (32 * (t : Int)) = 16 * (2 * (t : Int)) := by ring
        rw [this, Int.mul_tdiv_cancel_left _ (by decide)]
      rw [hA2, e1] at hm
      subst hm
      have hp := two_pow_pos_int k
      refine ⟨by omega, by unfold mcb_bot mcb_top; omega, ?_, ent m' t,
        load_slot m' t (by omega), ?_⟩
      · rw [hA2]; unfold wrap32 mcb_top; omega
      · rw [← getE_tabOf m' t ht', hT]
        simp only at hv
        rw [hv]; omega

/-- C17: for every control-table address `left` in `[mcb_top, mcb_bot]`: the address that a
call of `_ralloc` taking the base case at `left` returns when it is not `NULL`, which is
`((left - 0x6800) << 4) + heap_top` with the shift wrapping to 32 bits, equals
`heap_top + 16 * (left - mcb_top)`, passes the range check of `_kfree`, and is mapped back to
exactly `left` by `mcb_top + (addr - heap_top) / 16`, so that `_kfree` of it runs `_rfree` on
`left`; such a call exists for every `left`; and whenever the address `_kalloc` returned is
mapped to `left`, it is this address and the entry at `left` is the one marked occupied. -/
theorem scaling_consistent (left : Int) (h1 : mcb_top ≤ left) (h2 : left ≤ mcb_bot) :
    (∀ (fuel : Nat) (S right : Int) (m : Mem) (A : Int) (m' : Mem),
        ¬ S ≤ Int.tdiv (right - left + mcb_ent_sz) 2 * 16 →
        _ralloc (fuel + 1) S left right m = .ok (A, m') → A ≠ 0 →
        A = wrap32 ((left - 0x6800) * 16) + heap_top
          ∧ A = heap_top + 16 * (left - mcb_top)
          ∧ ¬ (A < heap_top ∨ A > heap_bot)
          ∧ mcb_top + Int.tdiv (A - heap_top) 16 = left
          ∧ ∀ m2, _kfree A m2
              = match _rfree 16 left m2 with
                | .error e => .error e
                | .ok (r, m1) => if r = 0 then .ok (0, m1) else .ok (A, m1))
      ∧ (∃ (m : Mem) (A : Int) (m' : Mem), _ralloc 1 32 left left m = .ok (A, m') ∧ A ≠ 0)
      ∧ (∀ (S : Int) (m : Mem) (A : Int) (m' : Mem), _kalloc S m = .ok (A, m') → A ≠ 0 →
          mcb_top + Int.tdiv (A - heap_top) 16 = left →
          A = wrap32 ((left - 0x6800) * 16) + heap_top
            ∧ ∃ e, loadShort m' (m2a left) = .ok e ∧ e % 2 = 1)
      ∧ wrap32 ((left - 0x6800) * 16) + heap_top = heap_top + 16 * (left - mcb_top)
      ∧ ¬ (wrap32 ((left - 0x6800) * 16) + heap_top < heap_top
            ∨ wrap32 ((left - 0x6800) * 16) + heap_top > heap_bot)
      ∧ mcb_top + Int.tdiv (wrap32 ((left - 0x6800) * 16) + heap_top - heap_top) 16 = left
      ∧ ∀ m, _kfree (wrap32 ((left - 0x6800) * 16) + heap_top) m
          = match _rfree 16 left m with
            | .error e => .error e
            | .ok (r, m1) =>
              if r = 0 then .ok (0, m1)
              else .ok (wrap32 ((left - 0x6800) * 16) + heap_top, m1) := by
  obtain ⟨s1, s2, s3⟩ := scaled_address left h1 h2
  refine ⟨fun fuel S right m A m' hbase h hA => ?_, ?_,
    fun S m A m' h hA hm => (kalloc_scaled S m A m' left h hA hm).2.2, s1, s2, s3,
    fun m => kfree_of_slot _ left m s2 s3⟩
  · have e := ralloc_base_result fuel S left right m A m' hbase h hA
    subst e
    exact ⟨rfl, s1, s2, s3, fun m2 => kfree_of_slot _ left m2 s2 s3⟩
  · have hin : 0 ≤ m2a left ∧ m2a left + 1 < 0x8000 := by
      unfold m2a; unfold mcb_top at h1; unfold mcb_bot at h2; omega
    have hl : loadShort (putShort zeroMem (m2a left) 32) (m2a left) = .ok 32 := by
      rw [load_put_self _ _ _ hin.1 hin.2]; rfl
    have hb : ¬ (32 : Int) ≤ Int.tdiv (left - left + mcb_ent_sz) 2 * 16 := by
      rw [sub_self]; decide
    refine ⟨putShort zeroMem (m2a left) 32, _, _,
      ralloc_base_ok 0 32 left left _ 32 (by decide) (by decide) (le_refl _) hb hl
        (by decide) (by rw [sub_self]; decide), ?_⟩
    rw [s1]; unfold heap_top; unfold mcb_top at h1 ⊢; omega


theorem scaling_consistent_witness :
    (∀ (fuel : Nat) (S right : Int) (m : Mem) (A : Int) (m' : Mem),
        ¬ S ≤ Int.tdiv (right - mcb_bot + mcb_ent_sz) 2 * 16 →
        _ralloc (fuel + 1) S mcb_bot right m = .ok (A, m') → A ≠ 0 →
        A = wrap32 ((mcb_bot - 0x6800) * 16) + heap_top
          ∧ A = heap_top + 16 * (mcb_bot - mcb_top)
          ∧ ¬ (A < heap_top ∨ A > heap_bot)
          ∧ mcb_top + Int.tdiv (A - heap_top) 16 = mcb_bot
          ∧ ∀ m2, _kfree A m2
              = match _rfree 16 mcb_bot m2 with
                | .error e => .error e
                | .ok (r, m1) => if r = 0 then .ok (0, m1) else .ok (A, m1))
      ∧ (∃ (m : Mem) (A : Int) (m' : Mem), _ralloc 1 32 mcb_bot mcb_bot m = .ok (A, m') ∧ A ≠ 0)
      ∧ (∀ (S : Int) (m : Mem) (A : Int) (m' : Mem), _kalloc S m = .ok (A, m') → A ≠ 0 →
          mcb_top + Int.tdiv (A - heap_top) 16 = mcb_bot →
          A = wrap32 ((mcb_bot - 0x6800) * 16) + heap_top
            ∧ ∃ e, loadShort m' (m2a mcb_bot) = .ok e ∧ e % 2 = 1)
      ∧ wrap32 ((mcb_bot - 0x6800) * 16) + heap_top = heap_top + 16 * (mcb_bot - mcb_top)
      ∧ ¬ (wrap32 ((mcb_bot - 0x6800) * 16) + heap_top < heap_top
            ∨ wrap32 ((mcb_bot - 0x6800) * 16) + heap_top > heap_bot)
      ∧ mcb_top + Int.tdiv (wrap32 ((mcb_bot - 0x6800) * 16) + heap_top - heap_top) 16 = mcb_bot
      ∧ ∀ m, _kfree (wrap32 ((mcb_bot - 0x6800) * 16) + heap_top) m
          = match _rfree 16 mcb_bot m with
            | .error e => .error e
            | .ok (r, m1) =>
              if r = 0 then .ok (0, m1)
              else .ok (wrap32 ((mcb_bot - 0x6800) * 16) + heap_top, m1) :=
  scaling_consistent mcb_bot (by decide) (le_refl _)

/-! ## Termination of `_kalloc` -/

/-- A call of `_ralloc` that returns within a recursion budget returns the same with a
larger one. -/
theorem ralloc_fuel_succ : ∀ (fuel : Nat) (S l r : Int) (m : Mem) (res : Int × Mem),
    _ralloc fuel S l r m = .ok res → _ralloc (fuel + 1) S l r m = .ok res := by
  intro fuel
  induction fuel with
  | zero => intro S l r m res h; rw [_ralloc] at h; cases h
  | succ n ih =>
    intro S l r m res h
    rw [_ralloc] at h ⊢
    by_cases hr : S < min_size ∨ S > max_size
    · rw [if_pos hr] at h ⊢; exact h
    · rw [if_neg hr] at h ⊢
      by_cases hf : S ≤ Int.tdiv (r - l + mcb_ent_sz) 2 * 16
      · rw [if_pos hf] at h ⊢
        cases hL : _ralloc n S l (l + Int.tdiv (r - l + mcb_ent_sz) 2 - mcb_ent_sz) m with
        | error e => rw [hL] at h; cases h
        | ok p =>
          obtain ⟨ra, m1⟩ := p
          rw [hL] at h
          rw [ih _ _ _ _ _ hL]
          simp only at h ⊢
          by_cases h0 : ra = 0
          · rw [if_pos h0] at h ⊢
            exact ih _ _ _ _ _ h
          · rw [if_neg h0] at h ⊢
            exact h
      · rw [if_neg hf] at h ⊢
        exact h

theorem ralloc_fuel_mono (f f' : Nat) (S l r : Int) (m : Mem) (res : Int × Mem) (hle : f ≤ f')
    (h : _ralloc f S l r m = .ok res) : _ralloc f' S l r m = .ok res := by
  induction f' with
  | zero =>
    have : f = 0 := by omega
    subst this; exact h
  | succ n ih =>
    rcases Nat.eq_or_lt_of_le hle with e | e
    · subst e; exact h
    · exact ralloc_fuel_succ n S l r m res (ih (by omega))

theorem ralloc_returns (S : Int) (m : Mem) (j i : Nat) (hj : j ≤ 9) (hi : i + 2 ^ j ≤ 512) :
    ∃ p m', _ralloc (j + 1) S (mcb_top + 2 * (i : Int))
      (mcb_top + 2 * (i : Int) + 2 * 2 ^ j - 2) m = .ok (p, m') := by
  by_cases hr : S < 32 ∨ S > 16384
  · refine ⟨0, m, ?_⟩
    rw [_ralloc, if_pos (by unfold min_size max_size; exact hr)]
  · obtain ⟨m', h, _⟩ := ralloc_refines j (j + 1) S i m (by omega) hj hi (by omega) (by omega)
    exact ⟨_, m', h⟩

/-- A request of at most 32 bytes descends to the one-entry windows: on a window of
`2 ^ j` entries a budget of `j` calls is not enough. -/
theorem ralloc_depth_reached (m : Mem) : ∀ (j i : Nat), j ≤ 9 → i + 2 ^ j ≤ 512 →
    _ralloc j 32 (mcb_top + 2 * (i : Int)) (mcb_top + 2 * (i : Int) + 2 * 2 ^ j - 2) m
      = .error .fuel := by
  intro j
  induction j with
  | zero => intro i _ _; rw [_ralloc]
  | succ j ih =>
    intro i hj hi
    have hp := two_pow_pos_int j
    have e2 := two_pow_succ j
    rw [ralloc_rec_step j j 32 i m hi (by decide) (by decide) (by omega),
      ih i (by omega) (by omega)]

/-- C18: for every size `S` and every image, `_kalloc(S) = _ralloc(S, mcb_top, mcb_bot)`
returns, and it returns within a nesting depth of 9 below the top-level call: the budget of
ten nested calls is never exhausted and a larger budget gives the same result.  A call on a
window of `2 ^ j` entries (`2 * 2 ^ j` bytes of table) returns within depth `j`, because for
a size that fits in half the window both recursive calls are on windows of half the width;
a one-entry window takes the base case (a valid size is at least 32, more than the 16 bytes
of half such a window).  The depth 9 is reached by a request of 32 bytes. -/
theorem kalloc_terminates (S : Int) (m : Mem) :
    (∃ p m', _kalloc S m = .ok (p, m'))
      ∧ (∀ fuel, 10 ≤ fuel → _ralloc fuel S mcb_top mcb_bot m = _kalloc S m)
      ∧ (∀ (j i : Nat), j ≤ 9 → i + 2 ^ j ≤ 512 →
          ∃ p m', _ralloc (j + 1) S (mcb_top + 2 * (i : Int))
            (mcb_top + 2 * (i : Int) + 2 * 2 ^ j - 2) m = .ok (p, m'))
      ∧ (∀ (fuel j i : Nat), i + 2 ^ (j + 1) ≤ 512 → 32 ≤ S → S ≤ 16384 → S ≤ 32 * 2 ^ j →
          _ralloc (fuel + 1) S (mcb_top + 2 * (i : Int))
              (mcb_top + 2 * (i : Int) + 2 * 2 ^ (j + 1) - 2) m
            = match _ralloc fuel S (mcb_top + 2 * (i : Int))
                      (mcb_top + 2 * (i : Int) + 2 * 2 ^ j - 2) m with
              | .error e => .error e
              | .ok (returnAddress, m1) =>
                if returnAddress = 0 then
                  _ralloc fuel S (mcb_top + 2 * ((i + 2 ^ j : Nat) : Int))
                    (mcb_top + 2 * ((i + 2 ^ j : Nat) : Int) + 2 * 2 ^ j - 2) m1
                else if ent m1 (i + 2 ^ j) % 2 = 0 then
                  .ok (returnAddress,
                    putShort m1 (0x6800 + 2 * ((i + 2 ^ j : Nat) : Int)) (32 * 2 ^ j))
                else .ok (returnAddress, m1))
      ∧ (∀ (fuel i : Nat), i < 512 → 32 ≤ S → S ≤ 16384 →
          _ralloc (fuel + 1) S (mcb_top + 2 * (i : Int)) (mcb_top + 2 * (i : Int)) m
            = if ent m i % 2 = 0 ∧ ent m i ≥ 32 then
                .ok (heap_top + 32 * (i : Int), putShort m (0x6800 + 2 * (i : Int)) 33)
              else .ok (0, m))
      ∧ _ralloc 9 32 mcb_top mcb_bot m = .error .fuel := by
  obtain ⟨w1, w2⟩ := kalloc_window
  have top := ralloc_returns S m 9 0 (by decide) (by decide)
  rw [← w1, ← w2] at top
  refine ⟨top, fun fuel hf => ?_, fun j i hj hi => ralloc_returns S m j i hj hi,
    fun fuel j i hi h1 h2 hfit => ralloc_rec_step fuel j S i m hi h1 h2 hfit,
    fun fuel i hi h1 h2 => ?_, ?_⟩
  · obtain ⟨p, m', h⟩ := top
    unfold _kalloc
    rw [h]
    exact ralloc_fuel_mono 10 fuel S _ _ m _ hf h
  · have := ralloc_base_step fuel 0 S i m (by decide) (by norm_num; omega) h1 h2
      (by norm_num; omega)
    have e1 : mcb_top + 2 * (i : Int) + 2 * 2 ^ 0 - 2 = mcb_top + 2 * (i : Int) := by norm_num
    have e2 : (32 : Int) * 2 ^ 0 = 32 := by norm_num
    have e3 : (32 : Int) + 1 = 33 := by norm_num
    rw [e1, e2, e3] at this
    exact this
  · have := ralloc_depth_reached m 9 0 (by decide) (by decide)
    rw [← w1, ← w2] at this
    exact this


/-! ## Entries in reachable states -/

theorem block_pow (k : Nat) : (32 : Int) * 2 ^ k = 2 ^ (k + 5) := by
  rw [pow_add]; norm_num; ring

theorem block_le_max (k : Nat) (hk : k ≤ 9) : (32 : Int) * 2 ^ k ≤ 16384 := by
  have := two_pow_le_512 k hk
  omega

theorem block_div16 (k : Nat) : (32 : Int) * 2 ^ k / 16 = 2 * 2 ^ k := by
  have : (32 * 2 ^ k : Int) = 16 * (2 * 2 ^ k) := by ring
  rw [this, Int.mul_ediv_cancel_left _ (by decide)]

/-- C19: in every state reachable from the state after `_kinit` by calls of `_kalloc` and
calls of `_kfree` on currently allocated addresses, every non-zero control entry has a
recorded size (the entry with its low bit cleared) that is a power of two between 32 and
16384, and the offset of the entry from `mcb_top` is a multiple of that size divided
by 16. -/
theorem entries_power_of_two (st : State) (h : Reachable st) (s : Nat) (hs : s < 512)
    (hne : ent st.mem s ≠ 0) :
    (∃ n : Nat, sizeOf (ent st.mem s) = 2 ^ n)
      ∧ 32 ≤ sizeOf (ent st.mem s) ∧ sizeOf (ent st.mem s) ≤ 16384
      ∧ (mcb_top + 2 * (s : Int) - mcb_top) % (sizeOf (ent st.mem s) / 16) = 0 := by
  obtain ⟨hg, _, _⟩ := reachable_inv st h
  have hw := good_wfEntry (tabOf st.mem) s hg hs
  unfold WFEntry at hw
  rw [getE_tabOf st.mem s hs] at hw
  rcases hw with h0 | ⟨k, hk, hl, ⟨q, hq⟩⟩
  · exact absurd h0 hne
  · have hp := two_pow_pos_int k
    rw [sizeOf_of_level _ k hl, block_div16 k]
    refine ⟨⟨k + 5, block_pow k⟩, by omega, block_le_max k hk, ?_⟩
    rw [add_sub_cancel_left, hq]
    push_cast
    rw [← mul_assoc]
    exact Int.mul_emod_right _ _

theorem entries_power_of_two_witness :
    (∃ n : Nat, sizeOf (ent initState.mem 0) = 2 ^ n)
      ∧ 32 ≤ sizeOf (ent initState.mem 0) ∧ sizeOf (ent initState.mem 0) ≤ 16384
      ∧ (mcb_top + 2 * ((0 : Nat) : Int) - mcb_top) % (sizeOf (ent initState.mem 0) / 16) = 0 :=
  entries_power_of_two initState reachable_init 0 (by decide)
    (by rw [ent_init_first]; decide)

/-- C20: in every state reachable from the state after `_kinit` by calls of `_kalloc` and
calls of `_kfree` on currently allocated addresses, for every address `A` handed out by
`_kalloc` and not yet freed: the entry of `A` is an occupied block entry, so that
`mcb_contents / 16` is not zero; the buddy address `_rfree` computes lies inside the array;
and `_kfree(A)` returns, with result `A`, leaving the entry of `A` zero or a free block
entry (occupied bit clear). -/
theorem kfree_live_safe (st : State) (h : Reachable st) (A : Int)
    (hA : A ∈ st.live.map Prod.fst) :
    ∃ (t k : Nat) (m' : Mem), t < 512 ∧ A = heap_top + 32 * (t : Int) ∧ k ≤ 9
      ∧ ent st.mem t = 32 * 2 ^ k + 1
      ∧ Int.tdiv (band (ent st.mem t) 0xFFFFFFFE) 16 ≠ 0
      ∧ (0 ≤ m2a (buddyOf (mcb_top + 2 * (t : Int)) (sizeOf (ent st.mem t)))
          ∧ m2a (buddyOf (mcb_top + 2 * (t : Int)) (sizeOf (ent st.mem t))) + 1 < 0x8000)
      ∧ _kfree A st.mem = .ok (A, m')
      ∧ ent m' t % 2 = 0
      ∧ (ent m' t = 0 ∨ ∃ k', k ≤ k' ∧ ent m' t = 32 * 2 ^ k') := by
  obtain ⟨hg, h0, hlive⟩ := reachable_inv st h
  obtain ⟨b, hb, rfl⟩ := List.mem_map.1 hA
  obtain ⟨t, ht, hbt, hodd⟩ := hlive b hb
  obtain ⟨T', k, hk, hl, hpost⟩ := kfreeT_post (tabOf st.mem) t hg ht hodd
  obtain ⟨hk9, _⟩ := good_level (tabOf st.mem) t k hg ht hl
  obtain ⟨m', hf, hT', _⟩ := (kfree_refines _ st.mem h0).2 _ _ hk
  have hp := two_pow_pos_int k
  have h512 := two_pow_le_512 k hk9
  rw [getE_tabOf st.mem t ht] at hodd hl
  have hv : ent st.mem t = 32 * 2 ^ k + 1 := by
    rcases hl with e | e
    · rw [e] at hodd; omega
    · exact e
  have hsz : sizeOf (ent st.mem t) = 32 * 2 ^ k := by rw [hv]; unfold sizeOf; omega
  obtain ⟨g1, g2, _, _⟩ := buddyOf_bounds (mcb_top + 2 * (t : Int)) (32 * 2 ^ k)
    (by omega) (by unfold mcb_top mcb_bot; omega) (by omega) (by omega)
  have hend := hpost.2.2.2
  rw [← hT', getE_tabOf m' t ht] at hend
  refine ⟨t, k, m', ht, hbt, hk9, hv, ?_, ?_, ?_, ?_, hend⟩
  · rw [hv, band_block_clear k hk9, Int.tdiv_eq_ediv (by omega) (by decide), block_div16]
    omega
  · have et : mcb_top = 0x20006800 := rfl
    rw [hsz]; unfold m2a; omega
  · rw [hbt]; exact hf
  · rcases hend with e | ⟨k', _, e⟩
    · rw [e]; rfl
    · have := two_pow_pos_int k'
      rw [e]; omega

set_option maxRecDepth 100000 in
theorem live_after_alloc_run :
    (runT [.alloc 32] (initTab, [])).map Prod.snd = some [(heap_top, 32)] := by
  decide!

theorem kfree_live_safe_witness :
    ∃ st, Reachable st ∧ heap_top ∈ st.live.map Prod.fst
      ∧ ∃ (t k : Nat) (m' : Mem), t < 512 ∧ heap_top = heap_top + 32 * (t : Int) ∧ k ≤ 9
        ∧ ent st.mem t = 32 * 2 ^ k + 1
        ∧ Int.tdiv (band (ent st.mem t) 0xFFFFFFFE) 16 ≠ 0
        ∧ (0 ≤ m2a (buddyOf (mcb_top + 2 * (t : Int)) (sizeOf (ent st.mem t)))
            ∧ m2a (buddyOf (mcb_top + 2 * (t : Int)) (sizeOf (ent st.mem t))) + 1 < 0x8000)
        ∧ _kfree heap_top st.mem = .ok (heap_top, m')
        ∧ ent m' t % 2 = 0
        ∧ (ent m' t = 0 ∨ ∃ k', k ≤ k' ∧ ent m' t = 32 * 2 ^ k') := by
  obtain ⟨m1, hrun, _⟩ := run_init_live _ _ live_after_alloc_run
  have hr : Reachable ⟨m1, [(heap_top, 32)]⟩ := ⟨_, hrun⟩
  have hm : heap_top ∈ (State.mk m1 [(heap_top, 32)]).live.map Prod.fst := by simp
  exact ⟨_, hr, hm, kfree_live_safe _ hr heap_top hm⟩


end Heap
